import Mathlib

/-!
# Verification of the RAAM client (raam.client.js)

A shallow embedding of the RAAM (Random Access Authenticated Messaging)
client library.  Balanced trits are modelled as `Int` (valid values are
-1, 0, 1), tryte strings as `List Nat` (each entry is the index of the
character in the alphabet `9ABC…Z`, hence `< 27`).

The sponge hash (Kerl, an external dependency the specification treats as
an assumed primitive) is modelled abstractly: a function
`K : List Int → Nat → Int` maps the sequence of absorbed trits and a
squeeze position to the squeezed trit.  Squeezing `n` trits starting at
offset `off` is `squeezeK K absorbed off n`.  Successive squeezes from one
sponge state read successive offsets, and separate `absorb` calls (always
multiples of 243 trits in this code base) concatenate the absorbed input.
-/

namespace Raam

/-- Tryte strings: a list of alphabet indices (`9` ↦ 0, `A` ↦ 1, …, `Z` ↦ 26). -/
abbrev Trytes := List Nat

/-- A balanced trit is -1, 0 or 1. -/
def isTrit (t : Int) : Prop := t = -1 ∨ t = 0 ∨ t = 1

instance (t : Int) : Decidable (isTrit t) := by
  unfold isTrit; infer_instance

/-- All entries of the list are balanced trits. -/
def validTrits (l : List Int) : Prop := ∀ t ∈ l, isTrit t

/-- The value of a tryte character: alphabet indices 0..13 denote themselves,
14..26 denote negative values (index - 27). -/
def charValue (c : Nat) : Int := if c ≤ 13 then (c : Int) else (c : Int) - 27

/-- The balanced-ternary digit of an integer (residue 2 becomes -1). -/
def balTrit (v : Int) : Int := if v % 3 = 2 then -1 else v % 3

/-- The three balanced trits of one tryte character (`@iota/converter`). -/
def tryteToTrits (c : Nat) : List Int :=
  let v := charValue c
  let t0 := balTrit v
  let v1 := (v - t0) / 3
  let t1 := balTrit v1
  let t2 := (v1 - t1) / 3
  [t0, t1, t2]

/-- `converter.trits`: a tryte string as balanced trits, 3 per character. -/
def trits (s : Trytes) : List Int := (s.map tryteToTrits).flatten

/-- Value of a group of three trits (little-endian). -/
def tritsValue3 (t0 t1 t2 : Int) : Int := t0 + 3 * t1 + 9 * t2

/-- The alphabet index of a tryte value in [-13, 13] (`converter.trytes`,
one character). -/
def charOfValue (v : Int) : Nat := (if v < 0 then v + 27 else v).toNat

/-- `converter.trytes`: trits to a tryte string, consuming 3 trits per
character (a trailing group of fewer than 3 trits is dropped, as the
converter requires a multiple of 3). -/
def trytes : List Int → Trytes
  | t0 :: t1 :: t2 :: rest => charOfValue (tritsValue3 t0 t1 t2) :: trytes rest
  | _ => []

/-- `converter.value`: little-endian balanced-ternary value of a trit list. -/
def value (l : List Int) : Int := l.foldr (fun t acc => t + 3 * acc) 0

/-- `converter.fromValue`: minimal balanced-ternary digits of an integer. -/
def fromValue (v : Int) : List Int :=
  if h : v = 0 then [] else balTrit v :: fromValue ((v - balTrit v) / 3)
termination_by v.natAbs
decreasing_by
  simp only [balTrit]
  split <;> omega

/-! ## Basic facts about the ternary conversions -/

theorem balTrit_isTrit (v : Int) : isTrit (balTrit v) := by
  unfold isTrit balTrit
  split <;> omega

theorem balTrit_add (v : Int) : balTrit v + 3 * ((v - balTrit v) / 3) = v := by
  unfold balTrit
  split <;> omega

theorem charValue_bounds (c : Nat) (h : c < 27) :
    -13 ≤ charValue c ∧ charValue c ≤ 13 := by
  unfold charValue
  split <;> omega

theorem tryteToTrits_valid (c : Nat) (h : c < 27) :
    validTrits (tryteToTrits c) := by
  intro t ht
  unfold tryteToTrits at ht
  simp only [List.mem_cons, List.not_mem_nil, or_false] at ht
  have h1 := balTrit_isTrit (charValue c)
  have h2 := balTrit_isTrit ((charValue c - balTrit (charValue c)) / 3)
  have hb := charValue_bounds c h
  unfold isTrit at *
  rcases ht with rfl | rfl | rfl
  · exact h1
  · exact h2
  · unfold balTrit at *
    split at h1 <;> split at h2 <;> omega

theorem value_tryteToTrits (c : Nat) :
    value (tryteToTrits c) = charValue c := by
  unfold tryteToTrits value
  simp only [List.foldr]
  have h1 := balTrit_add (charValue c)
  have h2 := balTrit_add ((charValue c - balTrit (charValue c)) / 3)
  omega

theorem tryteToTrits_length (c : Nat) : (tryteToTrits c).length = 3 := rfl

theorem trits_nil : trits [] = [] := rfl

theorem trits_cons (c : Nat) (s : Trytes) :
    trits (c :: s) = tryteToTrits c ++ trits s := by
  simp [trits]

theorem trits_length (s : Trytes) : (trits s).length = 3 * s.length := by
  induction s with
  | nil => rfl
  | cons c rest ih =>
    rw [trits_cons, List.length_append, tryteToTrits_length, ih]
    simp only [List.length_cons]
    ring

theorem trits_append (a b : Trytes) : trits (a ++ b) = trits a ++ trits b := by
  simp [trits]

theorem trits_valid (s : Trytes) (h : ∀ c ∈ s, c < 27) : validTrits (trits s) := by
  induction s with
  | nil => intro t ht; simp [trits] at ht
  | cons c rest ih =>
    intro t ht
    rw [trits_cons] at ht
    rcases List.mem_append.mp ht with h1 | h2
    · exact tryteToTrits_valid c (h c (by simp)) t h1
    · exact ih (fun x hx => h x (by simp [hx])) t h2

theorem value_cons (t : Int) (l : List Int) : value (t :: l) = t + 3 * value l := rfl

theorem tritsValue3_eq_value (t0 t1 t2 : Int) :
    tritsValue3 t0 t1 t2 = value [t0, t1, t2] := by
  simp only [value, List.foldr, tritsValue3]
  ring

theorem charOfValue_charValue (c : Nat) (h : c < 27) :
    charOfValue (charValue c) = c := by
  unfold charOfValue charValue
  split <;> omega

theorem charValue_charOfValue (v : Int) (h1 : -13 ≤ v) (h2 : v ≤ 13) :
    charValue (charOfValue v) = v := by
  unfold charValue charOfValue
  split <;> split <;> omega

theorem trytes_nil : trytes [] = [] := rfl

theorem trytes_cons3 (t0 t1 t2 : Int) (l : List Int) :
    trytes (t0 :: t1 :: t2 :: l) = charOfValue (tritsValue3 t0 t1 t2) :: trytes l := rfl

/-- Converting a tryte string to trits and back gives the original string. -/
theorem trytes_trits (s : Trytes) (h : ∀ c ∈ s, c < 27) : trytes (trits s) = s := by
  induction s with
  | nil => rfl
  | cons c rest ih =>
    rw [trits_cons]
    show trytes (_ :: _ :: _ :: trits rest) = _
    rw [trytes_cons3, tritsValue3_eq_value]
    have : value [balTrit (charValue c), balTrit ((charValue c - balTrit (charValue c)) / 3),
        ((charValue c - balTrit (charValue c)) / 3 -
          balTrit ((charValue c - balTrit (charValue c)) / 3)) / 3] = charValue c :=
      value_tryteToTrits c
    rw [this, charOfValue_charValue c (h c (by simp)), ih (fun x hx => h x (by simp [hx]))]

theorem tryteToTrits_charOfValue (t0 t1 t2 : Int)
    (h0 : isTrit t0) (h1 : isTrit t1) (h2 : isTrit t2) :
    tryteToTrits (charOfValue (tritsValue3 t0 t1 t2)) = [t0, t1, t2] := by
  unfold isTrit at h0 h1 h2
  rcases h0 with rfl | rfl | rfl <;> rcases h1 with rfl | rfl | rfl <;>
    rcases h2 with rfl | rfl | rfl <;> decide

/-- Converting valid trits (a multiple of 3 of them) to trytes and back is the
identity. -/
theorem trits_trytes : ∀ (l : List Int), validTrits l → 3 ∣ l.length → trits (trytes l) = l
  | [], _, _ => rfl
  | [t0], _, hl => by simp at hl
  | [t0, t1], _, hl => by simp at hl; omega
  | t0 :: t1 :: t2 :: rest, hv, hl => by
    rw [trytes_cons3, trits_cons,
      tryteToTrits_charOfValue t0 t1 t2 (hv t0 (by simp)) (hv t1 (by simp)) (hv t2 (by simp)),
      trits_trytes rest (fun t ht => hv t (by simp [ht]))
        (by simp only [List.length_cons] at hl; omega)]
    rfl

theorem trytes_length : ∀ (l : List Int), (trytes l).length = l.length / 3
  | [] => rfl
  | [t0] => by simp [trytes]
  | [t0, t1] => by simp [trytes]
  | t0 :: t1 :: t2 :: rest => by
    rw [trytes_cons3]
    simp only [List.length_cons]
    rw [trytes_length rest]
    omega

theorem trytes_append : ∀ (a : List Int), 3 ∣ a.length →
    ∀ (b : List Int), trytes (a ++ b) = trytes a ++ trytes b
  | [], _, b => rfl
  | [t0], ha, b => by simp at ha
  | [t0, t1], ha, b => by simp at ha; omega
  | t0 :: t1 :: t2 :: rest, ha, b => by
    simp only [List.cons_append, trytes_cons3]
    rw [trytes_append rest (by simp only [List.length_cons] at ha; omega) b]

theorem trytes_lt27 : ∀ (l : List Int), validTrits l → ∀ c ∈ trytes l, c < 27
  | [], _ => by intro c hc; simp [trytes] at hc
  | [t0], _ => by intro c hc; simp [trytes] at hc
  | [t0, t1], _ => by intro c hc; simp [trytes] at hc
  | t0 :: t1 :: t2 :: rest, hv => by
    intro c hc
    rw [trytes_cons3] at hc
    rcases List.mem_cons.mp hc with rfl | h
    · have h0 := hv t0 (by simp)
      have h1 := hv t1 (by simp)
      have h2 := hv t2 (by simp)
      unfold isTrit at h0 h1 h2
      unfold charOfValue tritsValue3
      split <;> omega
    · exact trytes_lt27 rest (fun t ht => hv t (by simp [ht])) c h

/-- Balanced-ternary values of valid trit lists are bounded. -/
theorem value_bound (l : List Int) (h : validTrits l) :
    2 * (value l).natAbs + 1 ≤ 3 ^ l.length := by
  induction l with
  | nil => simp [value]
  | cons t rest ih =>
    have ht := h t (by simp)
    have hrest := ih (fun x hx => h x (by simp [hx]))
    rw [value_cons]
    unfold isTrit at ht
    have : (t + 3 * value rest).natAbs ≤ 1 + 3 * (value rest).natAbs := by
      rcases ht with rfl | rfl | rfl <;> omega
    calc 2 * (t + 3 * value rest).natAbs + 1
        ≤ 2 * (1 + 3 * (value rest).natAbs) + 1 := by omega
      _ ≤ 3 ^ (rest.length + 1) := by
          rw [pow_succ]
          omega
      _ = 3 ^ (t :: rest).length := by simp

/-- Two valid trit lists of the same length with the same value are equal. -/
theorem value_inj (a b : List Int) (ha : validTrits a) (hb : validTrits b)
    (hlen : a.length = b.length) (hv : value a = value b) : a = b := by
  induction a generalizing b with
  | nil =>
    cases b with
    | nil => rfl
    | cons x xs => simp at hlen
  | cons x xs ih =>
    cases b with
    | nil => simp at hlen
    | cons y ys =>
      have hx := ha x (by simp)
      have hy := hb y (by simp)
      rw [value_cons, value_cons] at hv
      unfold isTrit at hx hy
      have hxy : x = y := by rcases hx with rfl | rfl | rfl <;> rcases hy with rfl | rfl | rfl <;> omega
      subst hxy
      have : value xs = value ys := by omega
      rw [ih ys (fun t ht => ha t (by simp [ht])) (fun t ht => hb t (by simp [ht]))
        (by simpa using hlen) this]

theorem fromValue_valid (v : Int) : validTrits (fromValue v) := by
  induction v using fromValue.induct with
  | case1 => rw [fromValue]; simp [validTrits]
  | case2 v h ih =>
    rw [fromValue]
    simp only [h, dite_false]
    intro t ht
    rcases List.mem_cons.mp ht with rfl | hmem
    · exact balTrit_isTrit v
    · exact ih t hmem

theorem fromValue_value (v : Int) : value (fromValue v) = v := by
  induction v using fromValue.induct with
  | case1 => rw [fromValue]; simp [value]
  | case2 v h ih =>
    rw [fromValue]
    simp only [h, dite_false]
    rw [value_cons, ih]
    have := balTrit_add v
    omega

theorem fromValue_length_le (n : Nat) (v : Int) (h : v.natAbs ≤ (3 ^ n - 1) / 2) :
    (fromValue v).length ≤ n := by
  induction n generalizing v with
  | zero =>
    simp only [pow_zero] at h
    have : v = 0 := by omega
    subst this
    rw [fromValue]
    simp
  | succ n ih =>
    by_cases hv : v = 0
    · subst hv; rw [fromValue]; simp
    · rw [fromValue]
      simp only [hv, dite_false, List.length_cons]
      have hb := balTrit_isTrit v
      have hadd := balTrit_add v
      have hodd : 3 ^ n % 2 = 1 := by
        rw [Nat.pow_mod]
        norm_num
      have hrec : ((v - balTrit v) / 3).natAbs ≤ (3 ^ n - 1) / 2 := by
        unfold isTrit at hb
        have hpow : (3 : Nat) ^ (n + 1) = 3 * 3 ^ n := by ring
        rw [hpow] at h
        rcases hb with he | he | he <;> rw [he] at hadd ⊢ <;> omega
      have := ih ((v - balTrit v) / 3) hrec
      omega

/-! ## The abstract sponge and padding -/

/-- `Kerl.HASH_LENGTH`. -/
def HASH_LENGTH : Nat := 243

/-- Squeeze `n` trits from the sponge `K` after absorbing `absorbed`,
starting at squeeze offset `off`. -/
def squeezeK (K : List Int → Nat → Int) (absorbed : List Int) (off n : Nat) : List Int :=
  (List.range' off n).map (K absorbed)

/-- A sponge is trit-valued: every squeezed position is a balanced trit. -/
def spongeValid (K : List Int → Nat → Int) : Prop := ∀ a i, isTrit (K a i)

theorem squeezeK_length (K : List Int → Nat → Int) (a : List Int) (off n : Nat) :
    (squeezeK K a off n).length = n := by
  simp [squeezeK]

theorem squeezeK_valid (K : List Int → Nat → Int) (hK : spongeValid K) (a : List Int)
    (off n : Nat) : validTrits (squeezeK K a off n) := by
  intro t ht
  simp only [squeezeK, List.mem_map] at ht
  obtain ⟨j, _, rfl⟩ := ht
  exact hK a j

theorem range'_take : ∀ (off n t : Nat), (List.range' off n).take t = List.range' off (min t n)
  | off, 0, t => by simp
  | off, n + 1, 0 => by simp
  | off, n + 1, t + 1 => by
    rw [List.range'_succ, List.take_succ_cons, range'_take (off + 1) n t,
      Nat.succ_min_succ, List.range'_succ]

theorem range'_drop : ∀ (off n d : Nat), (List.range' off n).drop d = List.range' (off + d) (n - d)
  | off, 0, d => by simp
  | off, n + 1, 0 => by simp
  | off, n + 1, d + 1 => by
    rw [List.range'_succ, List.drop_succ_cons, range'_drop (off + 1) n d]
    congr 1 <;> omega

theorem squeezeK_take (K : List Int → Nat → Int) (a : List Int) (off n t : Nat)
    (h : t ≤ n) : (squeezeK K a off n).take t = squeezeK K a off t := by
  unfold squeezeK
  rw [← List.map_take, range'_take, Nat.min_eq_left h]

theorem squeezeK_drop (K : List Int → Nat → Int) (a : List Int) (off n d : Nat) :
    (squeezeK K a off n).drop d = squeezeK K a (off + d) (n - d) := by
  unfold squeezeK
  rw [← List.map_drop, range'_drop]

theorem squeezeK_append (K : List Int → Nat → Int) (a : List Int) (off m n : Nat) :
    squeezeK K a off m ++ squeezeK K a (off + m) n = squeezeK K a off (m + n) := by
  unfold squeezeK
  rw [← List.map_append]
  have h1 : off + m = off + 1 * m := by omega
  rw [h1, List.range'_append, Nat.add_comm n m]

/-- `@iota/pad` `padTrits(length)`: append zero trits up to `length`
(lists already at least that long are returned unchanged). -/
def padTritsTo (n : Nat) (l : List Int) : List Int := l ++ List.replicate (n - l.length) 0

/-- `helpers.padTritsMultipleOf`. -/
def padTritsMultipleOf (base minLength : Nat) (l : List Int) : List Int :=
  padTritsTo (if l.length ≤ minLength then minLength else (l.length / base + 1) * base) l

/-- `@iota/pad` `padTrytes(length)`: append `9`s up to `length`. -/
def padTrytesTo (n : Nat) (s : Trytes) : Trytes := s ++ List.replicate (n - s.length) 0

/-- `helpers.padTrytesMultipleOf`. -/
def padTrytesMultipleOf (base minLength : Nat) (s : Trytes) : Trytes :=
  padTrytesTo (if s.length ≤ minLength then minLength else ((s.length + base - 1) / base) * base) s

/-! ## One-time signatures (`src/lib/sign.js`) -/

/-- One initialize/absorb/squeeze round of the sponge on a 243-trit fragment
(the hash-chain step used by `createSignature` and `verifyMessage`). -/
def kerlHash (K : List Int → Nat → Int) (f : List Int) : List Int :=
  squeezeK K f 0 HASH_LENGTH

/-- `getMessageDigest`: absorb the padded message trits and squeeze
`ceil(fragments / 243) * 243` trits. -/
def getMessageDigest (K : List Int → Nat → Int) (message : Trytes) (fragments : Nat) :
    List Int :=
  squeezeK K (padTritsMultipleOf HASH_LENGTH HASH_LENGTH (trits message)) 0
    ((fragments + 242) / 243 * 243)

/-- The digest trits as per-tryte values (`converter.trytes` then
`converter.value` of each character), the first step of
`normalizeMessageDigest`. -/
def digestTryteValues (md : List Int) : List Int :=
  (trytes md).map (fun c => value (tryteToTrits c))

/-- Decrement the first entry equal to 13 (one pass of the 13-elimination
loop of `normalizeMessageDigest`). -/
def dec13 : List Int → List Int
  | [] => []
  | x :: xs => if x = 13 then (x - 1) :: xs else x :: dec13 xs

theorem dec13_count : ∀ l : List Int, 13 ∈ l → (dec13 l).count 13 < l.count 13
  | [], h => by simp at h
  | x :: xs, h => by
    unfold dec13
    by_cases hx : x = (13 : Int)
    · subst hx
      simp [List.count_cons]
    · have hmem : (13 : Int) ∈ xs := by
        rcases List.mem_cons.mp h with h1 | h1
        · exact absurd h1.symm hx
        · exact h1
      have := dec13_count xs hmem
      simp only [if_neg hx, List.count_cons]
      omega

/-- The 13-elimination loop of `normalizeMessageDigest`: while some entry
equals 13, decrement the first such entry. -/
def norm13 (l : List Int) : List Int :=
  if h : (13 : Int) ∈ l then norm13 (dec13 l) else l
termination_by l.count 13
decreasing_by exact dec13_count l h

/-- One pass of the sum-decreasing loop: decrement the first entry that is
not 14 and greater than -13. -/
def decBal : List Int → List Int
  | [] => []
  | x :: xs => if x ≠ 14 ∧ -13 < x then (x - 1) :: xs else x :: decBal xs

/-- One pass of the sum-increasing loop: increment the first entry that is
not 12 and less than 13. -/
def incBal : List Int → List Int
  | [] => []
  | x :: xs => if x ≠ 12 ∧ x < 13 then (x + 1) :: xs else x :: incBal xs

/-- `normalizeMessageDigest` (`src/lib/sign.js`): convert the digest to
per-tryte values, eliminate 13s, then balance the sum to zero by repeated
single decrements (if the sum is nonnegative) or increments (otherwise). -/
def normalizeMessageDigest (md : List Int) : List Int :=
  let nd := norm13 (digestTryteValues md)
  let s := nd.sum
  if 0 ≤ s then decBal^[s.toNat] nd else incBal^[(-s).toNat] nd

/-! ## Properties of digest normalization (claim C4) -/

theorem digestTryteValues_bounds (md : List Int) (hv : validTrits md) :
    ∀ x ∈ digestTryteValues md, -13 ≤ x ∧ x ≤ 13 := by
  intro x hx
  simp only [digestTryteValues, List.mem_map] at hx
  obtain ⟨c, hc, rfl⟩ := hx
  rw [value_tryteToTrits]
  exact charValue_bounds c (trytes_lt27 md hv c hc)

theorem dec13_bounds : ∀ (l : List Int), (∀ x ∈ l, -13 ≤ x ∧ x ≤ 13) →
    ∀ x ∈ dec13 l, -13 ≤ x ∧ x ≤ 13
  | [], _ => by intro x hx; simp [dec13] at hx
  | y :: ys, h => by
    intro x hx
    unfold dec13 at hx
    by_cases hy : y = (13 : Int)
    · rw [if_pos hy] at hx
      rcases List.mem_cons.mp hx with rfl | hmem
      · have := h y (by simp)
        omega
      · exact h x (by simp [hmem])
    · rw [if_neg hy] at hx
      rcases List.mem_cons.mp hx with rfl | hmem
      · exact h x (by simp)
      · exact dec13_bounds ys (fun z hz => h z (by simp [hz])) x hmem

theorem norm13_bounds (l : List Int) (h : ∀ x ∈ l, -13 ≤ x ∧ x ≤ 13) :
    ∀ x ∈ norm13 l, -13 ≤ x ∧ x ≤ 12 := by
  induction l using norm13.induct with
  | case1 l hmem ih =>
    rw [norm13, dif_pos hmem]
    exact ih (dec13_bounds l h)
  | case2 l hmem =>
    rw [norm13, dif_neg hmem]
    intro x hx
    have hb := h x hx
    have : x ≠ 13 := fun he => hmem (he ▸ hx)
    omega

theorem exists_pos_of_sum_pos : ∀ (l : List Int), 0 < l.sum → ∃ x ∈ l, 0 < x
  | [], h => by simp at h
  | x :: xs, h => by
    rw [List.sum_cons] at h
    by_cases hx : 0 < x
    · exact ⟨x, by simp, hx⟩
    · have : 0 < xs.sum := by omega
      obtain ⟨y, hy, hy2⟩ := exists_pos_of_sum_pos xs this
      exact ⟨y, by simp [hy], hy2⟩

theorem exists_neg_of_sum_neg : ∀ (l : List Int), l.sum < 0 → ∃ x ∈ l, x < 0
  | [], h => by simp at h
  | x :: xs, h => by
    rw [List.sum_cons] at h
    by_cases hx : x < 0
    · exact ⟨x, by simp, hx⟩
    · have : xs.sum < 0 := by omega
      obtain ⟨y, hy, hy2⟩ := exists_neg_of_sum_neg xs this
      exact ⟨y, by simp [hy], hy2⟩

theorem decBal_props : ∀ (l : List Int), (∀ x ∈ l, -13 ≤ x ∧ x ≤ 12) →
    (∃ x ∈ l, -13 < x) →
    (decBal l).sum = l.sum - 1 ∧ (∀ x ∈ decBal l, -13 ≤ x ∧ x ≤ 12)
  | [], _, hex => by simp at hex
  | y :: ys, hb, hex => by
    have hy := hb y (by simp)
    unfold decBal
    by_cases hcond : y ≠ 14 ∧ -13 < y
    · rw [if_pos hcond]
      refine ⟨by rw [List.sum_cons, List.sum_cons]; ring, ?_⟩
      intro x hx
      rcases List.mem_cons.mp hx with rfl | hmem
      · omega
      · exact hb x (by simp [hmem])
    · rw [if_neg hcond]
      have hy13 : y = -13 := by omega
      have hex2 : ∃ x ∈ ys, -13 < x := by
        obtain ⟨z, hz, hz2⟩ := hex
        rcases List.mem_cons.mp hz with rfl | hmem
        · omega
        · exact ⟨z, hmem, hz2⟩
      obtain ⟨hs, hbb⟩ := decBal_props ys (fun z hz => hb z (by simp [hz])) hex2
      refine ⟨by rw [List.sum_cons, List.sum_cons, hs]; ring, ?_⟩
      intro x hx
      rcases List.mem_cons.mp hx with rfl | hmem
      · exact hy
      · exact hbb x hmem

theorem incBal_props : ∀ (l : List Int), (∀ x ∈ l, -13 ≤ x ∧ x ≤ 12) →
    (∃ x ∈ l, x ≤ 11) →
    (incBal l).sum = l.sum + 1 ∧ (∀ x ∈ incBal l, -13 ≤ x ∧ x ≤ 12)
  | [], _, hex => by simp at hex
  | y :: ys, hb, hex => by
    have hy := hb y (by simp)
    unfold incBal
    by_cases hcond : y ≠ 12 ∧ y < 13
    · rw [if_pos hcond]
      refine ⟨by rw [List.sum_cons, List.sum_cons]; ring, ?_⟩
      intro x hx
      rcases List.mem_cons.mp hx with rfl | hmem
      · omega
      · exact hb x (by simp [hmem])
    · rw [if_neg hcond]
      have hy12 : y = 12 := by omega
      have hex2 : ∃ x ∈ ys, x ≤ 11 := by
        obtain ⟨z, hz, hz2⟩ := hex
        rcases List.mem_cons.mp hz with rfl | hmem
        · omega
        · exact ⟨z, hmem, hz2⟩
      obtain ⟨hs, hbb⟩ := incBal_props ys (fun z hz => hb z (by simp [hz])) hex2
      refine ⟨by rw [List.sum_cons, List.sum_cons, hs]; ring, ?_⟩
      intro x hx
      rcases List.mem_cons.mp hx with rfl | hmem
      · exact hy
      · exact hbb x hmem

theorem decBal_iter : ∀ (n : Nat) (l : List Int), (∀ x ∈ l, -13 ≤ x ∧ x ≤ 12) →
    l.sum = (n : Int) →
    (decBal^[n] l).sum = 0 ∧ ∀ x ∈ decBal^[n] l, -13 ≤ x ∧ x ≤ 12
  | 0, l, hb, hs => by simpa using ⟨hs, hb⟩
  | n + 1, l, hb, hs => by
    have hpos : 0 < l.sum := by omega
    obtain ⟨x, hx, hx2⟩ := exists_pos_of_sum_pos l hpos
    obtain ⟨h1, h2⟩ := decBal_props l hb ⟨x, hx, by omega⟩
    rw [Function.iterate_succ_apply]
    exact decBal_iter n (decBal l) h2 (by omega)

theorem incBal_iter : ∀ (n : Nat) (l : List Int), (∀ x ∈ l, -13 ≤ x ∧ x ≤ 12) →
    l.sum = -(n : Int) →
    (incBal^[n] l).sum = 0 ∧ ∀ x ∈ incBal^[n] l, -13 ≤ x ∧ x ≤ 12
  | 0, l, hb, hs => by simpa using ⟨hs, hb⟩
  | n + 1, l, hb, hs => by
    have hneg : l.sum < 0 := by omega
    obtain ⟨x, hx, hx2⟩ := exists_neg_of_sum_neg l hneg
    obtain ⟨h1, h2⟩ := incBal_props l hb ⟨x, hx, by omega⟩
    rw [Function.iterate_succ_apply]
    exact incBal_iter n (incBal l) h2 (by omega)

/-- Reusable form of the normalization properties: entries in [-13, 12]
(hence never 13) and zero sum. -/
theorem normalizeMessageDigest_props (md : List Int) (hv : validTrits md) :
    (∀ x ∈ normalizeMessageDigest md, -13 ≤ x ∧ x ≤ 12) ∧
    (normalizeMessageDigest md).sum = 0 := by
  unfold normalizeMessageDigest
  have hb : ∀ x ∈ norm13 (digestTryteValues md), -13 ≤ x ∧ x ≤ 12 :=
    norm13_bounds _ (digestTryteValues_bounds md hv)
  by_cases hs : 0 ≤ (norm13 (digestTryteValues md)).sum
  · simp only [if_pos hs]
    obtain ⟨h1, h2⟩ := decBal_iter (norm13 (digestTryteValues md)).sum.toNat
      (norm13 (digestTryteValues md)) hb (by omega)
    exact ⟨h2, h1⟩
  · simp only [if_neg hs]
    obtain ⟨h1, h2⟩ := incBal_iter (-(norm13 (digestTryteValues md)).sum).toNat
      (norm13 (digestTryteValues md)) hb (by omega)
    exact ⟨h2, h1⟩

/-- **C4**: `normalizeMessageDigest` terminates on every input digest (its
loops are total functions here), and its result has no entry equal to 13,
every entry in [-13, 12], and entries summing to zero. -/
theorem claim_C4 (md : List Int) (hv : validTrits md) (hne : md ≠ []) :
    (∀ x ∈ normalizeMessageDigest md, x ≠ 13 ∧ -13 ≤ x ∧ x ≤ 12) ∧
    (normalizeMessageDigest md).sum = 0 := by
  clear hne
  obtain ⟨h1, h2⟩ := normalizeMessageDigest_props md hv
  exact ⟨fun x hx => by have := h1 x hx; omega, h2⟩

/-- Witness for C4 at the all-zero 243-trit digest. -/
theorem claim_C4_witness :
    validTrits (List.replicate 243 (0 : Int)) ∧ List.replicate 243 (0 : Int) ≠ [] ∧
    ((∀ x ∈ normalizeMessageDigest (List.replicate 243 (0 : Int)), x ≠ 13 ∧ -13 ≤ x ∧ x ≤ 12) ∧
      (normalizeMessageDigest (List.replicate 243 (0 : Int))).sum = 0) := by
  have hv : validTrits (List.replicate 243 (0 : Int)) := by
    intro t ht
    rw [List.eq_of_mem_replicate ht]
    exact Or.inr (Or.inl rfl)
  have hne : List.replicate 243 (0 : Int) ≠ [] := by simp
  exact ⟨hv, hne, claim_C4 _ hv hne⟩

/-! ## Flattening lists of uniform-length lists (slicing helpers) -/

theorem flatten_length_uniform {α : Type} (L : Nat) :
    ∀ (ls : List (List α)), (∀ x ∈ ls, x.length = L) → ls.flatten.length = ls.length * L
  | [], _ => by simp
  | x :: rest, h => by
    rw [List.flatten_cons, List.length_append, h x (by simp),
      flatten_length_uniform L rest (fun y hy => h y (by simp [hy])), List.length_cons]
    ring

theorem flatten_take_uniform {α : Type} (L : Nat) :
    ∀ (ls : List (List α)) (b : Nat), (∀ x ∈ ls, x.length = L) →
      ls.flatten.take (b * L) = (ls.take b).flatten
  | [], b, _ => by simp
  | x :: rest, 0, h => by simp
  | x :: rest, b + 1, h => by
    rw [List.flatten_cons, Nat.succ_mul, Nat.add_comm (b * L) L, ← h x (by simp),
      List.take_append, List.take_succ_cons, List.flatten_cons,
      h x (by simp), flatten_take_uniform L rest b (fun y hy => h y (by simp [hy]))]

theorem flatten_drop_uniform {α : Type} (L : Nat) :
    ∀ (ls : List (List α)) (a : Nat), (∀ x ∈ ls, x.length = L) →
      ls.flatten.drop (a * L) = (ls.drop a).flatten
  | [], a, _ => by simp
  | x :: rest, 0, h => by simp
  | x :: rest, a + 1, h => by
    rw [List.flatten_cons, Nat.succ_mul, Nat.add_comm (a * L) L, ← h x (by simp),
      List.drop_append, List.drop_succ_cons,
      h x (by simp), flatten_drop_uniform L rest a (fun y hy => h y (by simp [hy]))]

theorem flatten_drop_take {α : Type} (L : Nat) (ls : List (List α)) (a b : Nat)
    (h : ∀ x ∈ ls, x.length = L) :
    (ls.flatten.drop (a * L)).take (b * L) = ((ls.drop a).take b).flatten := by
  rw [flatten_drop_uniform L ls a h,
    flatten_take_uniform L (ls.drop a) b (fun y hy => h y (List.mem_of_mem_drop hy))]

theorem flatten_getD_slice {α : Type} (L : Nat) (ls : List (List α)) (k : Nat)
    (h : ∀ x ∈ ls, x.length = L) (hk : k < ls.length) :
    (ls.flatten.drop (k * L)).take L = ls.getD k [] := by
  have h1 : (ls.flatten.drop (k * L)).take L = (ls.flatten.drop (k * L)).take (1 * L) := by
    rw [Nat.one_mul]
  rw [h1, flatten_drop_take L ls k 1 h]
  rw [List.take_one_drop_eq_of_lt_length (by omega)]
  simp only [List.flatten_cons, List.flatten_nil, List.append_nil]
  rw [List.getD_eq_getElem ls [] hk]
  simp [List.get_eq_getElem]

/-! ## One-time signature operations (`src/lib/sign.js`) -/

/-- `PK_FRAGMENTS`: key fragments per security level. -/
def PK_FRAGMENTS : Nat := 27

/-- `FRAG_SIZE = PK_FRAGMENTS * Kerl.HASH_LENGTH`. -/
def FRAG_SIZE : Nat := PK_FRAGMENTS * HASH_LENGTH

/-- The 243-trit fragment `i` of a key or signature (`slice(i*243, (i+1)*243)`). -/
def keyFragment (l : List Int) (i : Nat) : List Int :=
  (l.drop (i * HASH_LENGTH)).take HASH_LENGTH

/-- Modelled from the spec: `@iota/signing` `key` (an external primitive) —
absorb the padded seed trits and squeeze `security` · 27 fragments of 243
trits each (`createPrivateKey` in `src/lib/sign.js` calls it on the padded
seed). -/
def createPrivateKey (K : List Int → Nat → Int) (seed : Trytes) (security : Nat) : List Int :=
  squeezeK K (padTritsMultipleOf HASH_LENGTH HASH_LENGTH (trits seed)) 0
    (security * PK_FRAGMENTS * HASH_LENGTH)

/-- Modelled from the spec: `@iota/signing` `digests` (an external primitive) —
for each security chunk of 27 key fragments, sponge-hash every fragment 26
times, absorb the 27 results and squeeze 243 trits; the chunk digests are
concatenated (`createPublicKey` in `src/lib/sign.js`; `verifyMessage` in the
same file mirrors this structure). -/
def createPublicKey (K : List Int → Nat → Int) (pk : List Int) : List Int :=
  ((List.range (pk.length / FRAG_SIZE)).map (fun c =>
    squeezeK K
      ((List.range PK_FRAGMENTS).map (fun j =>
        (kerlHash K)^[26] (keyFragment pk (c * PK_FRAGMENTS + j)))).flatten
      0 HASH_LENGTH)).flatten

/-- `createKeyPair` (`src/lib/sign.js`). -/
structure KeyPair where
  privateKey : List Int
  publicKey : List Int

/-- `createKeyPair`: private key from the seed, public key from the private
key. -/
def createKeyPair (K : List Int → Nat → Int) (seed : Trytes) (security : Nat) : KeyPair :=
  let pk := createPrivateKey K seed security
  ⟨pk, createPublicKey K pk⟩

theorem createKeyPair_privateKey (K : List Int → Nat → Int) (seed : Trytes) (security : Nat) :
    (createKeyPair K seed security).privateKey = createPrivateKey K seed security := rfl

theorem createKeyPair_publicKey (K : List Int → Nat → Int) (seed : Trytes) (security : Nat) :
    (createKeyPair K seed security).publicKey =
      createPublicKey K (createPrivateKey K seed security) := rfl

/-- `createSignature` (`src/lib/sign.js`): for each fragment of the private
key, iterate the sponge hash `13 - digest[i % digest.length]` times; the
signature is the concatenation of the resulting fragments. -/
def createSignature (K : List Int → Nat → Int) (pk : List Int) (message : Trytes) : List Int :=
  let fragAmount := pk.length / HASH_LENGTH
  let messageDigest := normalizeMessageDigest (getMessageDigest K message fragAmount)
  ((List.range fragAmount).map (fun i =>
    (kerlHash K)^[(13 - messageDigest.getD (i % messageDigest.length) 0).toNat]
      (keyFragment pk i))).flatten

/-- `verifyMessage` (`src/lib/sign.js`): iterate each signature fragment
`digest[(i*27+j) % digest.length] + 13` more rounds, absorb each 27-fragment
chunk and squeeze 243 trits, and compare the concatenation with the claimed
public key (as tryte strings). -/
def verifyMessage (K : List Int → Nat → Int) (signature : List Int) (message : Trytes)
    (pub : List Int) : Bool :=
  let fragAmount := signature.length / HASH_LENGTH
  let security := signature.length / FRAG_SIZE
  let messageDigest := normalizeMessageDigest (getMessageDigest K message fragAmount)
  let digests := ((List.range security).map (fun c =>
    squeezeK K
      ((List.range PK_FRAGMENTS).map (fun j =>
        (kerlHash K)^[(messageDigest.getD ((c * PK_FRAGMENTS + j) % messageDigest.length) 0
            + 13).toNat]
          (keyFragment ((signature.drop (c * FRAG_SIZE)).take FRAG_SIZE) j))).flatten
      0 HASH_LENGTH)).flatten
  trytes pub == trytes digests

theorem getD_map_range {α : Type} (f : Nat → α) (n k : Nat) (d : α) (hk : k < n) :
    ((List.range n).map f).getD k d = f k := by
  rw [List.getD_eq_getElem _ _ (by simpa using hk)]
  simp

theorem keyFragment_length (l : List Int) (i : Nat) (h : (i + 1) * HASH_LENGTH ≤ l.length) :
    (keyFragment l i).length = HASH_LENGTH := by
  simp only [keyFragment, List.length_take, List.length_drop]
  have h2 : (i + 1) * HASH_LENGTH = i * HASH_LENGTH + HASH_LENGTH := by ring
  omega

theorem iterate_kerlHash_length (K : List Int → Nat → Int) (n : Nat) (f : List Int)
    (hf : f.length = HASH_LENGTH) : ((kerlHash K)^[n] f).length = HASH_LENGTH := by
  induction n with
  | zero => simpa using hf
  | succ n ih =>
    rw [Function.iterate_succ_apply']
    simp [kerlHash, squeezeK_length]

theorem normalized_digest_mem_bounds (K : List Int → Nat → Int) (hK : spongeValid K)
    (m : Trytes) (frag : Nat) (i : Nat) :
    -13 ≤ (normalizeMessageDigest (getMessageDigest K m frag)).getD
        (i % (normalizeMessageDigest (getMessageDigest K m frag)).length) 0 ∧
      (normalizeMessageDigest (getMessageDigest K m frag)).getD
        (i % (normalizeMessageDigest (getMessageDigest K m frag)).length) 0 ≤ 12 := by
  set md := normalizeMessageDigest (getMessageDigest K m frag) with hmd
  rcases List.eq_nil_or_concat md with h | ⟨l, x, h⟩
  · rw [h]
    simp [List.getD]
  · have hlen : 0 < md.length := by rw [h]; simp
    have hmem : md.getD (i % md.length) 0 ∈ md := by
      rw [List.getD_eq_getElem _ _ (Nat.mod_lt _ hlen)]
      exact List.getElem_mem _
    have hb := (normalizeMessageDigest_props (getMessageDigest K m frag)
      (squeezeK_valid K hK _ _ _)).1
    rw [← hmd] at hb
    exact hb _ hmem

/-- Completeness core: a signature generated from a private key of `s` whole
security chunks verifies against the same message and the derived public
key. -/
theorem verify_of_sign (K : List Int → Nat → Int) (hK : spongeValid K) (pk : List Int)
    (m : Trytes) (s : Nat) (hpk : pk.length = s * (PK_FRAGMENTS * HASH_LENGTH)) :
    verifyMessage K (createSignature K pk m) m (createPublicKey K pk) = true := by
  have hH : (0:Nat) < HASH_LENGTH := by norm_num [HASH_LENGTH]
  -- the signature fragments
  set md := normalizeMessageDigest (getMessageDigest K m (pk.length / HASH_LENGTH)) with hmd
  set fragFn : Nat → List Int := fun i =>
    (kerlHash K)^[(13 - md.getD (i % md.length) 0).toNat] (keyFragment pk i) with hfragFn
  set frags := (List.range (pk.length / HASH_LENGTH)).map fragFn with hfrags
  have hsig : createSignature K pk m = frags.flatten := rfl
  have hfa : pk.length / HASH_LENGTH = s * PK_FRAGMENTS := by
    rw [hpk, ← Nat.mul_assoc]
    exact Nat.mul_div_cancel _ hH
  have hfraglen : ∀ x ∈ frags, x.length = HASH_LENGTH := by
    intro x hx
    rw [hfrags] at hx
    obtain ⟨i, hi, rfl⟩ := List.mem_map.mp hx
    rw [List.mem_range, hfa] at hi
    refine iterate_kerlHash_length K _ _ (keyFragment_length pk i ?_)
    rw [hpk, ← Nat.mul_assoc]
    exact Nat.mul_le_mul_right _ hi
  have hsiglen : (createSignature K pk m).length = pk.length := by
    rw [hsig, flatten_length_uniform HASH_LENGTH frags hfraglen, hfrags,
      List.length_map, List.length_range, Nat.div_mul_cancel]
    rw [hpk]
    exact ⟨s * PK_FRAGMENTS, by ring⟩
  -- digest in verifyMessage is the same digest
  have hdig : normalizeMessageDigest
      (getMessageDigest K m ((createSignature K pk m).length / HASH_LENGTH)) = md := by
    rw [hsiglen, hmd]
  -- chunk counts agree
  have hsec : (createSignature K pk m).length / FRAG_SIZE = s := by
    rw [hsiglen, hpk]
    exact Nat.mul_div_cancel _ (by norm_num [FRAG_SIZE, PK_FRAGMENTS, HASH_LENGTH])
  have hpub : pk.length / FRAG_SIZE = s := by
    rw [hpk]
    exact Nat.mul_div_cancel _ (by norm_num [FRAG_SIZE, PK_FRAGMENTS, HASH_LENGTH])
  -- the verified chunks equal the public-key chunks
  have hchunks : ∀ c < s, squeezeK K
      ((List.range PK_FRAGMENTS).map (fun j =>
        (kerlHash K)^[(md.getD ((c * PK_FRAGMENTS + j) % md.length) 0 + 13).toNat]
          (keyFragment (((createSignature K pk m).drop (c * FRAG_SIZE)).take FRAG_SIZE)
            j))).flatten 0 HASH_LENGTH
      = squeezeK K
      ((List.range PK_FRAGMENTS).map (fun j =>
        (kerlHash K)^[26] (keyFragment pk (c * PK_FRAGMENTS + j)))).flatten 0 HASH_LENGTH := by
    intro c hc
    congr 1
    congr 1
    apply List.map_congr_left
    intro j hj
    rw [List.mem_range] at hj
    -- the sliced signature fragment is the (c*27+j)-th signature fragment
    have hslice : keyFragment (((createSignature K pk m).drop (c * FRAG_SIZE)).take FRAG_SIZE) j
        = fragFn (c * PK_FRAGMENTS + j) := by
      unfold keyFragment
      rw [hsig]
      rw [List.drop_take]
      rw [List.take_take]
      have e1 : c * FRAG_SIZE = (c * PK_FRAGMENTS) * HASH_LENGTH := by
        simp only [FRAG_SIZE]
        ring
      have e2 : min HASH_LENGTH (FRAG_SIZE - j * HASH_LENGTH) = HASH_LENGTH := by
        simp only [FRAG_SIZE, PK_FRAGMENTS, HASH_LENGTH] at *
        omega
      rw [e2, List.drop_drop, e1]
      have e3 : c * PK_FRAGMENTS * HASH_LENGTH + j * HASH_LENGTH
          = (c * PK_FRAGMENTS + j) * HASH_LENGTH := by ring
      rw [e3, flatten_getD_slice HASH_LENGTH frags _ hfraglen
        (by rw [hfrags, List.length_map, List.length_range, hfa]
            have : j < PK_FRAGMENTS := hj
            calc c * PK_FRAGMENTS + j < c * PK_FRAGMENTS + PK_FRAGMENTS := by omega
              _ = (c + 1) * PK_FRAGMENTS := by ring
              _ ≤ s * PK_FRAGMENTS := by
                  have : c + 1 ≤ s := hc
                  exact Nat.mul_le_mul_right _ this)]
      rw [hfrags, getD_map_range]
      rw [hfa]
      calc c * PK_FRAGMENTS + j < c * PK_FRAGMENTS + PK_FRAGMENTS := by
            have : j < PK_FRAGMENTS := hj
            omega
        _ = (c + 1) * PK_FRAGMENTS := by ring
        _ ≤ s * PK_FRAGMENTS := Nat.mul_le_mul_right _ hc
    rw [hslice, hfragFn]
    simp only []
    rw [← Function.iterate_add_apply]
    congr 1
    have hb := normalized_digest_mem_bounds K hK m (pk.length / HASH_LENGTH)
      (c * PK_FRAGMENTS + j)
    rw [← hmd] at hb
    omega
  -- assemble
  show (trytes (createPublicKey K pk) ==
    trytes ((List.range ((createSignature K pk m).length / FRAG_SIZE)).map _).flatten) = true
  rw [hsec]
  have : ((List.range s).map (fun c => squeezeK K
      ((List.range PK_FRAGMENTS).map (fun j =>
        (kerlHash K)^[(md.getD ((c * PK_FRAGMENTS + j) % md.length) 0 + 13).toNat]
          (keyFragment (((createSignature K pk m).drop (c * FRAG_SIZE)).take FRAG_SIZE)
            j))).flatten 0 HASH_LENGTH)).flatten
      = createPublicKey K pk := by
    unfold createPublicKey
    rw [hpub]
    congr 1
    apply List.map_congr_left
    intro c hc
    exact hchunks c (List.mem_range.mp hc)
  rw [hdig, this]
  simp

theorem createSignature_length (K : List Int → Nat → Int) (pk : List Int) (m : Trytes)
    (h : HASH_LENGTH ∣ pk.length) : (createSignature K pk m).length = pk.length := by
  unfold createSignature
  have hu : ∀ x ∈ (List.range (pk.length / HASH_LENGTH)).map (fun i =>
      (kerlHash K)^[(13 - (normalizeMessageDigest
          (getMessageDigest K m (pk.length / HASH_LENGTH))).getD
        (i % (normalizeMessageDigest
          (getMessageDigest K m (pk.length / HASH_LENGTH))).length) 0).toNat]
      (keyFragment pk i)), x.length = HASH_LENGTH := by
    intro x hx
    obtain ⟨i, hi, rfl⟩ := List.mem_map.mp hx
    rw [List.mem_range] at hi
    refine iterate_kerlHash_length K _ _ (keyFragment_length pk i ?_)
    have hd : pk.length / HASH_LENGTH * HASH_LENGTH = pk.length := Nat.div_mul_cancel h
    calc (i + 1) * HASH_LENGTH ≤ pk.length / HASH_LENGTH * HASH_LENGTH :=
          Nat.mul_le_mul_right _ (by omega)
      _ = pk.length := hd
  rw [flatten_length_uniform HASH_LENGTH _ hu, List.length_map, List.length_range,
    Nat.div_mul_cancel h]

/-- **C1** (amended): signing completeness.  For every trit-valued sponge,
seed, security in 1..4 and message, the signature created over the message
verifies against the same message and the public key of the pair. -/
theorem claim_C1_amended (K : List Int → Nat → Int) (hK : spongeValid K) (seed : Trytes)
    (security : Nat) (hs1 : 1 ≤ security) (hs2 : security ≤ 4) (m : Trytes) :
    verifyMessage K (createSignature K (createKeyPair K seed security).privateKey m) m
      (createKeyPair K seed security).publicKey = true := by
  clear hs1 hs2
  show verifyMessage K (createSignature K (createPrivateKey K seed security) m) m
    (createPublicKey K (createPrivateKey K seed security)) = true
  refine verify_of_sign K hK _ m security ?_
  unfold createPrivateKey
  rw [squeezeK_length, Nat.mul_assoc]

/-- The degenerate sponge squeezing only zeros, a valid trit-valued sponge
instance used to exhibit inputs on which claims fail. -/
def zeroSponge : List Int → Nat → Int := fun _ _ => 0

theorem zeroSponge_valid : spongeValid zeroSponge := fun _ _ => Or.inr (Or.inl rfl)

theorem squeezeK_zeroSponge (a : List Int) (off n : Nat) :
    squeezeK zeroSponge a off n = List.replicate n 0 := by
  unfold squeezeK zeroSponge
  rw [List.map_const', List.length_range']

/-- Witness for the amended C1 at the zero sponge. -/
theorem claim_C1_amended_witness :
    spongeValid zeroSponge ∧ 1 ≤ 1 ∧ 1 ≤ 4 ∧
    verifyMessage zeroSponge
      (createSignature zeroSponge (createKeyPair zeroSponge [0] 1).privateKey [0]) [0]
      (createKeyPair zeroSponge [0] 1).publicKey = true :=
  ⟨zeroSponge_valid, le_refl 1, by norm_num,
    claim_C1_amended zeroSponge zeroSponge_valid [0] 1 (le_refl 1) (by norm_num) [0]⟩

theorem verifyMessage_zeroSponge (sig : List Int) (m2 : Trytes) (pub : List Int)
    (hsig : sig.length = 6561) (hpub : pub = List.replicate 243 0) :
    verifyMessage zeroSponge sig m2 pub = true := by
  unfold verifyMessage
  have h1 : sig.length / FRAG_SIZE = 1 := by
    rw [hsig]
    norm_num [FRAG_SIZE, PK_FRAGMENTS, HASH_LENGTH]
  rw [h1, hpub]
  have hr1 : List.range 1 = [0] := rfl
  dsimp only
  rw [hr1]
  simp only [List.map_cons, List.map_nil, List.flatten_cons, List.flatten_nil, List.append_nil]
  rw [squeezeK_zeroSponge]
  exact beq_self_eq_true (trytes (List.replicate 243 0))

/-- **C1** (counterexample): the claimed "if and only if" fails: for a
conforming (trit-valued) sponge there are distinct messages `m ≠ m2` for
which the signature over `m` also verifies against `m2` — the verifier can
only compare digests, and the digests collide.  (The completeness half
survives as the amended claim.) -/
theorem claim_C1_counterexample :
    ¬ (∀ (K : List Int → Nat → Int), spongeValid K →
        ∀ (security : Nat), 1 ≤ security → security ≤ 4 →
        ∀ (seed m m2 : Trytes),
          (verifyMessage K (createSignature K (createKeyPair K seed security).privateKey m) m2
              (createKeyPair K seed security).publicKey = true ↔ m2 = m)) := by
  intro hclaim
  have hpk : (createKeyPair zeroSponge [0] 1).privateKey = List.replicate 6561 0 := by
    rw [createKeyPair_privateKey]
    unfold createPrivateKey
    have he : 1 * PK_FRAGMENTS * HASH_LENGTH = 6561 := by norm_num [PK_FRAGMENTS, HASH_LENGTH]
    rw [he, squeezeK_zeroSponge]
  have hpub : (createKeyPair zeroSponge [0] 1).publicKey = List.replicate 243 0 := by
    rw [createKeyPair_publicKey]
    unfold createPublicKey
    have h1 : (createPrivateKey zeroSponge [0] 1).length / FRAG_SIZE = 1 := by
      unfold createPrivateKey
      rw [squeezeK_length]
      norm_num [FRAG_SIZE, PK_FRAGMENTS, HASH_LENGTH]
    rw [h1]
    have hr1 : List.range 1 = [0] := rfl
    rw [hr1]
    simp only [List.map_cons, List.map_nil, List.flatten_cons, List.flatten_nil, List.append_nil]
    rw [squeezeK_zeroSponge]
    rfl
  have hlen : (createSignature zeroSponge (createKeyPair zeroSponge [0] 1).privateKey [0]).length
      = 6561 := by
    rw [hpk, createSignature_length zeroSponge _ [0]
      (by rw [List.length_replicate]; norm_num [HASH_LENGTH]), List.length_replicate]
  have hver := verifyMessage_zeroSponge _ [1] _ hlen hpub
  have := (hclaim zeroSponge zeroSponge_valid 1 (le_refl 1) (by norm_num) [0] [0] [1]).mp hver
  simp at this

/-! ## Integer/tryte encodings (`src/lib/helpers.js`) -/

/-- The digit loop of `intToTrytes` (big-endian base-27 digits). -/
def intToTrytesGo : Nat → Trytes
  | 0 => []
  | v + 1 => intToTrytesGo ((v + 1) / 27) ++ [(v + 1) % 27]
termination_by v => v
decreasing_by exact Nat.div_lt_self (by omega) (by norm_num)

/-- `helpers.intToTrytes`: base-27 big-endian tryte string of a nonnegative
integer (`"9"` for zero). -/
def intToTrytes (v : Nat) : Trytes := if v = 0 then [0] else intToTrytesGo v

/-- `helpers.trytesToInt`: big-endian base-27 value of a tryte string. -/
def trytesToInt (s : Trytes) : Nat := s.foldl (fun acc c => acc * 27 + c) 0

/-- `intToPaddedTrytes` (`src/lib/message.js`): left-pad with `9` to the
requested length. -/
def intToPaddedTrytes (v length : Nat) : Trytes :=
  List.replicate (length - (intToTrytes v).length) 0 ++ intToTrytes v

theorem intToTrytesGo_length_le : ∀ (n v : Nat), v < 27 ^ n → (intToTrytesGo v).length ≤ n
  | _, 0, _ => by rw [intToTrytesGo]; simp
  | 0, v + 1, h => by simp at h
  | n + 1, v + 1, h => by
    rw [intToTrytesGo]
    simp only [List.length_append, List.length_cons, List.length_nil]
    have h2 : (v + 1) / 27 < 27 ^ n := by
      rw [Nat.pow_succ] at h
      omega
    have := intToTrytesGo_length_le n ((v + 1) / 27) h2
    omega

theorem intToTrytes_length_le (n v : Nat) (hn : 1 ≤ n) (h : v < 27 ^ n) :
    (intToTrytes v).length ≤ n := by
  unfold intToTrytes
  split
  · simpa using hn
  · exact intToTrytesGo_length_le n v h

theorem intToTrytesGo_lt27 : ∀ (v : Nat), ∀ c ∈ intToTrytesGo v, c < 27
  | 0 => by rw [intToTrytesGo]; simp
  | v + 1 => by
    rw [intToTrytesGo]
    intro c hc
    rcases List.mem_append.mp hc with h | h
    · exact intToTrytesGo_lt27 ((v + 1) / 27) c h
    · simp only [List.mem_cons, List.not_mem_nil, or_false] at h
      subst h
      exact Nat.mod_lt _ (by norm_num)
termination_by v => v
decreasing_by exact Nat.div_lt_self (by omega) (by norm_num)

theorem intToTrytes_lt27 (v : Nat) : ∀ c ∈ intToTrytes v, c < 27 := by
  unfold intToTrytes
  split
  · intro c hc
    simp only [List.mem_cons, List.not_mem_nil, or_false] at hc
    omega
  · exact intToTrytesGo_lt27 v

/-! ## The balanced-ternary full adder (`@iota/signing` `add`) -/

/-- `trinarySum` (`src/lib/encrypt.js` and the adder of `@iota/signing`):
per-trit sum folding 2 to -1 and -2 to 1. -/
def trinarySum (a b : Int) : Int :=
  if a + b = 2 then -1 else if a + b = -2 then 1 else a + b

/-- Modelled from the spec: the consensus gate of the `@iota/signing` adder. -/
def consTrit (a b : Int) : Int := if a = b then a else 0

/-- Modelled from the spec: the any-gate of the `@iota/signing` adder. -/
def anyTrit (a b : Int) : Int := if 0 < a + b then 1 else if a + b < 0 then -1 else 0

/-- Modelled from the spec: the full adder of `@iota/signing` `add`:
sum trit and carry trit. -/
def fullAdder (a b c : Int) : Int × Int :=
  let sAB := trinarySum a b
  let s := trinarySum sAB c
  let c1 := consTrit a b
  let c2 := consTrit sAB c
  (s, anyTrit c1 c2)

/-- Modelled from the spec: the ripple-carry loop of `@iota/signing` `add`,
reading a zero for the exhausted operand and dropping the final carry. -/
def addTrits : List Int → List Int → Int → List Int
  | [], [], _ => []
  | a :: as, [], c =>
    (fullAdder a 0 c).1 :: addTrits as [] (fullAdder a 0 c).2
  | [], b :: bs, c =>
    (fullAdder 0 b c).1 :: addTrits [] bs (fullAdder 0 b c).2
  | a :: as, b :: bs, c =>
    (fullAdder a b c).1 :: addTrits as bs (fullAdder a b c).2
termination_by a b _ => a.length + b.length

/-- Modelled from the spec: `@iota/signing` `add` — balanced-ternary addition
of two trit arrays, output length the maximum of the operand lengths
(trit-wise balanced addition with carry; the spec's "+" on trit arrays). -/
def add (a b : List Int) : List Int := addTrits a b 0

theorem fullAdder_correct (a b c : Int) (ha : isTrit a) (hb : isTrit b) (hc : isTrit c) :
    (fullAdder a b c).1 + 3 * (fullAdder a b c).2 = a + b + c ∧
      isTrit (fullAdder a b c).1 ∧ isTrit (fullAdder a b c).2 := by
  unfold isTrit at ha hb hc
  rcases ha with rfl | rfl | rfl <;> rcases hb with rfl | rfl | rfl <;>
    rcases hc with rfl | rfl | rfl <;> refine ⟨by decide, by decide, by decide⟩

theorem addTrits_spec : ∀ (a b : List Int) (c : Int), validTrits a → validTrits b → isTrit c →
    validTrits (addTrits a b c) ∧ (addTrits a b c).length = max a.length b.length ∧
    ∃ cout, isTrit cout ∧
      value (addTrits a b c) + cout * 3 ^ (max a.length b.length) = value a + value b + c
  | [], [], c, _, _, hc => by
    refine ⟨by intro t ht; simp [addTrits] at ht, by simp [addTrits], c, hc, ?_⟩
    simp [addTrits, value]
  | a :: as, [], c, hva, hvb, hc => by
    have heq : addTrits (a :: as) [] c
        = (fullAdder a 0 c).1 :: addTrits as [] (fullAdder a 0 c).2 := by
      simp only [addTrits]
    have hf := fullAdder_correct a 0 c (hva a (by simp)) (by decide) hc
    obtain ⟨hvr, hlr, cout, hcout, hval⟩ :=
      addTrits_spec as [] (fullAdder a 0 c).2 (fun t ht => hva t (by simp [ht])) hvb hf.2.2
    rw [heq]
    refine ⟨?_, ?_, cout, hcout, ?_⟩
    · intro t ht
      rcases List.mem_cons.mp ht with rfl | hmem
      · exact hf.2.1
      · exact hvr t hmem
    · simp only [List.length_cons, List.length_nil] at hlr ⊢
      omega
    · rw [value_cons, value_cons]
      simp only [List.length_cons, List.length_nil, Nat.max_zero] at hlr hval ⊢
      have hnil : value ([] : List Int) = 0 := rfl
      have h3 : (3:Int) ^ (as.length + 1) = 3 * 3 ^ as.length := by ring
      have hfa := hf.1
      rw [h3]
      unfold isTrit at hcout
      rcases hcout with rfl | rfl | rfl <;> omega
  | [], b :: bs, c, hva, hvb, hc => by
    have heq : addTrits [] (b :: bs) c
        = (fullAdder 0 b c).1 :: addTrits [] bs (fullAdder 0 b c).2 := by
      simp only [addTrits]
    have hf := fullAdder_correct 0 b c (by decide) (hvb b (by simp)) hc
    obtain ⟨hvr, hlr, cout, hcout, hval⟩ :=
      addTrits_spec [] bs (fullAdder 0 b c).2 hva (fun t ht => hvb t (by simp [ht])) hf.2.2
    rw [heq]
    refine ⟨?_, ?_, cout, hcout, ?_⟩
    · intro t ht
      rcases List.mem_cons.mp ht with rfl | hmem
      · exact hf.2.1
      · exact hvr t hmem
    · simp only [List.length_cons, List.length_nil] at hlr ⊢
      omega
    · rw [value_cons, value_cons]
      simp only [List.length_cons, List.length_nil, Nat.zero_max] at hlr hval ⊢
      have hnil : value ([] : List Int) = 0 := rfl
      have h3 : (3:Int) ^ (bs.length + 1) = 3 * 3 ^ bs.length := by ring
      have hfa := hf.1
      rw [h3]
      unfold isTrit at hcout
      rcases hcout with rfl | rfl | rfl <;> omega
  | a :: as, b :: bs, c, hva, hvb, hc => by
    have heq : addTrits (a :: as) (b :: bs) c
        = (fullAdder a b c).1 :: addTrits as bs (fullAdder a b c).2 := by
      simp only [addTrits]
    have hf := fullAdder_correct a b c (hva a (by simp)) (hvb b (by simp)) hc
    obtain ⟨hvr, hlr, cout, hcout, hval⟩ :=
      addTrits_spec as bs (fullAdder a b c).2 (fun t ht => hva t (by simp [ht]))
        (fun t ht => hvb t (by simp [ht])) hf.2.2
    rw [heq]
    refine ⟨?_, ?_, cout, hcout, ?_⟩
    · intro t ht
      rcases List.mem_cons.mp ht with rfl | hmem
      · exact hf.2.1
      · exact hvr t hmem
    · simp only [List.length_cons, hlr]
      omega
    · rw [value_cons, value_cons, value_cons]
      simp only [List.length_cons]
      have hmx : max (as.length + 1) (bs.length + 1) = max as.length bs.length + 1 := by omega
      rw [hmx]
      have h3 : (3:Int) ^ (max as.length bs.length + 1) = 3 * 3 ^ (max as.length bs.length) := by
        ring
      have hfa := hf.1
      rw [h3]
      unfold isTrit at hcout
      rcases hcout with rfl | rfl | rfl <;> omega
termination_by a b _ => a.length + b.length

theorem add_spec (a b : List Int) (hva : validTrits a) (hvb : validTrits b) :
    validTrits (add a b) ∧ (add a b).length = max a.length b.length ∧
    ∃ cout, isTrit cout ∧
      value (add a b) + cout * 3 ^ (max a.length b.length) = value a + value b := by
  unfold add
  obtain ⟨h1, h2, cout, hcout, hval⟩ := addTrits_spec a b 0 hva hvb (by decide)
  exact ⟨h1, h2, cout, hcout, by omega⟩

/-- Adding `fromValue (-value B)` and then `B` to a valid trit array is the
identity (the cancellation behind `publicPassword` / `getKey`). -/
theorem add_sub_cancel (A B : List Int) (hA : validTrits A) (hB : validTrits B)
    (hlen : B.length ≤ A.length) :
    add (add A (fromValue (- value B))) B = A := by
  set N := fromValue (- value B) with hN
  have hNv : validTrits N := fromValue_valid _
  have hNlen : N.length ≤ A.length := by
    have hvb := value_bound B hB
    have : (- value B).natAbs ≤ (3 ^ B.length - 1) / 2 := by
      rw [Int.natAbs_neg]
      have h1 : 3 ^ B.length % 2 = 1 := by rw [Nat.pow_mod]; norm_num
      omega
    refine le_trans (fromValue_length_le B.length _ this) hlen
  obtain ⟨hPv, hPlen, c1, hc1, hP⟩ := add_spec A N hA hNv
  rw [Nat.max_eq_left hNlen] at hPlen hP
  obtain ⟨hQv, hQlen, c2, hc2, hQ⟩ := add_spec (add A N) B hPv hB
  rw [hPlen, Nat.max_eq_left hlen] at hQlen hQ
  rw [fromValue_value] at hP
  have hvA := value_bound A hA
  have hvQ := value_bound (add (add A N) B) hQv
  rw [hQlen] at hvQ
  have hpow : 1 ≤ 3 ^ A.length := Nat.one_le_pow _ _ (by norm_num)
  have hQA : value (add (add A N) B) = value A := by
    unfold isTrit at hc1 hc2
    have hx : (3:Int) ^ A.length = ((3 ^ A.length : Nat) : Int) := by
      push_cast
      ring
    rcases hc1 with rfl | rfl | rfl <;> rcases hc2 with rfl | rfl | rfl <;> omega
  exact value_inj _ _ hQv hA (by rw [hQlen]) hQA

/-! ## Address and key derivation (`src/lib/message.js`) -/

/-- `getPwTrits`: channel password as trits, if present. -/
def getPwTrits (channelPassword : Option Trytes) : Option (List Int) :=
  channelPassword.map trits

/-- `getAddress` (`src/lib/message.js`): hash of `add(merkleRoot, indexTrits)`,
absorbing the padded channel password as well when present; squeezed to 243
trits and rendered as 81 trytes. -/
def getAddress (K : List Int → Nat → Int) (merkleRoot : List Int)
    (channelPassword : Option Trytes) (indexTrits : List Int) : Trytes :=
  let subroot := add merkleRoot indexTrits
  let absorbed := subroot ++ (match getPwTrits channelPassword with
    | some pw => padTritsMultipleOf HASH_LENGTH HASH_LENGTH pw
    | none => [])
  trytes (squeezeK K absorbed 0 HASH_LENGTH)

/-- `getKey` (`src/lib/message.js`): the cipher key is
`trytes(add(basis, indexTrits))` where the basis is the message password,
else the channel password, else the channel root. -/
def getKey (merkleRoot : List Int) (channelPassword : Option Trytes)
    (indexTrits : List Int) (messagePassword : Option Trytes) : Trytes :=
  let a := match messagePassword.map trits with
    | some mp => mp
    | none => match getPwTrits channelPassword with
      | some pw => pw
      | none => merkleRoot
  trytes (add a indexTrits)

/-- `publicPassword` (`src/lib/message.js`): the public-mode message password
`trytes(add(addressTrits, fromValue(-value(indexTrits))))`. -/
def publicPassword (K : List Int → Nat → Int) (channelRoot : List Int) (index : Nat) : Trytes :=
  let indexTrits := trits (intToTrytes index)
  let address := getAddress K channelRoot none indexTrits
  let addTr := fromValue (- value indexTrits)
  trytes (add (trits address) addTr)

/-- **C5**: with no channel password, the cipher key derived from the
public-mode message password of index `i` is exactly the message's own
address: `getKey(R, undefined, indexTrits, publicPassword(R, i)) =
getAddress(R, undefined, indexTrits)`, so a public message is decrypted with
only its address as the key (`getPublicMessage` passes the address as the
key). -/
theorem claim_C5 (K : List Int → Nat → Int) (hK : spongeValid K) (root : List Int)
    (i : Nat) (hi : i < 27 ^ 6) :
    getKey root none (trits (intToTrytes i)) (some (publicPassword K root i)) =
      getAddress K root none (trits (intToTrytes i)) := by
  set B := trits (intToTrytes i) with hB
  have hBv : validTrits B := trits_valid _ (intToTrytes_lt27 i)
  have hBlen : B.length ≤ HASH_LENGTH := by
    rw [hB, trits_length]
    have := intToTrytes_length_le 6 i (by norm_num) hi
    norm_num [HASH_LENGTH]
    omega
  -- the address trits
  set A := squeezeK K (add root B ++ []) 0 HASH_LENGTH with hA
  have hAv : validTrits A := squeezeK_valid K hK _ _ _
  have hAlen : A.length = HASH_LENGTH := squeezeK_length K _ _ _
  have hAddr : getAddress K root none B = trytes A := rfl
  have hTA : trits (trytes A) = A :=
    trits_trytes A hAv (by rw [hAlen]; norm_num [HASH_LENGTH])
  -- the public password trits
  set N := fromValue (- value B) with hN
  have hNv : validTrits N := fromValue_valid _
  obtain ⟨hPv, hPlen, -⟩ := add_spec A N hAv hNv
  have hNlen : N.length ≤ A.length := by
    have hvb := value_bound B hBv
    have h1 : 3 ^ B.length % 2 = 1 := by rw [Nat.pow_mod]; norm_num
    refine le_trans (fromValue_length_le B.length _ ?_) (by omega)
    rw [Int.natAbs_neg]
    omega
  rw [Nat.max_eq_left hNlen] at hPlen
  have hPP : publicPassword K root i = trytes (add A N) := by
    unfold publicPassword
    dsimp only
    rw [← hB, hAddr, hTA, ← hN]
  -- the key
  show trytes (add (trits (publicPassword K root i)) B) = getAddress K root none B
  rw [hPP, trits_trytes _ hPv (by rw [hPlen, hAlen]; norm_num [HASH_LENGTH]),
    add_sub_cancel A B hAv hBv (by omega), hAddr]

/-- Witness for C5 at the zero sponge, the zero root and index 0. -/
theorem claim_C5_witness :
    spongeValid zeroSponge ∧ 0 < 27 ^ 6 ∧
    getKey (List.replicate 243 0) none (trits (intToTrytes 0))
        (some (publicPassword zeroSponge (List.replicate 243 0) 0)) =
      getAddress zeroSponge (List.replicate 243 0) none (trits (intToTrytes 0)) :=
  ⟨zeroSponge_valid, by norm_num,
    claim_C5 zeroSponge zeroSponge_valid (List.replicate 243 0) 0 (by norm_num)⟩

/-! ## Merkle tree (`src/lib/merkle.js`) -/

/-- A merkle tree node: hash, level (`height`) and position (`index`). -/
structure TNode where
  hash : List Int
  height : Nat
  index : Nat
deriving Repr

/-- A merkle tree leaf (`Leaf` in the API): one-time key pair plus position. -/
structure TLeaf where
  publicKey : List Int
  privateKey : List Int
  index : Nat
  height : Nat

/-- Modelled from the spec: `@iota/signing` `subseed` (an external primitive),
the "standard subseed derivation (hash of (seed trits + i))" of spec section
4.3: add the index to the seed trits, pad and sponge-hash to 243 trits. -/
def subseedK (K : List Int → Nat → Int) (seedTrits : List Int) (idx : Nat) : List Int :=
  squeezeK K (padTritsMultipleOf HASH_LENGTH HASH_LENGTH (add seedTrits (fromValue idx))) 0
    HASH_LENGTH

/-- The key pair of leaf `idx` (`createTree`: `sign.createKeyPair` on the
trytes of the subseed). -/
def leafKeyPair (K : List Int → Nat → Int) (seed : Trytes) (security idx : Nat) : KeyPair :=
  createKeyPair K (trytes (subseedK K (trits seed) idx)) security

/-- The public key of leaf `idx` (offset already applied). -/
def leafPub (K : List Int → Nat → Int) (seed : Trytes) (security offset : Nat)
    (i : Nat) : List Int :=
  (leafKeyPair K seed security (i + offset)).publicKey

/-- The leaf object built in the loop body of `createTree`. -/
def mkLeaf (K : List Int → Nat → Int) (seed : Trytes) (security offset i : Nat) : TLeaf :=
  ⟨(leafKeyPair K seed security (i + offset)).publicKey,
   (leafKeyPair K seed security (i + offset)).privateKey, i, 0⟩

/-- `hashes[height].push(node)`. -/
def pushHash (hashes : List (List TNode)) (h : Nat) (n : TNode) : List (List TNode) :=
  hashes.set h ((hashes.getD h []) ++ [n])

/-- The inner while loop of `createTree`: while the stack top has the same
height as the current node, pop it, absorb both hashes, squeeze
`security * 243` trits and push the parent into `hashes[height]`. -/
def reduceStack (K : List Int → Nat → Int) (security : Nat) :
    List TNode → TNode → List (List TNode) → List TNode × TNode × List (List TNode)
  | [], node, hashes => ([], node, hashes)
  | top :: rest, node, hashes =>
    if top.height = node.height then
      let newNode : TNode := ⟨squeezeK K (top.hash ++ node.hash) 0 (security * HASH_LENGTH),
        top.height + 1, (hashes.getD (top.height + 1) []).length⟩
      reduceStack K security rest newNode (pushHash hashes (top.height + 1) newNode)
    else (top :: rest, node, hashes)

/-- One iteration of the leaf loop of `createTree`. -/
def buildStep (K : List Int → Nat → Int) (seed : Trytes) (security offset : Nat)
    (st : List TNode × List TLeaf × List (List TNode)) (i : Nat) :
    List TNode × List TLeaf × List (List TNode) :=
  let leaf := mkLeaf K seed security offset i
  let node : TNode := ⟨leaf.publicKey, 0, leaf.index⟩
  let r := reduceStack K security st.1 node st.2.2
  (r.2.1 :: r.1, st.2.1 ++ [leaf], r.2.2)

/-- The leaf loop of `createTree`, processing `r` further leaves starting at
index `i`. -/
def buildFrom (K : List Int → Nat → Int) (seed : Trytes) (security offset : Nat) :
    Nat → Nat → List TNode × List TLeaf × List (List TNode) →
    List TNode × List TLeaf × List (List TNode)
  | _, 0, st => st
  | i, r + 1, st => buildFrom K seed security offset (i + 1) r
      (buildStep K seed security offset st i)

/-- `createTree` (`src/lib/merkle.js`): build all `2^h` leaves with the
incremental stack, then mirror the leaves into `hashes[0]`; the root is the
hash of the single remaining stack entry.  (The progress callback is purely
advisory and not modelled.)  Returns `(root, leafs, hashes)`. -/
def createTree (K : List Int → Nat → Int) (seed : Trytes) (h : Nat)
    (security offset : Nat) : List Int × List TLeaf × List (List TNode) :=
  let st := buildFrom K seed security offset 0 (2 ^ h) ([], [], List.replicate (h + 1) [])
  let hashes0 := st.2.2.set 0 (st.2.1.map fun lf => (⟨lf.publicKey, lf.height, lf.index⟩ : TNode))
  ((st.1.headD ⟨[], 0, 0⟩).hash, st.2.1, hashes0)

/-- `getAuthPath` (`src/lib/merkle.js`): the sibling index per level. -/
def getAuthPath (index h : Nat) : List Nat :=
  (List.range h).map (fun i =>
    let fl := index / 2 ^ i
    if fl % 2 = 0 then fl + 1 else fl - 1)

/-- `authPath.map((i, level) => hashes[level][i].hash)` (how the repository
selects the sibling hashes from the tree levels, e.g. in
`RAAM.createMessageTransfers`). -/
def selectAuthPath (hashes : List (List TNode)) : Nat → List Nat → List (List Int)
  | _, [] => []
  | level, sib :: rest =>
    ((hashes.getD level []).getD sib ⟨[], 0, 0⟩).hash ::
      selectAuthPath hashes (level + 1) rest

/-- The hash-combining loop of `verifyMerkleTree`: at each level combine the
running hash with the sibling (order by the parity of `index / 2^level`) and
squeeze `verificationKey.length` trits. -/
def verifyGo (K : List Int → Nat → Int) (vkLen index : Nat) :
    Nat → List Int → List (List Int) → List Int
  | _, cur, [] => cur
  | level, cur, hsib :: rest =>
    let fl := index / 2 ^ level
    let comb := if fl % 2 = 0 then cur ++ hsib else hsib ++ cur
    verifyGo K vkLen index (level + 1) (squeezeK K comb 0 vkLen) rest

/-- `verifyMerkleTree` (`src/lib/merkle.js`): recompute the root from the
verifying key and the authentication path and compare with `public` (the
supplied root) as tryte strings. -/
def verifyMerkleTree (K : List Int → Nat → Int) (pub verificationKey : List Int)
    (index : Nat) (authPathHashes : List (List Int)) : Bool :=
  trytes pub == trytes (verifyGo K verificationKey.length index 0 verificationKey authPathHashes)

/-- The intended hash of tree node `(level, j)`: leaf public keys at level 0,
sponge of the two children above. -/
def nodeHash (K : List Int → Nat → Int) (seed : Trytes) (security offset : Nat) :
    Nat → Nat → List Int
  | 0, j => leafPub K seed security offset j
  | level + 1, j =>
    squeezeK K (nodeHash K seed security offset level (2 * j) ++
      nodeHash K seed security offset level (2 * j + 1)) 0 (security * HASH_LENGTH)

/-- The stack contents after `m` subtrees of size `2^level` have been
consumed: one completed node per set bit of `m`, lowest level on top. -/
def specStackL (K : List Int → Nat → Int) (seed : Trytes) (security offset : Nat)
    (level m : Nat) : List TNode :=
  if m = 0 then []
  else if m % 2 = 1 then
    ⟨nodeHash K seed security offset level (m - 1), level, m - 1⟩ ::
      specStackL K seed security offset (level + 1) (m / 2)
  else specStackL K seed security offset (level + 1) (m / 2)
termination_by m
decreasing_by all_goals omega

/-- Level `j` of the `hashes` table holds exactly the first `cnt` completed
nodes of that level. -/
def levelOK (K : List Int → Nat → Int) (seed : Trytes) (security offset : Nat)
    (hashes : List (List TNode)) (j cnt : Nat) : Prop :=
  (hashes.getD j []).length = cnt ∧
  ∀ t, t < cnt → (hashes.getD j []).getD t ⟨[], 0, 0⟩ =
    ⟨nodeHash K seed security offset j t, j, t⟩

/-! ## List `getD` helpers and arithmetic helpers for the tree invariant -/

theorem getD_set_eq_of_lt {α : Type} (l : List α) (i : Nat) (x d : α) (h : i < l.length) :
    (l.set i x).getD i d = x := by
  rw [List.getD_eq_getElem _ _ (by simpa using h)]
  simp [List.getElem_set]

theorem getD_set_ne {α : Type} (l : List α) (i j : Nat) (x d : α) (h : i ≠ j) :
    (l.set i x).getD j d = l.getD j d := by
  unfold List.getD
  rw [List.get?_eq_getElem?, List.get?_eq_getElem?, List.getElem?_set_ne h]

theorem getD_append_lt {α : Type} (a b : List α) (t : Nat) (d : α) (h : t < a.length) :
    (a ++ b).getD t d = a.getD t d := by
  unfold List.getD
  rw [List.get?_eq_getElem?, List.get?_eq_getElem?, List.getElem?_append_left h]

theorem getD_append_len {α : Type} (a : List α) (n d : α) :
    (a ++ [n]).getD a.length d = n := by
  unfold List.getD
  rw [List.get?_eq_getElem?, List.getElem?_append_right (le_refl _)]
  simp

theorem even_succ_div_pow (m k : Nat) (hm : m % 2 = 0) (hk : 1 ≤ k) :
    (m + 1) / 2 ^ k = m / 2 ^ k := by
  rw [Nat.succ_div]
  have : ¬ 2 ^ k ∣ m + 1 := by
    intro hdvd
    have h2 : (2 : Nat) ∣ 2 ^ k := dvd_pow_self 2 (by omega)
    have := h2.trans hdvd
    omega
  simp [this]

theorem mul_pow_div (m level j : Nat) (hj : level ≤ j) :
    m * 2 ^ level / 2 ^ j = m / 2 ^ (j - level) := by
  have h1 : (2:Nat) ^ j = 2 ^ level * 2 ^ (j - level) := by
    rw [← pow_add]
    congr 1
    omega
  rw [h1, Nat.mul_comm m, Nat.mul_div_mul_left _ _ (Nat.pos_pow_of_pos level (by norm_num))]

theorem pow_le_pow_iff_level (a b : Nat) : 2 ^ a ≤ 2 ^ b ↔ a ≤ b :=
  Nat.pow_le_pow_iff_right (by norm_num)

theorem pushHash_length (hashes : List (List TNode)) (j : Nat) (n : TNode) :
    (pushHash hashes j n).length = hashes.length := by
  simp [pushHash]

theorem pushHash_getD_ne (hashes : List (List TNode)) (j j2 : Nat) (n : TNode)
    (h : j ≠ j2) : (pushHash hashes j n).getD j2 [] = hashes.getD j2 [] :=
  getD_set_ne _ _ _ _ _ h

theorem pushHash_getD_eq (hashes : List (List TNode)) (j : Nat) (n : TNode)
    (h : j < hashes.length) :
    (pushHash hashes j n).getD j [] = hashes.getD j [] ++ [n] :=
  getD_set_eq_of_lt _ _ _ _ h

theorem specStackL_height_ge (K : List Int → Nat → Int) (seed : Trytes)
    (security offset : Nat) :
    ∀ (m level : Nat) (n : TNode),
      n ∈ specStackL K seed security offset level m → level ≤ n.height := by
  intro m
  induction m using Nat.strong_induction_on with
  | _ m ih =>
    intro level n hn
    rw [specStackL] at hn
    by_cases h0 : m = 0
    · simp [h0] at hn
    · rw [if_neg h0] at hn
      by_cases h1 : m % 2 = 1
      · rw [if_pos h1] at hn
        rcases List.mem_cons.mp hn with rfl | hmem
        · simp
        · have := ih (m / 2) (by omega) (level + 1) n hmem
          omega
      · rw [if_neg h1] at hn
        have := ih (m / 2) (by omega) (level + 1) n hn
        omega

theorem reduceStack_nil (K : List Int → Nat → Int) (security : Nat) (node : TNode)
    (hashes : List (List TNode)) :
    reduceStack K security [] node hashes = ([], node, hashes) := rfl

theorem reduceStack_cons_eq (K : List Int → Nat → Int) (security : Nat) (top : TNode)
    (rest : List TNode) (node : TNode) (hashes : List (List TNode))
    (h : top.height = node.height) :
    reduceStack K security (top :: rest) node hashes =
      reduceStack K security rest
        ⟨squeezeK K (top.hash ++ node.hash) 0 (security * HASH_LENGTH), top.height + 1,
          (hashes.getD (top.height + 1) []).length⟩
        (pushHash hashes (top.height + 1)
          ⟨squeezeK K (top.hash ++ node.hash) 0 (security * HASH_LENGTH), top.height + 1,
            (hashes.getD (top.height + 1) []).length⟩) := by
  rw [reduceStack, if_pos h]

theorem reduceStack_cons_ne (K : List Int → Nat → Int) (security : Nat) (top : TNode)
    (rest : List TNode) (node : TNode) (hashes : List (List TNode))
    (h : ¬ top.height = node.height) :
    reduceStack K security (top :: rest) node hashes = (top :: rest, node, hashes) := by
  rw [reduceStack, if_neg h]

theorem specStackL_zero (K : List Int → Nat → Int) (seed : Trytes)
    (security offset level : Nat) :
    specStackL K seed security offset level 0 = [] := by
  rw [specStackL]
  simp

theorem specStackL_odd (K : List Int → Nat → Int) (seed : Trytes)
    (security offset level m : Nat) (h0 : m ≠ 0) (h1 : m % 2 = 1) :
    specStackL K seed security offset level m =
      ⟨nodeHash K seed security offset level (m - 1), level, m - 1⟩ ::
        specStackL K seed security offset (level + 1) (m / 2) := by
  rw [specStackL, if_neg h0, if_pos h1]

theorem specStackL_even (K : List Int → Nat → Int) (seed : Trytes)
    (security offset level m : Nat) (h0 : m ≠ 0) (h1 : m % 2 = 0) :
    specStackL K seed security offset level m =
      specStackL K seed security offset (level + 1) (m / 2) := by
  rw [specStackL, if_neg h0, if_neg (by omega)]

/-- Correctness of the inner while loop of `createTree`: starting from the
stack for `m` completed subtrees at `level` and the freshly completed node
for the `(m+1)`-st, the reductions leave exactly the stack for `m + 1`
subtrees, and every level `j` of the `hashes` table holds its completed
nodes. -/
theorem reduceStack_spec (K : List Int → Nat → Int) (seed : Trytes)
    (security offset h : Nat) :
    ∀ (m : Nat), ∀ (level : Nat) (hashes : List (List TNode)),
      hashes.length = h + 1 →
      (m + 1) * 2 ^ level ≤ 2 ^ h →
      (∀ j, 1 ≤ j → j ≤ h →
        levelOK K seed security offset hashes j
          (if j ≤ level then (m + 1) * 2 ^ level / 2 ^ j else m / 2 ^ (j - level))) →
      ∃ node2 stack2 hashes2,
        reduceStack K security (specStackL K seed security offset level m)
            ⟨nodeHash K seed security offset level m, level, m⟩ hashes
          = (stack2, node2, hashes2) ∧
        node2 :: stack2 = specStackL K seed security offset level (m + 1) ∧
        hashes2.length = h + 1 ∧
        (∀ j, 1 ≤ j → j ≤ h →
          levelOK K seed security offset hashes2 j ((m + 1) * 2 ^ level / 2 ^ j)) := by
  intro m
  induction m using Nat.strong_induction_on with
  | _ m ih =>
    intro level hashes hlen hN hpre
    by_cases h0 : m = 0
    · subst h0
      rw [specStackL_zero, reduceStack_nil]
      refine ⟨_, _, _, rfl, ?_, hlen, ?_⟩
      · rw [specStackL_odd K seed security offset level 1 (by omega) (by omega)]
        norm_num
        rw [specStackL_zero]
      · intro j hj1 hj2
        have := hpre j hj1 hj2
        by_cases hjl : j ≤ level
        · rwa [if_pos hjl] at this
        · rw [if_neg hjl] at this
          have hz : (0 + 1) * 2 ^ level / 2 ^ j = 0 := by
            rw [Nat.one_mul, Nat.div_eq_of_lt]
            exact Nat.pow_lt_pow_right (by norm_num) (by omega)
          rw [hz]
          simpa using this
    · by_cases h1 : m % 2 = 1
      · -- odd: one merge, then recurse one level up
        have hlev : level + 1 ≤ h := by
          rw [← pow_le_pow_iff_level]
          calc (2:Nat) ^ (level + 1) = 2 * 2 ^ level := by ring
            _ ≤ (m + 1) * 2 ^ level := Nat.mul_le_mul_right _ (by omega)
            _ ≤ 2 ^ h := hN
        have hprod : (m / 2 + 1) * 2 ^ (level + 1) = (m + 1) * 2 ^ level := by
          have h2 : (m / 2 + 1) * 2 = m + 1 := by omega
          calc (m / 2 + 1) * 2 ^ (level + 1) = ((m / 2 + 1) * 2) * 2 ^ level := by ring
            _ = (m + 1) * 2 ^ level := by rw [h2]
        have hidx : (hashes.getD (level + 1) []).length = m / 2 := by
          have := hpre (level + 1) (by omega) hlev
          rw [if_neg (by omega)] at this
          have he : level + 1 - level = 1 := by omega
          rw [he, pow_one] at this
          exact this.1
        have hhash : squeezeK K
            (nodeHash K seed security offset level (m - 1) ++
              nodeHash K seed security offset level m) 0 (security * HASH_LENGTH)
            = nodeHash K seed security offset (level + 1) (m / 2) := by
          rw [nodeHash]
          rw [show 2 * (m / 2) + 1 = m by omega, show 2 * (m / 2) = m - 1 by omega]
        -- the merged node
        rw [specStackL_odd K seed security offset level m h0 h1,
          reduceStack_cons_eq K security
            ⟨nodeHash K seed security offset level (m - 1), level, m - 1⟩
            (specStackL K seed security offset (level + 1) (m / 2))
            ⟨nodeHash K seed security offset level m, level, m⟩ hashes rfl]
        dsimp only
        rw [hidx, hhash]
        -- invariants for the recursive call
        have hlen2 : (pushHash hashes (level + 1)
            ⟨nodeHash K seed security offset (level + 1) (m / 2), level + 1, m / 2⟩).length
            = h + 1 := by rw [pushHash_length, hlen]
        have hN2 : (m / 2 + 1) * 2 ^ (level + 1) ≤ 2 ^ h := by rw [hprod]; exact hN
        have hpre2 : ∀ j, 1 ≤ j → j ≤ h →
            levelOK K seed security offset
              (pushHash hashes (level + 1)
                ⟨nodeHash K seed security offset (level + 1) (m / 2), level + 1, m / 2⟩) j
              (if j ≤ level + 1 then (m / 2 + 1) * 2 ^ (level + 1) / 2 ^ j
               else m / 2 / 2 ^ (j - (level + 1))) := by
          intro j hj1 hj2
          have hold := hpre j hj1 hj2
          by_cases hje : j = level + 1
          · subst hje
            rw [if_pos (le_refl _)]
            constructor
            · rw [pushHash_getD_eq _ _ _ (by omega), List.length_append, hidx, hprod,
                show (m + 1) * 2 ^ level = (m / 2 + 1) * 2 ^ (level + 1) from hprod.symm]
              rw [Nat.mul_div_cancel _ (Nat.pos_pow_of_pos _ (by norm_num))]
              simp
            · intro t ht
              rw [pushHash_getD_eq _ _ _ (by omega)]
              rw [hprod, show (m + 1) * 2 ^ level = (m / 2 + 1) * 2 ^ (level + 1)
                from hprod.symm, Nat.mul_div_cancel _ (Nat.pos_pow_of_pos _ (by norm_num))]
                at ht
              by_cases htl : t < m / 2
              · rw [getD_append_lt _ _ _ _ (by rw [hidx]; exact htl)]
                have := hpre (level + 1) (by omega) hlev
                rw [if_neg (by omega), show level + 1 - level = 1 by omega, pow_one] at this
                exact this.2 t htl
              · have hteq : t = m / 2 := by omega
                subst hteq
                rw [← hidx, getD_append_len]
          · unfold levelOK at hold ⊢
            rw [pushHash_getD_ne _ _ _ _ (fun he => hje he.symm)]
            by_cases hjl : j ≤ level
            · rw [if_pos hjl] at hold
              rw [if_pos (by omega), hprod]
              exact hold
            · -- j > level + 1 here (j ≠ level+1, j > level)
              rw [if_neg hjl] at hold
              rw [if_neg (by omega)]
              have hdd : m / 2 / 2 ^ (j - (level + 1)) = m / 2 ^ (j - level) := by
                have h2 : (2:Nat) * 2 ^ (j - (level + 1)) = 2 ^ (j - level) := by
                  rw [show j - level = (j - (level + 1)) + 1 by omega, pow_succ]
                  ring
                rw [Nat.div_div_eq_div_mul, h2]
              rw [hdd]
              exact hold
        obtain ⟨node2, stack2, hashes2, heq, hstk, hlen3, hpost⟩ :=
          ih (m / 2) (by omega) (level + 1) _ hlen2 hN2 hpre2
        refine ⟨node2, stack2, hashes2, heq, ?_, hlen3, ?_⟩
        · rw [hstk, specStackL_even K seed security offset level (m + 1) (by omega) (by omega)]
          congr 1
          omega
        · intro j hj1 hj2
          have := hpost j hj1 hj2
          rwa [hprod] at this
      · -- even (and nonzero): the stack top is at a higher level, stop at once
        have hm2 : m % 2 = 0 := by omega
        have hcnt : ∀ j, 1 ≤ j → j ≤ h → ¬ j ≤ level →
            (m + 1) * 2 ^ level / 2 ^ j = m / 2 ^ (j - level) := by
          intro j _ _ hj
          rw [mul_pow_div _ _ _ (by omega)]
          exact even_succ_div_pow m (j - level) hm2 (by omega)
        have hpost2 : ∀ j, 1 ≤ j → j ≤ h →
            levelOK K seed security offset hashes j ((m + 1) * 2 ^ level / 2 ^ j) := by
          intro j hj1 hj2
          have := hpre j hj1 hj2
          by_cases hjl : j ≤ level
          · rwa [if_pos hjl] at this
          · rw [if_neg hjl] at this
            rw [hcnt j hj1 hj2 hjl]
            exact this
        have hsplit : specStackL K seed security offset level (m + 1) =
            ⟨nodeHash K seed security offset level m, level, m⟩ ::
              specStackL K seed security offset (level + 1) (m / 2) := by
          rw [specStackL_odd K seed security offset level (m + 1) (by omega) (by omega)]
          norm_num
          congr 1
          omega
        rw [specStackL_even K seed security offset level m h0 hm2]
        cases hsp : specStackL K seed security offset (level + 1) (m / 2) with
        | nil =>
          rw [reduceStack_nil]
          exact ⟨_, _, _, rfl, by rw [hsplit, hsp], hlen, hpost2⟩
        | cons top rest =>
          have htop : level + 1 ≤ top.height :=
            specStackL_height_ge K seed security offset (m / 2) (level + 1) top
              (by rw [hsp]; simp)
          rw [reduceStack_cons_ne K security _ _ _ _ (by simp; omega)]
          exact ⟨_, _, _, rfl, by rw [hsplit, hsp], hlen, hpost2⟩

theorem getD_replicate_nil (n j : Nat) :
    (List.replicate n ([] : List TNode)).getD j [] = [] := by
  unfold List.getD
  rw [List.get?_eq_getElem?, List.getElem?_replicate]
  split <;> rfl

theorem specStackL_pow (K : List Int → Nat → Int) (seed : Trytes) (security offset : Nat) :
    ∀ (k level : Nat), specStackL K seed security offset level (2 ^ k) =
      [⟨nodeHash K seed security offset (level + k) 0, level + k, 0⟩]
  | 0, level => by
    rw [pow_zero, specStackL_odd K seed security offset level 1 (by omega) (by omega)]
    norm_num
    exact specStackL_zero K seed security offset (level + 1)
  | k + 1, level => by
    have hne : (2:Nat) ^ (k + 1) ≠ 0 := by positivity
    have hs : (2:Nat) ^ (k + 1) = 2 ^ k * 2 := pow_succ 2 k
    have hmod : (2:Nat) ^ (k + 1) % 2 = 0 := by rw [hs]; omega
    have hdiv : (2:Nat) ^ (k + 1) / 2 = 2 ^ k := by rw [hs]; omega
    rw [specStackL_even K seed security offset level (2 ^ (k + 1)) hne hmod, hdiv,
      specStackL_pow K seed security offset k (level + 1),
      show level + 1 + k = level + (k + 1) by omega]

/-- Correctness of the leaf loop of `createTree`. -/
theorem buildFrom_spec (K : List Int → Nat → Int) (seed : Trytes)
    (security offset h : Nat) :
    ∀ (r i : Nat) (hashes : List (List TNode)),
      i + r = 2 ^ h →
      hashes.length = h + 1 →
      (∀ j, 1 ≤ j → j ≤ h → levelOK K seed security offset hashes j (i / 2 ^ j)) →
      ∃ hashes2,
        buildFrom K seed security offset i r
            (specStackL K seed security offset 0 i,
             (List.range i).map (mkLeaf K seed security offset), hashes)
          = (specStackL K seed security offset 0 (2 ^ h),
             (List.range (2 ^ h)).map (mkLeaf K seed security offset), hashes2) ∧
        hashes2.length = h + 1 ∧
        (∀ j, 1 ≤ j → j ≤ h → levelOK K seed security offset hashes2 j (2 ^ h / 2 ^ j))
  | 0, i, hashes => by
    intro hir hlen hOK
    have : i = 2 ^ h := by omega
    subst this
    exact ⟨hashes, rfl, hlen, hOK⟩
  | r + 1, i, hashes => by
    intro hir hlen hOK
    -- one buildStep
    have hpre : ∀ j, 1 ≤ j → j ≤ h →
        levelOK K seed security offset hashes j
          (if j ≤ 0 then (i + 1) * 2 ^ 0 / 2 ^ j else i / 2 ^ (j - 0)) := by
      intro j hj1 hj2
      rw [if_neg (by omega), Nat.sub_zero]
      exact hOK j hj1 hj2
    obtain ⟨node2, stack2, hashes2, heq, hstk, hlen2, hpost⟩ :=
      reduceStack_spec K seed security offset h i 0 hashes hlen
        (by rw [pow_zero, Nat.mul_one]; omega) hpre
    have hstep : buildStep K seed security offset
        (specStackL K seed security offset 0 i,
         (List.range i).map (mkLeaf K seed security offset), hashes) i
        = (specStackL K seed security offset 0 (i + 1),
           (List.range (i + 1)).map (mkLeaf K seed security offset), hashes2) := by
      unfold buildStep
      dsimp only
      have hnode : (⟨(mkLeaf K seed security offset i).publicKey, 0,
          (mkLeaf K seed security offset i).index⟩ : TNode)
          = ⟨nodeHash K seed security offset 0 i, 0, i⟩ := rfl
      rw [hnode, heq]
      dsimp only
      rw [hstk, List.range_succ, List.map_append]
      rfl
    rw [show buildFrom K seed security offset i (r + 1)
        (specStackL K seed security offset 0 i,
         (List.range i).map (mkLeaf K seed security offset), hashes)
      = buildFrom K seed security offset (i + 1) r
        (buildStep K seed security offset
          (specStackL K seed security offset 0 i,
           (List.range i).map (mkLeaf K seed security offset), hashes) i) from rfl,
      hstep]
    refine buildFrom_spec K seed security offset h r (i + 1) hashes2 (by omega) hlen2 ?_
    intro j hj1 hj2
    have := hpost j hj1 hj2
    rwa [pow_zero, Nat.mul_one] at this

/-- `createTree` produces the recursively-specified node hashes: the root is
`nodeHash h 0`, the leaves are the generated key pairs in order, and every
level of `hashes` (the leaf level included) lists its `2^(h-j)` node hashes. -/
theorem createTree_spec (K : List Int → Nat → Int) (seed : Trytes)
    (h security offset : Nat) :
    ∃ hashes0,
      createTree K seed h security offset =
        (nodeHash K seed security offset h 0,
         (List.range (2 ^ h)).map (mkLeaf K seed security offset), hashes0) ∧
      (∀ j, j ≤ h → levelOK K seed security offset hashes0 j (2 ^ h / 2 ^ j)) := by
  have hOK0 : ∀ j, 1 ≤ j → j ≤ h →
      levelOK K seed security offset (List.replicate (h + 1) ([] : List TNode)) j (0 / 2 ^ j) := by
    intro j _ _
    constructor
    · rw [getD_replicate_nil, Nat.zero_div]
      rfl
    · intro t ht
      rw [Nat.zero_div] at ht
      omega
  obtain ⟨hashes2, heq, hlen2, hpost⟩ :=
    buildFrom_spec K seed security offset h (2 ^ h) 0
      (List.replicate (h + 1) ([] : List TNode)) (by omega) (by simp) hOK0
  rw [show specStackL K seed security offset 0 0 = [] from specStackL_zero K seed security offset 0,
    show (List.range 0).map (mkLeaf K seed security offset) = [] from rfl] at heq
  refine ⟨hashes2.set 0 (((List.range (2 ^ h)).map (mkLeaf K seed security offset)).map
      fun lf => (⟨lf.publicKey, lf.height, lf.index⟩ : TNode)), ?_, ?_⟩
  · unfold createTree
    rw [heq]
    dsimp only
    rw [specStackL_pow K seed security offset h 0]
    simp only [Nat.zero_add]
    rfl
  · intro j hj
    by_cases hj0 : j = 0
    · subst hj0
      constructor
      · rw [getD_set_eq_of_lt _ _ _ _ (by omega)]
        simp
      · intro t ht
        rw [getD_set_eq_of_lt _ _ _ _ (by omega)]
        simp only [pow_zero, Nat.div_one] at ht
        rw [List.getD_eq_getElem _ _ (by simpa using ht)]
        simp only [List.getElem_map, List.getElem_range]
        rfl
    · have := hpost j (by omega) hj
      constructor
      · rw [getD_set_ne _ _ _ _ _ (fun he => hj0 he.symm)]
        exact this.1
      · intro t ht
        rw [getD_set_ne _ _ _ _ _ (fun he => hj0 he.symm)]
        exact this.2 t ht

/-! ## C3: merkle path soundness -/

theorem createPublicKey_len (K : List Int → Nat → Int) (pk : List Int) :
    (createPublicKey K pk).length = pk.length / FRAG_SIZE * HASH_LENGTH := by
  unfold createPublicKey
  have hu : ∀ x ∈ (List.range (pk.length / FRAG_SIZE)).map (fun c =>
      squeezeK K
        ((List.range PK_FRAGMENTS).map (fun j =>
          (kerlHash K)^[26] (keyFragment pk (c * PK_FRAGMENTS + j)))).flatten
        0 HASH_LENGTH), x.length = HASH_LENGTH := by
    intro x hx
    obtain ⟨c, _, rfl⟩ := List.mem_map.mp hx
    exact squeezeK_length K _ _ _
  rw [flatten_length_uniform HASH_LENGTH _ hu, List.length_map, List.length_range]

theorem leafPub_length (K : List Int → Nat → Int) (seed : Trytes) (security offset i : Nat) :
    (leafPub K seed security offset i).length = security * HASH_LENGTH := by
  unfold leafPub leafKeyPair
  rw [createKeyPair_publicKey, createPublicKey_len]
  unfold createPrivateKey
  rw [squeezeK_length]
  have h1 : security * PK_FRAGMENTS * HASH_LENGTH = security * 6561 := by
    unfold PK_FRAGMENTS HASH_LENGTH
    ring
  have h2 : FRAG_SIZE = 6561 := rfl
  have h3 : security * 6561 / 6561 = security := by omega
  rw [h1, h2, h3]

theorem nodeHash_length (K : List Int → Nat → Int) (seed : Trytes) (security offset : Nat) :
    ∀ level j, (nodeHash K seed security offset level j).length = security * HASH_LENGTH
  | 0, j => leafPub_length K seed security offset j
  | _ + 1, _ => squeezeK_length K _ _ _

theorem selectAuthPath_cons (hashes : List (List TNode)) (level sib : Nat) (rest : List Nat) :
    selectAuthPath hashes level (sib :: rest) =
      ((hashes.getD level []).getD sib ⟨[], 0, 0⟩).hash ::
        selectAuthPath hashes (level + 1) rest := rfl

theorem verifyGo_cons (K : List Int → Nat → Int) (vkLen index level : Nat)
    (cur hsib : List Int) (rest : List (List Int)) :
    verifyGo K vkLen index level cur (hsib :: rest) =
      verifyGo K vkLen index (level + 1)
        (squeezeK K (if index / 2 ^ level % 2 = 0 then cur ++ hsib else hsib ++ cur) 0 vkLen)
        rest := rfl

/-- The verification loop of `verifyMerkleTree`, run on the sibling hashes
selected from a `hashes` table satisfying the per-level invariant, rebuilds
exactly the intended node hashes, level by level. -/
theorem verifyGo_spec (K : List Int → Nat → Int) (seed : Trytes)
    (security offset h i : Nat) (hashes : List (List TNode))
    (hOK : ∀ j, j ≤ h → levelOK K seed security offset hashes j (2 ^ h / 2 ^ j))
    (hi : i < 2 ^ h) :
    ∀ (n ℓ : Nat), ℓ + n ≤ h →
      verifyGo K (security * HASH_LENGTH) i ℓ
        (nodeHash K seed security offset ℓ (i / 2 ^ ℓ))
        (selectAuthPath hashes ℓ ((List.range' ℓ n).map (fun lv =>
          if i / 2 ^ lv % 2 = 0 then i / 2 ^ lv + 1 else i / 2 ^ lv - 1)))
      = nodeHash K seed security offset (ℓ + n) (i / 2 ^ (ℓ + n))
  | 0, ℓ, _ => rfl
  | n + 1, ℓ, hle => by
    have hℓh : ℓ < h := by omega
    have hp2 : 0 < (2:Nat) ^ ℓ := by positivity
    have hsplit : (2:Nat) ^ h = 2 ^ ℓ * 2 ^ (h - ℓ) := by
      rw [← pow_add]
      congr 1
      omega
    have hE : 2 ^ h / 2 ^ ℓ = 2 ^ (h - ℓ) := by
      rw [hsplit, Nat.mul_div_cancel_left _ hp2]
    have hfl : i / 2 ^ ℓ < 2 ^ (h - ℓ) := Nat.div_lt_of_lt_mul (by rw [← hsplit]; exact hi)
    have heven : 2 ^ (h - ℓ) % 2 = 0 := by
      have h2 : (2:Nat) ^ (h - ℓ) = 2 ^ (h - ℓ - 1) * 2 := by
        rw [← pow_succ]
        congr 1
        omega
      omega
    obtain ⟨hlen, hval⟩ := hOK ℓ (by omega)
    have hdd : i / 2 ^ (ℓ + 1) = i / 2 ^ ℓ / 2 := by
      rw [pow_succ, ← Nat.div_div_eq_div_mul]
    have hburst : nodeHash K seed security offset (ℓ + 1) (i / 2 ^ ℓ / 2) =
        squeezeK K (nodeHash K seed security offset ℓ (2 * (i / 2 ^ ℓ / 2)) ++
          nodeHash K seed security offset ℓ (2 * (i / 2 ^ ℓ / 2) + 1)) 0
          (security * HASH_LENGTH) := rfl
    rw [List.range'_succ, List.map_cons]
    by_cases hp : i / 2 ^ ℓ % 2 = 0
    · have hb1 : i / 2 ^ ℓ + 1 < 2 ^ h / 2 ^ ℓ := by
        rw [hE]
        omega
      rw [if_pos hp, selectAuthPath_cons, hval (i / 2 ^ ℓ + 1) hb1]
      dsimp only
      rw [verifyGo_cons, if_pos hp]
      have hnode : squeezeK K (nodeHash K seed security offset ℓ (i / 2 ^ ℓ) ++
          nodeHash K seed security offset ℓ (i / 2 ^ ℓ + 1)) 0 (security * HASH_LENGTH) =
          nodeHash K seed security offset (ℓ + 1) (i / 2 ^ (ℓ + 1)) := by
        rw [hdd, hburst, show 2 * (i / 2 ^ ℓ / 2) = i / 2 ^ ℓ by omega]
      rw [hnode,
        verifyGo_spec K seed security offset h i hashes hOK hi n (ℓ + 1) (by omega),
        show ℓ + 1 + n = ℓ + (n + 1) by omega]
    · have hb2 : i / 2 ^ ℓ - 1 < 2 ^ h / 2 ^ ℓ := by
        rw [hE]
        exact lt_of_le_of_lt (Nat.sub_le _ _) hfl
      rw [if_neg hp, selectAuthPath_cons, hval (i / 2 ^ ℓ - 1) hb2]
      dsimp only
      rw [verifyGo_cons, if_neg hp]
      have hnode : squeezeK K (nodeHash K seed security offset ℓ (i / 2 ^ ℓ - 1) ++
          nodeHash K seed security offset ℓ (i / 2 ^ ℓ)) 0 (security * HASH_LENGTH) =
          nodeHash K seed security offset (ℓ + 1) (i / 2 ^ (ℓ + 1)) := by
        rw [hdd, hburst, show 2 * (i / 2 ^ ℓ / 2) + 1 = i / 2 ^ ℓ by omega,
          show 2 * (i / 2 ^ ℓ / 2) = i / 2 ^ ℓ - 1 by omega]
      rw [hnode,
        verifyGo_spec K seed security offset h i hashes hOK hi n (ℓ + 1) (by omega),
        show ℓ + 1 + n = ℓ + (n + 1) by omega]

/-- **C3**: merkle path soundness.  For every sponge, seed, height, security
and offset, and every leaf index `i < 2^h` of the tree built by `createTree`,
`verifyMerkleTree` accepts the tree root together with leaf `i`'s public key
and the sibling hashes selected from the tree's levels by `getAuthPath i h`. -/
theorem claim_C3 (K : List Int → Nat → Int) (seed : Trytes)
    (h security offset : Nat) (i : Nat) (hi : i < 2 ^ h) :
    verifyMerkleTree K (createTree K seed h security offset).1
      (((createTree K seed h security offset).2.1.getD i ⟨[], [], 0, 0⟩).publicKey) i
      (selectAuthPath (createTree K seed h security offset).2.2 0 (getAuthPath i h))
      = true := by
  obtain ⟨hashes0, heq, hOK⟩ := createTree_spec K seed h security offset
  rw [heq]
  dsimp only
  rw [getD_map_range _ _ _ _ hi]
  have hvk : (mkLeaf K seed security offset i).publicKey = leafPub K seed security offset i := rfl
  have hpath : getAuthPath i h = (List.range' 0 h).map (fun lv =>
      if i / 2 ^ lv % 2 = 0 then i / 2 ^ lv + 1 else i / 2 ^ lv - 1) := by
    unfold getAuthPath
    rw [List.range_eq_range']
  unfold verifyMerkleTree
  rw [hvk, leafPub_length, hpath,
    show leafPub K seed security offset i =
      nodeHash K seed security offset 0 (i / 2 ^ 0) by rw [pow_zero, Nat.div_one]; rfl,
    verifyGo_spec K seed security offset h i hashes0 hOK hi h 0 (by omega),
    Nat.zero_add, Nat.div_eq_of_lt hi]
  exact beq_self_eq_true _

theorem claim_C3_witness :
    (0 < 2 ^ 1) ∧
    verifyMerkleTree zeroSponge (createTree zeroSponge [] 1 1 0).1
      (((createTree zeroSponge [] 1 1 0).2.1.getD 0 ⟨[], [], 0, 0⟩).publicKey) 0
      (selectAuthPath (createTree zeroSponge [] 1 1 0).2.2 0 (getAuthPath 0 1))
      = true :=
  ⟨by decide, claim_C3 zeroSponge [] 1 1 0 0 (by decide)⟩


/-! ## Message encryption (`src/lib/encrypt.js`) and assembly (`src/lib/message.js`) -/

/-- The error values thrown by `src/lib/message.js` (both halves) and by the
`RAAM` publisher of `src/lib/index.js`. -/
inductive MsgError where
  | invalidLength
  | invalidHeight
  | invalidSecurityLevel
  | invalidIndex
  | wrongIndex
  | wrongSecurity
  | wrongHeight
  | shortMessage
  | indexUsed
  | invalidMessage
deriving Repr, DecidableEq

/-- JavaScript `slice(0, e)` with a possibly negative end index: a negative
`e` counts from the end of the list, clamped at zero. -/
def jsTake {α : Type} (l : List α) (e : Int) : List α :=
  if 0 ≤ e then l.take e.toNat else l.take ((l.length : Int) + e).toNat

/-- The per-chunk loop of `encrypt` (`src/lib/encrypt.js`): split the message
into 81-tryte chunks; for chunk `c` squeeze the next 243 trits of the key
sponge and add them trit-wise (`trinarySum`) to the chunk's trits. -/
def encGo (K : List Int → Nat → Int) (a : List Int) (c : Nat) (m : Trytes) : Trytes :=
  if m = [] then []
  else
    trytes ((trits (m.take 81)).zipWith trinarySum
        (squeezeK K a (c * HASH_LENGTH) (trits (m.take 81)).length)) ++
      encGo K a (c + 1) (m.drop 81)
termination_by m.length
decreasing_by
  rename_i hm
  have : 0 < m.length := List.length_pos.mpr hm
  rw [List.length_drop]
  omega

/-- The per-chunk loop of `decrypt` (`src/lib/encrypt.js`): same chunking,
subtracting the squeezed key trits (`trinarySum(t, -k)`). -/
def decGo (K : List Int → Nat → Int) (a : List Int) (c : Nat) (m : Trytes) : Trytes :=
  if m = [] then []
  else
    trytes ((trits (m.take 81)).zipWith (fun t k => trinarySum t (-k))
        (squeezeK K a (c * HASH_LENGTH) (trits (m.take 81)).length)) ++
      decGo K a (c + 1) (m.drop 81)
termination_by m.length
decreasing_by
  rename_i hm
  have : 0 < m.length := List.length_pos.mpr hm
  rw [List.length_drop]
  omega

/-- `encrypt` (`src/lib/encrypt.js`), no salt (none is passed anywhere in the
repository): absorb the 243-padded key trits and mask the message chunk by
chunk. -/
def encrypt (K : List Int → Nat → Int) (message key : Trytes) : Trytes :=
  encGo K (padTritsTo HASH_LENGTH (trits key)) 0 message

/-- `decrypt` (`src/lib/encrypt.js`), no salt. -/
def decrypt (K : List Int → Nat → Int) (message key : Trytes) : Trytes :=
  decGo K (padTritsTo HASH_LENGTH (trits key)) 0 message

/-- `createTransfers` (`src/lib/message.js`, second half): assemble the
header (6 index trytes, 1 security/next-root tryte, 1 height tryte, 3 length
trytes), the message, the verifying key and auth-path hashes, and the
optional next root; encrypt the 2187-padded payload and cut it, followed by
the signature trytes, into 2187-tryte transfer fragments.  The transfer
fragments are returned (the constant address/value/tag transfer fields are
not modelled; `processBundle` reads only the fragments).  `alphabet.charAt`
returns the empty string for an out-of-range position. -/
def createTransfers (K : List Int → Nat → Int) (merkleRoot : List Int) (message : Trytes)
    (sig : List Int) (index : Nat) (verifyingKey : List Int)
    (authPathHashes : List (List Int)) (channelPassword : Option Trytes)
    (nextRoot : Option (List Int)) (messagePassword : Option Trytes) :
    Except MsgError (List Trytes) :=
  if 27 ^ 3 < message.length then .error .invalidLength else
  let indexTrytes := intToPaddedTrytes index 6
  let security := (trytes merkleRoot).length / 81
  if security < 1 ∨ 4 < security then .error .invalidSecurityLevel else
  let nextRootSec := match nextRoot with | some nr => (trytes nr).length / 81 | none => 0
  let securityTryte : Trytes :=
    if nextRootSec * 4 + security - 1 < 27 then [nextRootSec * 4 + security - 1] else []
  let lengthTrytes := intToPaddedTrytes message.length 3
  let indexTrits := trits (intToTrytes index)
  let key := getKey merkleRoot channelPassword indexTrits messagePassword
  let height := authPathHashes.length
  if height < 1 ∨ 26 < height then .error .invalidHeight else
  if 2 ^ height ≤ index then .error .invalidIndex else
  let heightTryte := intToPaddedTrytes height 1
  let hashes := trytes (verifyingKey ++ authPathHashes.flatten)
  let payload := indexTrytes ++ securityTryte ++ heightTryte ++ lengthTrytes ++ message ++ hashes
      ++ (match nextRoot with | some nr => trytes nr | none => [])
  let messageFragment := encrypt K (padTrytesMultipleOf 2187 2187 payload) key
  let transfers := (List.range ((messageFragment.length + 2186) / 2187)).map
      (fun i => (messageFragment.drop (i * 2187)).take 2187)
  let sigTrytes := trytes sig
  .ok (transfers ++ (List.range ((sigTrytes.length + 2186) / 2187)).map
      (fun i => (sigTrytes.drop (i * 2187)).take 2187))

/-- `sendMessage` (`src/lib/message.js`, FIRST half, lines 35-104): the
legacy assembly operation.  Same payload assembly and fragmenting as
`createTransfers`, but with no message-length guard and a height guard that
rejects `height < 2` (its `INVALID_HEIGHT` text reads "between 2 and 26").
Only the pure assembly is modelled; the subsequent bundle attachment is
network I/O and returns the fragments unchanged. -/
def legacySendMessage (K : List Int → Nat → Int) (merkleRoot : List Int) (message : Trytes)
    (sig : List Int) (index : Nat) (verifyingKey : List Int)
    (authPathHashes : List (List Int)) (channelPassword : Option Trytes)
    (nextRoot : Option (List Int)) (messagePassword : Option Trytes) :
    Except MsgError (List Trytes) :=
  let indexTrytes := intToPaddedTrytes index 6
  let security := (trytes merkleRoot).length / 81
  if security < 1 ∨ 4 < security then .error .invalidSecurityLevel else
  let nextRootSec := match nextRoot with | some nr => (trytes nr).length / 81 | none => 0
  let securityTryte : Trytes :=
    if nextRootSec * 4 + security - 1 < 27 then [nextRootSec * 4 + security - 1] else []
  let lengthTrytes := intToPaddedTrytes message.length 3
  let indexTrits := trits (intToTrytes index)
  let key := getKey merkleRoot channelPassword indexTrits messagePassword
  let height := authPathHashes.length
  if height < 2 ∨ 26 < height then .error .invalidHeight else
  if 2 ^ height ≤ index then .error .invalidIndex else
  let heightTryte := intToPaddedTrytes height 1
  let hashes := trytes (verifyingKey ++ authPathHashes.flatten)
  let payload := indexTrytes ++ securityTryte ++ heightTryte ++ lengthTrytes ++ message ++ hashes
      ++ (match nextRoot with | some nr => trytes nr | none => [])
  let messageFragment := encrypt K (padTrytesMultipleOf 2187 2187 payload) key
  let transfers := (List.range ((messageFragment.length + 2186) / 2187)).map
      (fun i => (messageFragment.drop (i * 2187)).take 2187)
  let sigTrytes := trytes sig
  .ok (transfers ++ (List.range ((sigTrytes.length + 2186) / 2187)).map
      (fun i => (sigTrytes.drop (i * 2187)).take 2187))

/-- `alphabet.indexOf` applied to a 0- or 1-character slice of a tryte
string whose characters are alphabet members: the character itself, or 0 for
the empty slice. -/
def alphaIndexOf (s : Trytes) : Nat :=
  match s with
  | [] => 0
  | c :: _ => c

/-- The payload-reassembly loop of `processBundle`: starting at transaction
1, append `slice(0, remainingLength)` of each fragment, decreasing
`remainingLength` by 2187 per transaction (it is a JavaScript number and may
go negative, whence `jsTake`). -/
def cipherExt (txs : List Trytes) : Nat → Nat → Int → Trytes
  | _, 0, _ => []
  | i, n + 1, remaining =>
    jsTake (txs.getD i []) remaining ++ cipherExt txs (i + 1) n (remaining - 2187)

/-- `Int8Array.set(src, off)` on a buffer, for in-range writes (the only
writes `processBundle` performs on bundles produced by `createTransfers`). -/
def setSeg (dst : List Int) (off : Nat) (src : List Int) : List Int :=
  dst.take off ++ src ++ dst.drop (off + src.length)

/-- The signature-extraction loop of `processBundle`: each transaction from
`payloadTransactions` on is written into the zero-initialised signature
buffer at `(currentIndex - payloadTransactions) * 6561` (the transaction's
`currentIndex` equals its position in the sorted bundle), truncated to the
remaining length for the final fragment. -/
def sigLoop (pt : Nat) : List Trytes → Nat → Int → List Int → List Int
  | [], _, _, acc => acc
  | tx :: rest, i, remaining, acc =>
    sigLoop pt rest (i + 1) (remaining - 6561)
      (setSeg acc ((i - pt) * 6561)
        (if (6561 : Int) ≤ remaining then trits tx else jsTake (trits tx) remaining))

/-- The fields extracted from a bundle by `processBundle`. -/
structure ParsedMessage where
  index : Nat
  security : Nat
  height : Nat
  message : Trytes
  verifyingKey : List Int
  authPathHashes : List (List Int)
  nextRoot : List Int
  signature : List Int

/-- `processBundle` (`src/lib/message.js`): decrypt the first transaction,
read the 11-tryte header (index, security/next-root tryte, height, message
length), reassemble and decrypt the payload transactions, and slice out
message, verifying key, auth-path hashes, next root and signature.  The
optional `index`/`height`/`security` arguments reproduce the JavaScript
guards (`height`/`security` are also skipped when 0, which is falsy). -/
def processBundle (K : List Int → Nat → Int) (txs : List Trytes) (key : Trytes)
    (index height security : Option Nat) : Except MsgError ParsedMessage :=
  if txs.length < 2 then .error .shortMessage else
  let firstDecrypted := decrypt K (txs.getD 0 []) key
  let rIndex := trytesToInt (firstDecrypted.take 6)
  if (match index with | some ix => ix != rIndex | none => false : Bool) then .error .wrongIndex else
  let secTryteIndex := alphaIndexOf ((firstDecrypted.drop 6).take 1)
  let rSecurity := secTryteIndex % 4 + 1
  let nextRootLength := secTryteIndex / 4 * 81
  if (match security with | some sc => sc != 0 && sc != rSecurity | none => false : Bool) then
    .error .wrongSecurity else
  let rHeight := trytesToInt ((firstDecrypted.drop 7).take 1)
  if (match height with | some hh => hh != 0 && hh != rHeight | none => false : Bool) then
    .error .wrongHeight else
  let messageLength := trytesToInt ((firstDecrypted.drop 8).take 3)
  let hashLength := rSecurity * 81
  let payloadLength := messageLength + (rHeight + 1) * hashLength + nextRootLength
  let payloadTransactions := (payloadLength + 2186) / 2187
  if (match security with
      | some sc => sc != 0 && decide ((txs.length : Int) - payloadTransactions < sc)
      | none => false : Bool) then .error .shortMessage else
  let cipher := txs.getD 0 [] ++
    cipherExt txs 1 (payloadTransactions - 1) ((payloadLength : Int) - (2187 - 11))
  let decrypted := (decrypt K cipher key).drop 11
  let rMessage := decrypted.take messageLength
  let rVerifyingKey := trits ((decrypted.drop messageLength).take hashLength)
  let hashesStr := (decrypted.drop (messageLength + hashLength)).take (rHeight * hashLength)
  let rAuth := (List.range ((hashesStr.length + hashLength - 1) / hashLength)).map
      (fun i => trits ((hashesStr.drop (i * hashLength)).take hashLength))
  let rNextRoot :=
    trits ((decrypted.drop (messageLength + hashLength + rHeight * hashLength)).take nextRootLength)
  let rSignature := sigLoop payloadTransactions (txs.drop payloadTransactions) payloadTransactions
      ((rSecurity * 6561 : Nat) : Int) (List.replicate (rSecurity * 6561) 0)
  .ok ⟨rIndex, rSecurity, rHeight, rMessage, rVerifyingKey, rAuth, rNextRoot, rSignature⟩


/-! ## C10: accepted heights of the assembly operations -/

set_option maxRecDepth 10000 in
/-- Counterexample for **C10**: the claim says h = 1 is accepted by the
message assembly operations, but the legacy `sendMessage`
(`src/lib/message.js` lines 35-104) raises INVALID_HEIGHT for a single
auth-path hash (its guard is `height < 2 || height > 26`). -/
theorem claim_C10_counterexample :
    legacySendMessage zeroSponge (List.replicate 243 0) [] (List.replicate 6561 0) 0
      (List.replicate 243 0) [List.replicate 243 0] none none none
      = Except.error MsgError.invalidHeight := by
  unfold legacySendMessage
  rw [trytes_length, List.length_replicate,
    if_neg (show ¬ ((243:Nat) / 3 / 81 < 1 ∨ 4 < (243:Nat) / 3 / 81) from by norm_num),
    show List.length [List.replicate 243 (0:Int)] = 1 from rfl,
    if_pos (show (1:Nat) < 2 ∨ 26 < 1 from by norm_num)]

set_option maxRecDepth 10000 in
/-- Amended **C10**: with benign other arguments, `createTransfers` raises
INVALID_HEIGHT exactly for heights outside [1, 26], but the legacy
`sendMessage` in the same file raises it exactly for heights outside
[2, 26]; hence h = 1 is accepted by `createTransfers` and rejected by
`sendMessage`, while h = 26 is accepted by both. -/
theorem claim_C10_amended (h : Nat) :
    (createTransfers zeroSponge (List.replicate 243 0) [] (List.replicate 6561 0) 0
        (List.replicate 243 0) (List.replicate h (List.replicate 243 0)) none none none
      = Except.error MsgError.invalidHeight ↔ (h < 1 ∨ 26 < h))
    ∧ (legacySendMessage zeroSponge (List.replicate 243 0) [] (List.replicate 6561 0) 0
        (List.replicate 243 0) (List.replicate h (List.replicate 243 0)) none none none
      = Except.error MsgError.invalidHeight ↔ (h < 2 ∨ 26 < h)) := by
  constructor
  · unfold createTransfers
    rw [trytes_length, List.length_replicate, List.length_replicate,
      if_neg (show ¬ ((27:Nat) ^ 3 < List.length []) from by simp),
      if_neg (show ¬ ((243:Nat) / 3 / 81 < 1 ∨ 4 < (243:Nat) / 3 / 81) from by norm_num)]
    by_cases hc : h < 1 ∨ 26 < h
    · rw [if_pos hc]
      exact iff_of_true rfl hc
    · rw [if_neg hc, if_neg (show ¬ (2 ^ h ≤ 0) from by have := Nat.two_pow_pos h; omega)]
      exact iff_of_false (fun hx => Except.noConfusion hx) hc
  · unfold legacySendMessage
    rw [trytes_length, List.length_replicate, List.length_replicate,
      if_neg (show ¬ ((243:Nat) / 3 / 81 < 1 ∨ 4 < (243:Nat) / 3 / 81) from by norm_num)]
    by_cases hc : h < 2 ∨ 26 < h
    · rw [if_pos hc]
      exact iff_of_true rfl hc
    · rw [if_neg hc, if_neg (show ¬ (2 ^ h ≤ 0) from by have := Nat.two_pow_pos h; omega)]
      exact iff_of_false (fun hx => Except.noConfusion hx) hc

/-! ## C9: the message-length guard boundary -/

/-- Theorem for **C9** (code bug): the guard of `createTransfers` is
`message.length > 27^3`, so a message of exactly 27^3 = 19683 trytes is NOT
rejected with INVALID_LENGTH (the assembly succeeds), although its length no
longer fits the 3-tryte length field: `intToPaddedTrytes 19683 3` has 4
trytes, which corrupts the fixed 11-tryte header.  Shorter messages are
indeed never rejected for their length. -/
theorem claim_C9 (message : Trytes) (hlen : message.length = 27 ^ 3) :
    (∃ t, createTransfers zeroSponge (List.replicate 243 0) message (List.replicate 6561 0) 0
        (List.replicate 243 0) [List.replicate 243 0] none none none = Except.ok t)
    ∧ (intToPaddedTrytes message.length 3).length = 4 := by
  constructor
  · unfold createTransfers
    rw [hlen, trytes_length, List.length_replicate,
      if_neg (show ¬ ((27:Nat) ^ 3 < 27 ^ 3) from by norm_num),
      if_neg (show ¬ ((243:Nat) / 3 / 81 < 1 ∨ 4 < (243:Nat) / 3 / 81) from by norm_num),
      show List.length [List.replicate 243 (0:Int)] = 1 from rfl,
      if_neg (show ¬ ((1:Nat) < 1 ∨ 26 < 1) from by norm_num),
      if_neg (show ¬ (2 ^ 1 ≤ 0) from by norm_num)]
    exact ⟨_, rfl⟩
  · rw [hlen]
    have h0 : intToTrytesGo 0 = [] := by rw [intToTrytesGo]
    have hgo : ∀ v : Nat, intToTrytesGo (v + 1) = intToTrytesGo ((v + 1) / 27) ++ [(v + 1) % 27] :=
      fun v => by rw [intToTrytesGo]
    have h1 : intToTrytesGo 1 = [1] := by
      have hh := hgo 0
      norm_num at hh
      rw [hh, h0]
      rfl
    have h27 : intToTrytesGo 27 = [1, 0] := by
      have hh := hgo 26
      norm_num at hh
      rw [hh, h1]
      rfl
    have h729 : intToTrytesGo 729 = [1, 0, 0] := by
      have hh := hgo 728
      norm_num at hh
      rw [hh, h27]
      rfl
    have h19683 : intToTrytesGo 19683 = [1, 0, 0, 0] := by
      have hh := hgo 19682
      norm_num at hh
      rw [hh, h729]
      rfl
    have hit : intToTrytes (27 ^ 3) = [1, 0, 0, 0] := by
      rw [intToTrytes, if_neg (show ¬ (27 ^ 3 = 0) from by norm_num)]
      norm_num
      exact h19683
    rw [intToPaddedTrytes, hit]
    rfl

/-- Witness for C9 at the all-9 message of exactly 19683 trytes. -/
theorem claim_C9_witness :
    (List.replicate (27 ^ 3) (0 : Nat)).length = 27 ^ 3 ∧
    ((∃ t, createTransfers zeroSponge (List.replicate 243 0) (List.replicate (27 ^ 3) 0)
        (List.replicate 6561 0) 0
        (List.replicate 243 0) [List.replicate 243 0] none none none = Except.ok t)
    ∧ (intToPaddedTrytes (List.replicate (27 ^ 3) (0 : Nat)).length 3).length = 4) :=
  ⟨by rw [List.length_replicate], claim_C9 (List.replicate (27 ^ 3) 0) (by rw [List.length_replicate])⟩


/-! ## C8: the RAAM publisher (`src/lib/index.js`) -/

/-- A helper for `createTransfers`: when the four guards pass, the assembly
returns ok. -/
theorem createTransfers_ok (K : List Int → Nat → Int) (root : List Int) (message : Trytes)
    (sig : List Int) (index : Nat) (vk : List Int) (auth : List (List Int))
    (cp : Option Trytes) (nr : Option (List Int)) (mp : Option Trytes)
    (hmsg : message.length ≤ 27 ^ 3)
    (hsec1 : 1 ≤ (trytes root).length / 81) (hsec4 : (trytes root).length / 81 ≤ 4)
    (hh1 : 1 ≤ auth.length) (hh26 : auth.length ≤ 26)
    (hidx : index < 2 ^ auth.length) :
    ∃ t, createTransfers K root message sig index vk auth cp nr mp = Except.ok t := by
  unfold createTransfers
  rw [if_neg (Nat.not_lt.mpr hmsg), if_neg (by omega), if_neg (by omega),
    if_neg (Nat.not_le.mpr hidx)]
  exact ⟨_, rfl⟩

/-- `helpers.digest`: the tryte digest signed by a published message —
message trits, index trits, verifying key, optional next root and the
auth-path hashes, concatenated and rendered as trytes. -/
def digest (message : Trytes) (index : Nat) (authPathHashes : List (List Int))
    (verifyingKey : List Int) (nextRoot : Option (List Int)) : Trytes :=
  trytes (trits message ++ trits (intToTrytes index) ++ verifyingKey ++
    (match nextRoot with | some nr => nr | none => []) ++ authPathHashes.flatten)

/-- JavaScript sparse-array assignment `a[i] = x`: in-range entries are
replaced, out-of-range assignment extends the array with holes. -/
def setAt {α : Type} (l : List (Option α)) (i : Nat) (x : α) : List (Option α) :=
  if i < l.length then l.set i (some x)
  else l ++ List.replicate (i - l.length) none ++ [some x]

/-- The local state of a `RAAM` publisher (the fields of the class read and
written by `createMessageTransfers` and `publishMessageTransfers`). -/
structure PubState where
  channelRoot : List Int
  channelPassword : Option Trytes
  height : Nat
  leafs : List TLeaf
  hashes : List (List TNode)
  messages : List (Option Trytes)
  branches : List (Option (List Int))
  cursor : Nat

/-- `RAAM.createMessageTransfers` (`src/lib/index.js`): after the trytes,
index-range and INDEX_USED guards (the store check `this.messages[index]` is
a truthiness test, so a stored empty message does not trigger it), look up
the auth path, sign the digest with the leaf's key and assemble the
transfers. -/
def createMessageTransfers (K : List Int → Nat → Int) (st : PubState) (message : Trytes)
    (index : Nat) (messagePassword : Option Trytes) (nextRoot : Option (List Int)) :
    Except MsgError (List Trytes) :=
  if ¬ (∀ c ∈ message, c < 27) then .error .invalidMessage else
  if 2 ^ st.height ≤ index then .error .invalidIndex else
  if (match st.messages.getD index none with
      | some m => m != ([] : Trytes)
      | none => false : Bool) then .error .indexUsed else
  let authPath := getAuthPath index st.height
  let authPathHashes := selectAuthPath st.hashes 0 authPath
  let lf := st.leafs.getD index ⟨[], [], 0, 0⟩
  let sigDigest := digest message index authPathHashes lf.publicKey nextRoot
  let signature := createSignature K lf.privateKey sigDigest
  createTransfers K st.channelRoot message signature index lf.publicKey authPathHashes
    st.channelPassword nextRoot messagePassword

/-- `RAAM.publishMessageTransfers` (`src/lib/index.js`), state part of the
successful path with a message record: store the message (and the branch,
when a next root is present) and set the cursor to the store's length. -/
def publishMessageTransfers (st : PubState) (index : Nat) (message : Trytes)
    (nextRoot : Option (List Int)) : PubState :=
  let msgs := setAt st.messages index message
  { st with
    messages := msgs
    branches := match nextRoot with | some nr => setAt st.branches index nr | none => st.branches
    cursor := msgs.length }

/-- `RAAM.publish`: assemble the transfers and, if that succeeded, attach
and record the message; a thrown error propagates with the state untouched. -/
def publish (K : List Int → Nat → Int) (st : PubState) (message : Trytes) (index : Nat)
    (messagePassword : Option Trytes) (nextRoot : Option (List Int)) :
    Except MsgError (PubState × List Trytes) :=
  match createMessageTransfers K st message index messagePassword nextRoot with
  | .error e => .error e
  | .ok transfers => .ok (publishMessageTransfers st index message nextRoot, transfers)

/-- Amended **C8**: when the local store holds a NONEMPTY message at index
`i`, assembling or publishing again at `i` throws INDEX_USED, and the failed
call produces no new state (messages, branches and cursor are unchanged). -/
theorem claim_C8_amended (K : List Int → Nat → Int) (st : PubState) (message : Trytes)
    (i : Nat) (mp : Option Trytes) (nr : Option (List Int))
    (hmsg : ∀ c ∈ message, c < 27) (hidx : i < 2 ^ st.height)
    (m : Trytes) (hstored : st.messages.getD i none = some m) (hm : m ≠ []) :
    createMessageTransfers K st message i mp nr = Except.error MsgError.indexUsed ∧
    publish K st message i mp nr = Except.error MsgError.indexUsed := by
  have hc : createMessageTransfers K st message i mp nr = Except.error MsgError.indexUsed := by
    unfold createMessageTransfers
    rw [if_neg (fun hn => hn hmsg), if_neg (Nat.not_le.mpr hidx), hstored,
      if_pos (by simpa using hm)]
  refine ⟨hc, ?_⟩
  unfold publish
  rw [hc]

/-- Witness for the amended C8 at a one-slot store holding the message `A`. -/
theorem claim_C8_amended_witness :
    (∀ c ∈ ([] : Trytes), c < 27) ∧ 0 < 2 ^ 1 ∧
    (⟨List.replicate 243 0, none, 1, [], [], [some [1]], [], 1⟩ : PubState).messages.getD 0 none
      = some [1] ∧ ([1] : Trytes) ≠ [] ∧
    (createMessageTransfers zeroSponge ⟨List.replicate 243 0, none, 1, [], [], [some [1]], [], 1⟩
        [] 0 none none = Except.error MsgError.indexUsed ∧
      publish zeroSponge ⟨List.replicate 243 0, none, 1, [], [], [some [1]], [], 1⟩
        [] 0 none none = Except.error MsgError.indexUsed) :=
  ⟨by simp, by norm_num, rfl, by simp,
    claim_C8_amended zeroSponge ⟨List.replicate 243 0, none, 1, [], [], [some [1]], [], 1⟩
      [] 0 none none (by simp) (by norm_num) [1] rfl (by simp)⟩

/-- Counterexample for **C8**: publishing the EMPTY message at index 0 and
then assembling again at index 0 does NOT throw INDEX_USED — the store
check `this.messages[index]` is a truthiness test and the stored empty
string is falsy, so the second assembly succeeds. -/
theorem claim_C8_counterexample :
    ((publishMessageTransfers ⟨List.replicate 243 0, none, 1, [], [], [], [], 0⟩ 0 [] none
        : PubState).messages.getD 0 none = some []) ∧
    ∃ t, createMessageTransfers zeroSponge
        (publishMessageTransfers ⟨List.replicate 243 0, none, 1, [], [], [], [], 0⟩ 0 [] none)
        [] 0 none none = Except.ok t := by
  constructor
  · rfl
  · unfold createMessageTransfers
    rw [if_neg (fun hn => hn (by simp)),
      if_neg (show ¬ ((2:Nat) ^ (publishMessageTransfers
        ⟨List.replicate 243 0, none, 1, [], [], [], [], 0⟩ 0 [] none : PubState).height ≤ 0)
        from by norm_num [publishMessageTransfers]),
      show (publishMessageTransfers ⟨List.replicate 243 0, none, 1, [], [], [], [], 0⟩ 0 [] none
        : PubState).messages.getD 0 none = some [] from rfl,
      if_neg (by simp)]
    exact createTransfers_ok zeroSponge _ _ _ _ _ _ _ _ _
      (by simp)
      (by rw [show (publishMessageTransfers ⟨List.replicate 243 0, none, 1, [], [], [], [], 0⟩
          0 [] none : PubState).channelRoot = List.replicate 243 0 from rfl,
        trytes_length, List.length_replicate])
      (by rw [show (publishMessageTransfers ⟨List.replicate 243 0, none, 1, [], [], [], [], 0⟩
          0 [] none : PubState).channelRoot = List.replicate 243 0 from rfl,
        trytes_length, List.length_replicate]; norm_num)
      (by decide)
      (by decide)
      (by decide)


/-! ## C6/C7: the reader cache (`src/lib/raamReader.js`) -/

/-- JavaScript truthiness of an optional number (`undefined` and 0 are
falsy). -/
def truthy (o : Option Nat) : Bool :=
  match o with
  | some v => v != 0
  | none => false

/-- `getRange` (`src/lib/raamReader.js`): resolve the `index`/`start`/`end`
options into the start/end of the range to fetch, with the JavaScript
truthiness tests (`if (end)`, `start || index`) reproduced. -/
def getRange (index start end_ : Option Nat) : Option Nat × Option Nat :=
  match index with
  | some ix =>
    if truthy end_ then ((if truthy start then start else some ix), end_)
    else match start with
      | none => (some ix, some ix)
      | some s => (some s, end_)
  | none =>
    match start with
    | none => (some 0, end_)
    | some s => (some s, end_)

/-- The inner skip loop of `getIntervals`: advance `i` over locally stored
entries; `some i` is the first unset index, `none` means the scan hit `stop`
while entries were still stored (the labelled `break outer`). -/
def skipDefined (messages : List (Option Trytes)) (stop : Nat) (i : Nat) : Option Nat :=
  if messages.getD i none = none then some i
  else if h : i < stop then skipDefined messages stop (i + 1)
  else none
termination_by stop - i

/-- The run loop of `getIntervals`: advance `i` over unset entries while
`i <= stop`, returning the exit index. -/
def takeUndef (messages : List (Option Trytes)) (stop : Nat) (i : Nat) : Nat :=
  if h : i ≤ stop ∧ messages.getD i none = none then takeUndef messages stop (i + 1) else i
termination_by stop + 1 - i
decreasing_by omega

theorem skipDefined_spec (messages : List (Option Trytes)) (stop : Nat) :
    ∀ i s, i ≤ stop → skipDefined messages stop i = some s →
      i ≤ s ∧ s ≤ stop ∧ messages.getD s none = none
  | i, s, hi, heq => by
    rw [skipDefined] at heq
    by_cases h0 : messages.getD i none = none
    · rw [if_pos h0] at heq
      obtain rfl : i = s := Option.some.inj heq
      exact ⟨le_refl i, hi, h0⟩
    · rw [if_neg h0] at heq
      by_cases h2 : i < stop
      · rw [dif_pos h2] at heq
        obtain ⟨ha, hb, hc⟩ := skipDefined_spec messages stop (i + 1) s h2 heq
        exact ⟨by omega, hb, hc⟩
      · rw [dif_neg h2] at heq
        exact absurd heq (by simp)
termination_by i => stop - i

theorem takeUndef_ge (messages : List (Option Trytes)) (stop : Nat) (i : Nat) :
    i ≤ takeUndef messages stop i := by
  have H : ∀ n j, stop + 1 - j ≤ n → j ≤ takeUndef messages stop j := by
    intro n
    induction n with
    | zero =>
      intro j hj
      rw [takeUndef]
      by_cases h : j ≤ stop ∧ messages.getD j none = none
      · exact absurd h.1 (by omega)
      · rw [dif_neg h]
    | succ n ih =>
      intro j hj
      rw [takeUndef]
      by_cases h : j ≤ stop ∧ messages.getD j none = none
      · rw [dif_pos h]
        have := ih (j + 1) (by omega)
        omega
      · rw [dif_neg h]
  exact H (stop + 1) i (by omega)

theorem takeUndef_gt (messages : List (Option Trytes)) (stop i : Nat) (h1 : i ≤ stop)
    (h0 : messages.getD i none = none) : i < takeUndef messages stop i := by
  rw [takeUndef, dif_pos ⟨h1, h0⟩]
  have := takeUndef_ge messages stop (i + 1)
  omega

theorem takeUndef_le (messages : List (Option Trytes)) (stop : Nat) (i : Nat)
    (hi : i ≤ stop + 1) : takeUndef messages stop i ≤ stop + 1 := by
  have H : ∀ n j, stop + 1 - j ≤ n → j ≤ stop + 1 → takeUndef messages stop j ≤ stop + 1 := by
    intro n
    induction n with
    | zero =>
      intro j hj hj2
      rw [takeUndef]
      by_cases h : j ≤ stop ∧ messages.getD j none = none
      · exact absurd h.1 (by omega)
      · rw [dif_neg h]
        exact hj2
    | succ n ih =>
      intro j hj hj2
      rw [takeUndef]
      by_cases h : j ≤ stop ∧ messages.getD j none = none
      · rw [dif_pos h]
        exact ih (j + 1) (by omega) (by omega)
      · rw [dif_neg h]
        exact hj2
  exact H (stop + 1) i (by omega) hi

theorem takeUndef_none (messages : List (Option Trytes)) (stop : Nat) (i k : Nat)
    (hik : i ≤ k) (hk : k < takeUndef messages stop i) : messages.getD k none = none := by
  have H : ∀ n j, stop + 1 - j ≤ n → j ≤ k → k < takeUndef messages stop j →
      messages.getD k none = none := by
    intro n
    induction n with
    | zero =>
      intro j hj hjk hk2
      rw [takeUndef] at hk2
      by_cases h : j ≤ stop ∧ messages.getD j none = none
      · exact absurd h.1 (by omega)
      · rw [dif_neg h] at hk2
        omega
    | succ n ih =>
      intro j hj hjk hk2
      rw [takeUndef] at hk2
      by_cases h : j ≤ stop ∧ messages.getD j none = none
      · rw [dif_pos h] at hk2
        by_cases hjk2 : j = k
        · subst hjk2
          exact h.2
        · have hlt : j + 1 ≤ k := by omega
          by_cases hend : k < takeUndef messages stop (j + 1)
          · exact ih (j + 1) (by omega) hlt hend
          · have := takeUndef_ge messages stop (j + 1)
            omega
      · rw [dif_neg h] at hk2
        omega
  exact H (stop + 1) i (by omega) hik hk

/-- The outer loop of `getIntervals`: collect the maximal runs of unset
entries in `[i, stop]` as (start, end) pairs. -/
def scanIntervals (messages : List (Option Trytes)) (stop : Nat) (i : Nat) : List (Nat × Nat) :=
  if hi : i ≤ stop then
    match hs : skipDefined messages stop i with
    | none => []
    | some s =>
      (s, takeUndef messages stop s - 1) :: scanIntervals messages stop (takeUndef messages stop s)
  else []
termination_by stop + 1 - i
decreasing_by
  obtain ⟨h1, h2, h3⟩ := skipDefined_spec messages stop i s hi hs
  have := takeUndef_gt messages stop s h2 h3
  omega

/-- `getIntervals` (`src/lib/raamReader.js`): the runs of locally unset
indices in the requested range; with no `end` the last interval is
open-ended, and when there is none at all a single open interval starting
after the final loop position is pushed. -/
def getIntervals (messages : List (Option Trytes)) (start : Nat) (end_ : Option Nat) :
    List (Nat × Option Nat) :=
  let stop := match end_ with | some e => e | none => max 0 (messages.length - 1)
  let ivs := scanIntervals messages stop start
  match end_ with
  | some _ => ivs.map (fun p => (p.1, some p.2))
  | none =>
    match ivs with
    | [] => [((if start ≤ stop then stop else start) + 1, none)]
    | _ :: _ => (ivs.dropLast.map (fun p => (p.1, some p.2))) ++ [((ivs.getLastD (0, 0)).1, none)]

/-- The full node as seen by a reader: `resp i` is the verified message at
channel index `i` (`none` when the node finds no message there).  A node
answers only finitely many indices, which is what terminates the open-ended
fetch loop. -/
structure Oracle where
  resp : Nat → Option Trytes
  bound : Nat
  resp_bound : ∀ i, bound ≤ i → resp i = none

/-- The open-ended loop of `RAAMReader.fetchMessages` (`end` undefined):
collect messages from `i` on, stopping at the first index the node has no
message for. -/
def collectOpen (O : Oracle) (i : Nat) : List Trytes :=
  match h : O.resp i with
  | none => []
  | some m => m :: collectOpen O (i + 1)
termination_by O.bound - i
decreasing_by
  rcases Nat.lt_or_ge i O.bound with hlt | hge
  · omega
  · rw [O.resp_bound i hge] at h
    exact Option.noConfusion h

/-- `RAAMReader.fetchMessages` restricted to its message output: with a
definite `end` the whole closed range is queried (unset results leave
holes); without one the loop stops at the first miss. -/
def fetchMessages (O : Oracle) (start : Nat) (end_ : Option Nat) : List (Option Trytes) :=
  match end_ with
  | some e => (List.range (e + 1 - start)).map (fun k => O.resp (start + k))
  | none => (collectOpen O start).map some

/-- The store step of `RAAMReader.fetch`: every defined entry of a batch is
written into the cache at its absolute index (`this.messages[index] =
message`, with JavaScript array extension). -/
def storeAll : List (Option Trytes) → Nat → List (Option Trytes) → List (Option Trytes)
  | cache, _, [] => cache
  | cache, i, none :: rest => storeAll cache (i + 1) rest
  | cache, i, some m :: rest => storeAll (setAt cache i m) (i + 1) rest

/-- The local state of a `RAAMReader` (the fields read and written by
`fetch` and `syncChannel`). -/
structure ReaderState where
  channelRoot : List Int
  channelPassword : Option Trytes
  height : Nat
  security : Nat
  messages : List (Option Trytes)
  branches : List (Option (List Int))
  cursor : Nat

/-- `RAAMReader.fetch` restricted to the message cache: resolve the range,
compute the unset intervals, query each interval and store every found
message; the returned `FetchResult.messages` is the requested slice of the
updated cache.  (Error, skipped-bundle and branch bookkeeping does not touch
`messages` or `cursor` and is not modelled.) -/
def fetch (O : Oracle) (st : ReaderState) (index start end_ : Option Nat) :
    ReaderState × List (Option Trytes) :=
  let r := getRange index start end_
  let s := r.1.getD 0
  let e := r.2
  if truthy e ∧ e.getD 0 < s then (st, [])
  else
    let ivs := getIntervals st.messages s e
    let msgs2 := ivs.foldl (fun acc iv => storeAll acc iv.1 (fetchMessages O iv.1 iv.2)) st.messages
    ({ st with messages := msgs2 },
     match e with
     | some ee => (msgs2.drop s).take (ee + 1 - s)
     | none => msgs2.drop s)

/-- `RAAMReader.syncChannel`: an open-ended fetch, after which the cursor is
set to the length of the returned message array. -/
def syncChannel (O : Oracle) (st : ReaderState) : ReaderState :=
  let p := fetch O st none none none
  { p.1 with cursor := p.2.length }

/-- The first index at which no message is stored locally. -/
def firstHole (l : List (Option Trytes)) : Nat := l.findIdx (fun o => o.isNone)

/-- A node with no messages at all. -/
def emptyOracle : Oracle := ⟨fun _ => none, 0, fun _ _ => rfl⟩

/-- A node holding messages `9` and `A` at indices 0 and 1. -/
def pairOracle : Oracle :=
  ⟨fun i => if i = 0 then some [0] else if i = 1 then some [1] else none, 2,
   fun i hi => by simp [show i ≠ 0 from by omega, show i ≠ 1 from by omega]⟩


theorem getD_append_ge {α : Type} (a b : List α) (i : Nat) (d : α) (h : a.length ≤ i) :
    (a ++ b).getD i d = b.getD (i - a.length) d := by
  unfold List.getD
  rw [List.get?_eq_getElem?, List.get?_eq_getElem?, List.getElem?_append_right h]

theorem getD_replicate_self {α : Type} (n k : Nat) (x : α) :
    (List.replicate n x).getD k x = x := by
  unfold List.getD
  rw [List.get?_eq_getElem?, List.getElem?_replicate]
  split <;> rfl

theorem getD_eq_default_of_le {α : Type} (l : List α) (i : Nat) (d : α) (h : l.length ≤ i) :
    l.getD i d = d := by
  unfold List.getD
  rw [List.get?_eq_getElem?, List.getElem?_eq_none h]
  rfl

theorem setAt_getD {α : Type} (l : List (Option α)) (j : Nat) (x : α) (i : Nat) :
    (setAt l j x).getD i none = if i = j then some x else l.getD i none := by
  unfold setAt
  by_cases hj : j < l.length
  · rw [if_pos hj]
    by_cases hij : i = j
    · subst hij
      rw [if_pos rfl]
      exact getD_set_eq_of_lt l i (some x) none hj
    · rw [if_neg hij]
      exact getD_set_ne l j i (some x) none (fun he => hij he.symm)
  · rw [if_neg hj]
    by_cases hij : i = j
    · subst hij
      rw [if_pos rfl]
      have h1 : (l ++ List.replicate (i - l.length) none).length = i := by
        simp only [List.length_append, List.length_replicate]
        omega
      have h2 := getD_append_len (l ++ List.replicate (i - l.length) none) (some x) none
      rw [h1] at h2
      exact h2
    · rw [if_neg hij]
      by_cases hi : i < l.length
      · rw [getD_append_lt _ _ _ _
            (by simp only [List.length_append, List.length_replicate]; omega),
          getD_append_lt _ _ _ _ hi]
      · rw [getD_eq_default_of_le l i none (by omega)]
        by_cases hij2 : i < j
        · rw [getD_append_lt _ _ _ _
              (by simp only [List.length_append, List.length_replicate]; omega),
            getD_append_ge l _ i none (by omega)]
          exact getD_replicate_self _ _ _
        · rw [getD_eq_default_of_le _ i none
            (by simp only [List.length_append, List.length_replicate, List.length_cons,
              List.length_nil]; omega)]

theorem storeAll_getD_outside :
    ∀ (fetched : List (Option Trytes)) (cache : List (Option Trytes)) (j i : Nat),
      i < j ∨ j + fetched.length ≤ i →
      (storeAll cache j fetched).getD i none = cache.getD i none
  | [], _, _, _, _ => rfl
  | none :: rest, cache, j, i, h => by
    have h2 : i < j + 1 ∨ (j + 1) + rest.length ≤ i := by
      rw [List.length_cons] at h
      omega
    exact storeAll_getD_outside rest cache (j + 1) i h2
  | some m :: rest, cache, j, i, h => by
    have h2 : i < j + 1 ∨ (j + 1) + rest.length ≤ i := by
      rw [List.length_cons] at h
      omega
    have hrec := storeAll_getD_outside rest (setAt cache j m) (j + 1) i h2
    rw [show storeAll cache j (some m :: rest) = storeAll (setAt cache j m) (j + 1) rest from rfl,
      hrec, setAt_getD, if_neg (by rw [List.length_cons] at h; omega)]

theorem scanIntervals_sound (messages : List (Option Trytes)) (stop : Nat) :
    ∀ i, ∀ p ∈ scanIntervals messages stop i,
      p.1 ≤ p.2 ∧ p.2 ≤ stop ∧ ∀ k, p.1 ≤ k → k ≤ p.2 → messages.getD k none = none := by
  have H : ∀ (n i : Nat), stop + 1 - i ≤ n →
      ∀ p ∈ scanIntervals messages stop i,
        p.1 ≤ p.2 ∧ p.2 ≤ stop ∧ ∀ k, p.1 ≤ k → k ≤ p.2 → messages.getD k none = none := by
    intro n
    induction n with
    | zero =>
      intro i hi p hp
      rw [scanIntervals, dif_neg (by omega)] at hp
      simp at hp
    | succ n ih =>
      intro i hi p hp
      rw [scanIntervals] at hp
      by_cases hile : i ≤ stop
      · rw [dif_pos hile] at hp
        split at hp
        · simp at hp
        · rename_i s heq
          obtain ⟨h1, h2, h3⟩ := skipDefined_spec messages stop i s hile heq
          have he1 := takeUndef_gt messages stop s h2 h3
          have he2 := takeUndef_le messages stop s (by omega)
          rcases List.mem_cons.mp hp with rfl | hmem
          · refine ⟨by omega, by omega, fun k hk1 hk2 => ?_⟩
            exact takeUndef_none messages stop s k hk1 (by omega)
          · exact ih (takeUndef messages stop s) (by omega) p hmem
      · rw [dif_neg hile] at hp
        simp at hp
  exact fun i p hp => H (stop + 1) i (by omega) p hp

theorem getRange_closed (ix s0 : Option Nat) (e : Nat) :
    ∃ e2, (getRange ix s0 (some e)).2 = some e2 := by
  unfold getRange
  rcases ix with _ | ixv
  · rcases s0 with _ | sv
    · exact ⟨e, rfl⟩
    · exact ⟨e, rfl⟩
  · dsimp only
    by_cases ht : truthy (some e) = true
    · rw [if_pos ht]
      exact ⟨e, rfl⟩
    · rw [if_neg ht]
      rcases s0 with _ | sv
      · exact ⟨ixv, rfl⟩
      · exact ⟨e, rfl⟩

theorem foldStore_preserves (O : Oracle) :
    ∀ (ps : List (Nat × Nat)) (cache : List (Option Trytes)) (i : Nat) (m : Trytes),
      (∀ p ∈ ps, i < p.1 ∨ p.2 < i) →
      cache.getD i none = some m →
      ((ps.map (fun p => (p.1, some p.2))).foldl
          (fun acc iv => storeAll acc iv.1 (fetchMessages O iv.1 iv.2)) cache).getD i none = some m
  | [], _, _, _, _, hm => hm
  | p :: rest, cache, i, m, hdisj, hm => by
    rw [List.map_cons, List.foldl_cons]
    refine foldStore_preserves O rest _ i m (fun q hq => hdisj q (by simp [hq])) ?_
    have hlen : (fetchMessages O p.1 (some p.2)).length = p.2 + 1 - p.1 := by
      simp [fetchMessages]
    have hd := hdisj p (by simp)
    rw [storeAll_getD_outside _ _ _ _ (by rw [hlen]; omega)]
    exact hm

/-- Amended **C6**: every fetch with a definite `end` bound (which includes
single-index fetches, where `getRange` closes the range at the index) only
writes indices that were locally unset, so a cache entry once set is never
changed by it.  The open-ended fetch of `syncChannel`, by contrast, can
overwrite set entries past the first hole (see the counterexample). -/
theorem claim_C6_amended (O : Oracle) (st : ReaderState) (ix s0 : Option Nat) (e : Nat)
    (i : Nat) (m : Trytes) (hm : st.messages.getD i none = some m) :
    (fetch O st ix s0 (some e)).1.messages.getD i none = some m := by
  obtain ⟨e2, he2⟩ := getRange_closed ix s0 e
  unfold fetch
  dsimp only
  rw [he2]
  split
  · exact hm
  · dsimp only
    rw [show getIntervals st.messages ((getRange ix s0 (some e)).1.getD 0) (some e2)
        = (scanIntervals st.messages e2 ((getRange ix s0 (some e)).1.getD 0)).map
            (fun p => (p.1, some p.2)) from by unfold getIntervals; rfl]
    refine foldStore_preserves O _ _ i m ?_ hm
    intro p hp
    obtain ⟨h1, h2, h3⟩ := scanIntervals_sound st.messages e2 _ p hp
    by_contra hcon
    push_neg at hcon
    rw [h3 i (by omega) (by omega)] at hm
    exact Option.noConfusion hm

/-- Witness for the amended C6: a one-entry cache and a closed fetch of
index 0. -/
theorem claim_C6_amended_witness :
    (⟨[], none, 1, 1, [some [2]], [], 0⟩ : ReaderState).messages.getD 0 none = some [2] ∧
    (fetch emptyOracle (⟨[], none, 1, 1, [some [2]], [], 0⟩ : ReaderState)
        none none (some 0)).1.messages.getD 0 none = some [2] :=
  ⟨rfl, claim_C6_amended emptyOracle ⟨[], none, 1, 1, [some [2]], [], 0⟩ none none 0 0 [2] rfl⟩


theorem skipDefined_all (messages : List (Option Trytes)) (stop : Nat) (i : Nat)
    (hi : i ≤ stop) (hdef : ∀ k, i ≤ k → k ≤ stop → messages.getD k none ≠ none) :
    skipDefined messages stop i = none := by
  have H : ∀ n j, stop + 1 - j ≤ n → j ≤ stop →
      (∀ k, j ≤ k → k ≤ stop → messages.getD k none ≠ none) →
      skipDefined messages stop j = none := by
    intro n
    induction n with
    | zero =>
      intro j hj hj2 _
      omega
    | succ n ih =>
      intro j hj hj2 hd
      rw [skipDefined, if_neg (hd j (le_refl j) hj2)]
      by_cases h2 : j < stop
      · rw [dif_pos h2]
        exact ih (j + 1) (by omega) (by omega) (fun k hk1 hk2 => hd k (by omega) hk2)
      · rw [dif_neg h2]
  exact H (stop + 1) i (by omega) hi hdef

theorem getIntervals_full (messages : List (Option Trytes))
    (hfull : ∀ o ∈ messages, o ≠ none) :
    getIntervals messages 0 none = [(messages.length, none)] := by
  rcases messages with _ | ⟨m0, rest⟩
  · have hsd : skipDefined ([] : List (Option Trytes)) 0 0 = some 0 := by
      rw [skipDefined, if_pos (by rfl)]
    have ht1 : takeUndef ([] : List (Option Trytes)) 0 1 = 1 := by
      rw [takeUndef, dif_neg (by rintro ⟨h1, -⟩; omega)]
    have ht0 : takeUndef ([] : List (Option Trytes)) 0 0 = 1 := by
      rw [takeUndef, dif_pos ⟨le_refl 0, rfl⟩]
      exact ht1
    have hscan1 : scanIntervals ([] : List (Option Trytes)) 0 1 = [] := by
      rw [scanIntervals, dif_neg (by omega)]
    have hscan0 : scanIntervals ([] : List (Option Trytes)) 0 0 = [(0, 0)] := by
      rw [scanIntervals, dif_pos (le_refl 0)]
      split
      · rename_i heq
        rw [hsd] at heq
        exact absurd heq (by simp)
      · rename_i s heq
        rw [hsd] at heq
        obtain rfl : (0 : Nat) = s := Option.some.inj heq
        rw [ht0, hscan1]
    unfold getIntervals
    simp [hscan0]
  · have hd : ∀ k, 0 ≤ k → k ≤ rest.length → (m0 :: rest).getD k none ≠ none := by
      intro k _ hk
      have hklen : k < (m0 :: rest).length := by
        rw [List.length_cons]
        omega
      rw [List.getD_eq_getElem _ _ hklen]
      exact hfull _ (List.getElem_mem hklen)
    have hsd := skipDefined_all (m0 :: rest) rest.length 0 (by omega) hd
    have hscan : scanIntervals (m0 :: rest) rest.length 0 = [] := by
      rw [scanIntervals, dif_pos (by omega)]
      split
      · rfl
      · rename_i s heq
        rw [hsd] at heq
        exact absurd heq (by simp)
    unfold getIntervals
    simp [hscan]

theorem storeAll_extend :
    ∀ (found : List Trytes) (cache : List (Option Trytes)),
      storeAll cache cache.length (found.map some) = cache ++ found.map some
  | [], cache => by simp [storeAll]
  | f :: rest, cache => by
    rw [List.map_cons]
    show storeAll (setAt cache cache.length f) (cache.length + 1) (rest.map some) = _
    have hset : setAt cache cache.length f = cache ++ [some f] := by
      unfold setAt
      rw [if_neg (by omega)]
      simp
    rw [hset]
    have hrec := storeAll_extend rest (cache ++ [some f])
    rw [show (cache ++ [some f]).length = cache.length + 1 from by simp] at hrec
    rw [hrec, List.append_assoc]
    rfl

theorem firstHole_all :
    ∀ (l : List (Option Trytes)), (∀ o ∈ l, o ≠ none) → firstHole l = l.length
  | [], _ => rfl
  | o :: rest, h => by
    unfold firstHole
    rw [List.findIdx_cons]
    have ho : o.isNone = false := by
      rcases o with _ | v
      · exact absurd rfl (h none (by simp))
      · rfl
    rw [ho]
    have hrec := firstHole_all rest (fun o ho => h o (by simp [ho]))
    unfold firstHole at hrec
    simp [hrec]

/-- Amended **C7**: when the local cache has no holes (every stored entry up
to its length is set), `syncChannel` fetches onwards from the first hole
(the cache length) and sets the cursor to the length of the extended cache,
which is again its first hole.  For caches with interior holes the cursor is
the sparse-array length instead of the first hole (see the counterexample). -/
theorem claim_C7_amended (O : Oracle) (st : ReaderState)
    (hfull : ∀ o ∈ st.messages, o ≠ none) :
    (syncChannel O st).cursor = firstHole (syncChannel O st).messages := by
  have hfetch : fetch O st none none none =
      ({ st with messages := st.messages ++ (collectOpen O st.messages.length).map some },
       st.messages ++ (collectOpen O st.messages.length).map some) := by
    unfold fetch
    dsimp only
    rw [show getRange none none none = (some 0, none) from rfl]
    dsimp only
    simp only [Option.getD_some]
    rw [if_neg (by simp [truthy])]
    rw [getIntervals_full st.messages hfull]
    simp only [List.foldl_cons, List.foldl_nil]
    rw [show fetchMessages O st.messages.length none
        = (collectOpen O st.messages.length).map some from rfl,
      storeAll_extend (collectOpen O st.messages.length) st.messages]
    rw [List.drop_zero]
  unfold syncChannel
  rw [hfetch]
  dsimp only
  rw [firstHole_all _ ?_]
  intro o ho
  rcases List.mem_append.mp ho with h | h
  · exact hfull o h
  · obtain ⟨x, -, rfl⟩ := List.mem_map.mp h
    simp

/-- Witness for the amended C7: an empty cache synced against an empty
node. -/
theorem claim_C7_amended_witness :
    (∀ o ∈ (⟨[], none, 1, 1, [], [], 0⟩ : ReaderState).messages, o ≠ none) ∧
    (syncChannel emptyOracle ⟨[], none, 1, 1, [], [], 0⟩).cursor
      = firstHole (syncChannel emptyOracle ⟨[], none, 1, 1, [], [], 0⟩).messages :=
  ⟨by simp, claim_C7_amended emptyOracle ⟨[], none, 1, 1, [], [], 0⟩ (by simp)⟩

theorem collectOpen_empty (i : Nat) : collectOpen emptyOracle i = [] := by
  rw [collectOpen]
  rfl

/-- Counterexample for **C7**: with the cache `[hole, hole, hole, message]`
and a node returning nothing, `syncChannel` leaves the cache unchanged and
sets the cursor to 4 (the sparse-array length), while the first locally
unset index is 0. -/
theorem claim_C7_counterexample :
    (syncChannel emptyOracle
        ⟨[], none, 1, 1, [none, none, none, some [0]], [], 0⟩).cursor = 4 ∧
    firstHole (syncChannel emptyOracle
        ⟨[], none, 1, 1, [none, none, none, some [0]], [], 0⟩).messages = 0 := by
  have hsd0 : skipDefined [none, none, none, some [0]] 3 0 = some 0 := by
    rw [skipDefined, if_pos (by rfl)]
  have t3 : takeUndef [none, none, none, some [0]] 3 3 = 3 := by
    rw [takeUndef, dif_neg (by rintro ⟨-, hx⟩; exact absurd hx (by simp))]
  have t2 : takeUndef [none, none, none, some [0]] 3 2 = 3 := by
    rw [takeUndef, dif_pos ⟨by omega, rfl⟩]
    exact t3
  have t1 : takeUndef [none, none, none, some [0]] 3 1 = 3 := by
    rw [takeUndef, dif_pos ⟨by omega, rfl⟩]
    exact t2
  have t0 : takeUndef [none, none, none, some [0]] 3 0 = 3 := by
    rw [takeUndef, dif_pos ⟨by omega, rfl⟩]
    exact t1
  have hsd3 : skipDefined [none, none, none, some [0]] 3 3 = none := by
    rw [skipDefined, if_neg (by simp), dif_neg (by omega)]
  have hscan3 : scanIntervals [none, none, none, some [0]] 3 3 = [] := by
    rw [scanIntervals, dif_pos (by omega)]
    split
    · rfl
    · rename_i s heq
      rw [hsd3] at heq
      exact absurd heq (by simp)
  have hscan0 : scanIntervals [none, none, none, some [0]] 3 0 = [(0, 2)] := by
    rw [scanIntervals, dif_pos (by omega)]
    split
    · rename_i heq
      rw [hsd0] at heq
      exact absurd heq (by simp)
    · rename_i s heq
      rw [hsd0] at heq
      obtain rfl : (0 : Nat) = s := Option.some.inj heq
      rw [t0, hscan3]
  have hiv4 : getIntervals [none, none, none, some [0]] 0 none = [(0, none)] := by
    unfold getIntervals
    simp [hscan0]
  have hfetch4 : fetch emptyOracle ⟨[], none, 1, 1, [none, none, none, some [0]], [], 0⟩
      none none none
      = (⟨[], none, 1, 1, [none, none, none, some [0]], [], 0⟩,
         [none, none, none, some [0]]) := by
    unfold fetch
    dsimp only
    rw [show getRange none none none = (some 0, none) from rfl]
    dsimp only
    simp only [Option.getD_some]
    rw [if_neg (by simp [truthy])]
    rw [hiv4]
    simp only [List.foldl_cons, List.foldl_nil]
    rw [show fetchMessages emptyOracle 0 none = [] from by
      unfold fetchMessages
      rw [collectOpen_empty]
      rfl]
    rfl
  constructor
  · unfold syncChannel
    rw [hfetch4]
    rfl
  · unfold syncChannel
    rw [hfetch4]
    rfl

/-- Counterexample for **C6**: the cache holds a message at index 1; an
open-ended fetch (as run by `syncChannel`) starts at the hole at index 0 and
keeps storing as long as the node answers, overwriting the already-set entry
1 with the node's (different) message. -/
theorem claim_C6_counterexample :
    (([none, some [0]] : List (Option Trytes)).getD 1 none = some [0]) ∧
    (fetch pairOracle ⟨[], none, 1, 1, [none, some [0]], [], 0⟩
        none none none).1.messages.getD 1 none = some [1] := by
  have hsd0 : skipDefined [none, some [0]] 1 0 = some 0 := by
    rw [skipDefined, if_pos (by rfl)]
  have t1 : takeUndef [none, some [0]] 1 1 = 1 := by
    rw [takeUndef, dif_neg (by rintro ⟨-, hx⟩; exact absurd hx (by simp))]
  have t0 : takeUndef [none, some [0]] 1 0 = 1 := by
    rw [takeUndef, dif_pos ⟨by omega, rfl⟩]
    exact t1
  have hsd1 : skipDefined [none, some [0]] 1 1 = none := by
    rw [skipDefined, if_neg (by simp), dif_neg (by omega)]
  have hscan1 : scanIntervals [none, some [0]] 1 1 = [] := by
    rw [scanIntervals, dif_pos (by omega)]
    split
    · rfl
    · rename_i s heq
      rw [hsd1] at heq
      exact absurd heq (by simp)
  have hscan0 : scanIntervals [none, some [0]] 1 0 = [(0, 0)] := by
    rw [scanIntervals, dif_pos (by omega)]
    split
    · rename_i heq
      rw [hsd0] at heq
      exact absurd heq (by simp)
    · rename_i s heq
      rw [hsd0] at heq
      obtain rfl : (0 : Nat) = s := Option.some.inj heq
      rw [t0, hscan1]
  have hiv : getIntervals [none, some [0]] 0 none = [(0, none)] := by
    unfold getIntervals
    simp [hscan0]
  have hc2 : collectOpen pairOracle 2 = [] := by
    rw [collectOpen]
    rfl
  have hc1 : collectOpen pairOracle 1 = [[1]] := by
    rw [collectOpen]
    show ([1] : Trytes) :: collectOpen pairOracle 2 = _
    rw [hc2]
  have hc0 : collectOpen pairOracle 0 = [[0], [1]] := by
    rw [collectOpen]
    show ([0] : Trytes) :: collectOpen pairOracle 1 = _
    rw [hc1]
  refine ⟨rfl, ?_⟩
  unfold fetch
  dsimp only
  rw [show getRange none none none = (some 0, none) from rfl]
  dsimp only
  simp only [Option.getD_some]
  rw [if_neg (by simp [truthy])]
  rw [hiv]
  simp only [List.foldl_cons, List.foldl_nil]
  rw [show fetchMessages pairOracle 0 none = [some [0], some [1]] from by
    unfold fetchMessages
    rw [hc0]
    rfl]
  rfl


/-! ## C2: helpers for the assembly/parse round trip -/

theorem trits_take (s : Trytes) (n : Nat) : trits (s.take n) = (trits s).take (n * 3) := by
  unfold trits
  rw [flatten_take_uniform 3 (s.map tryteToTrits) n (fun x hx => by
    obtain ⟨c, -, rfl⟩ := List.mem_map.mp hx
    exact tryteToTrits_length c), List.map_take]

theorem trits_drop (s : Trytes) (n : Nat) : trits (s.drop n) = (trits s).drop (n * 3) := by
  unfold trits
  rw [flatten_drop_uniform 3 (s.map tryteToTrits) n (fun x hx => by
    obtain ⟨c, -, rfl⟩ := List.mem_map.mp hx
    exact tryteToTrits_length c), List.map_drop]

theorem trytes_take : ∀ (l : List Int) (n : Nat), (trytes l).take n = trytes (l.take (n * 3))
  | [], n => by
    rw [List.take_nil, show trytes [] = [] from rfl, List.take_nil]
  | [t0], n => by
    rcases n with _ | n
    · rfl
    · rw [show trytes [t0] = [] from rfl, List.take_nil,
        List.take_of_length_le (by rw [List.length_cons, List.length_nil]; omega)]
      rfl
  | [t0, t1], n => by
    rcases n with _ | n
    · rfl
    · rw [show trytes [t0, t1] = [] from rfl, List.take_nil,
        List.take_of_length_le (by simp only [List.length_cons, List.length_nil]; omega)]
      rfl
  | t0 :: t1 :: t2 :: rest, 0 => rfl
  | t0 :: t1 :: t2 :: rest, n + 1 => by
    rw [trytes_cons3, List.take_succ_cons,
      show (n + 1) * 3 = n * 3 + 1 + 1 + 1 by ring,
      List.take_succ_cons, List.take_succ_cons, List.take_succ_cons, trytes_cons3,
      trytes_take rest n]

theorem zipWith_take {α β γ : Type} (f : α → β → γ) :
    ∀ (l1 : List α) (l2 : List β) (n : Nat),
      (List.zipWith f l1 l2).take n = List.zipWith f (l1.take n) (l2.take n)
  | [], _, n => by simp
  | _ :: _, [], n => by simp
  | a :: l1, b :: l2, 0 => by simp
  | a :: l1, b :: l2, n + 1 => by
    simp only [List.zipWith_cons_cons, List.take_succ_cons]
    rw [zipWith_take f l1 l2 n]

theorem trytes_flatten_uniform :
    ∀ (ls : List (List Int)), (∀ x ∈ ls, 3 ∣ x.length) →
      trytes ls.flatten = (ls.map trytes).flatten
  | [], _ => rfl
  | x :: rest, h => by
    rw [List.flatten_cons, trytes_append x (h x (by simp)), List.map_cons, List.flatten_cons,
      trytes_flatten_uniform rest (fun y hy => h y (by simp [hy]))]

theorem take_append_exact {α : Type} (a b : List α) (n : Nat) (h : a.length = n) :
    (a ++ b).take n = a := by
  rw [← h]
  exact List.take_left a b

theorem drop_append_exact {α : Type} (a b : List α) (n : Nat) (h : a.length = n) :
    (a ++ b).drop n = b := by
  rw [← h]
  exact List.drop_left a b

theorem slice_append_inner {α : Type} (a b : List α) (k len : Nat) (h : k + len ≤ a.length) :
    ((a ++ b).drop k).take len = (a.drop k).take len := by
  rw [List.drop_append_eq_append_drop, show k - a.length = 0 by omega, List.drop_zero,
    List.take_append_eq_append_take, List.length_drop, show len - (a.length - k) = 0 by omega,
    List.take_zero, List.append_nil]

theorem trytesToInt_append_singleton (s : Trytes) (c : Nat) :
    trytesToInt (s ++ [c]) = trytesToInt s * 27 + c := by
  unfold trytesToInt
  rw [List.foldl_append]
  rfl

theorem trytesToInt_intToTrytesGo (v : Nat) : trytesToInt (intToTrytesGo v) = v := by
  have H : ∀ n v, v ≤ n → trytesToInt (intToTrytesGo v) = v := by
    intro n
    induction n with
    | zero =>
      intro v hv
      obtain rfl : v = 0 := by omega
      rw [intToTrytesGo]
      rfl
    | succ n ih =>
      intro v hv
      rcases v with _ | w
      · rw [intToTrytesGo]
        rfl
      · rw [intToTrytesGo, trytesToInt_append_singleton,
          ih ((w + 1) / 27) (by omega)]
        omega
  exact H v v (le_refl v)

theorem trytesToInt_replicate_zero_append (k : Nat) (s : Trytes) :
    trytesToInt (List.replicate k 0 ++ s) = trytesToInt s := by
  induction k with
  | zero => rfl
  | succ k ih =>
    rw [List.replicate_succ, List.cons_append]
    show List.foldl (fun acc c => acc * 27 + c) (0 * 27 + 0) (List.replicate k 0 ++ s)
      = trytesToInt s
    rw [show 0 * 27 + 0 = 0 from rfl]
    exact ih

theorem trytesToInt_intToPaddedTrytes (v n : Nat) :
    trytesToInt (intToPaddedTrytes v n) = v := by
  unfold intToPaddedTrytes
  rw [trytesToInt_replicate_zero_append]
  unfold intToTrytes
  split
  · rename_i h
    subst h
    rfl
  · exact trytesToInt_intToTrytesGo v

theorem intToPaddedTrytes_length (v n : Nat) (hn : 1 ≤ n) (h : v < 27 ^ n) :
    (intToPaddedTrytes v n).length = n := by
  unfold intToPaddedTrytes
  rw [List.length_append, List.length_replicate]
  have := intToTrytes_length_le n v hn h
  omega

theorem intToPaddedTrytes_lt27 (v n : Nat) : ∀ c ∈ intToPaddedTrytes v n, c < 27 := by
  intro c hc
  unfold intToPaddedTrytes at hc
  rcases List.mem_append.mp hc with h | h
  · rw [List.eq_of_mem_replicate h]
    omega
  · exact intToTrytes_lt27 v c h

theorem mul_add_pred_div (a h : Nat) (ha : 1 ≤ a) : (h * a + a - 1) / a = h := by
  have h1 : h * a + a - 1 = (a - 1) + a * h := by
    have : h * a = a * h := Nat.mul_comm h a
    omega
  rw [h1, Nat.add_mul_div_left _ _ (by omega : 0 < a), Nat.div_eq_of_lt (by omega)]
  omega


theorem squeezeK_take_min (K : List Int → Nat → Int) (a : List Int) (off n t : Nat) :
    (squeezeK K a off n).take t = squeezeK K a off (min t n) := by
  unfold squeezeK
  rw [← List.map_take, range'_take]

theorem zipWith_trinarySum_valid : ∀ (l1 l2 : List Int), validTrits l1 → validTrits l2 →
    validTrits (List.zipWith trinarySum l1 l2)
  | [], _, _, _ => by intro x hx; simp at hx
  | _ :: _, [], _, _ => by intro x hx; simp at hx
  | a :: l1, b :: l2, h1, h2 => by
    intro x hx
    rw [List.zipWith_cons_cons] at hx
    rcases List.mem_cons.mp hx with rfl | hmem
    · have ha := h1 a (by simp)
      have hb := h2 b (by simp)
      rcases ha with rfl | rfl | rfl <;> rcases hb with rfl | rfl | rfl <;>
        norm_num [trinarySum, isTrit]
    · exact zipWith_trinarySum_valid l1 l2 (fun t ht => h1 t (by simp [ht]))
        (fun t ht => h2 t (by simp [ht])) x hmem

theorem trinarySum_cancel (t k : Int) (ht : isTrit t) (hk : isTrit k) :
    trinarySum (trinarySum t k) (-k) = t := by
  rcases ht with rfl | rfl | rfl <;> rcases hk with rfl | rfl | rfl <;>
    norm_num [trinarySum]

theorem zip_dec_enc : ∀ (mt kt : List Int), validTrits mt → validTrits kt →
    mt.length ≤ kt.length →
    List.zipWith (fun t k => trinarySum t (-k)) (List.zipWith trinarySum mt kt) kt = mt
  | [], kt, _, _, _ => by simp
  | a :: mt, [], _, _, h => by simp at h
  | a :: mt, b :: kt, h1, h2, hlen => by
    simp only [List.zipWith_cons_cons]
    rw [trinarySum_cancel a b (h1 a (by simp)) (h2 b (by simp)),
      zip_dec_enc mt kt (fun t ht => h1 t (by simp [ht])) (fun t ht => h2 t (by simp [ht]))
        (by simp only [List.length_cons] at hlen; omega)]

theorem encGo_length (K : List Int → Nat → Int) (a : List Int) (m : Trytes) (c : Nat) :
    (encGo K a c m).length = m.length := by
  have H : ∀ n (m : Trytes) (c : Nat), m.length ≤ n → (encGo K a c m).length = m.length := by
    intro n
    induction n with
    | zero =>
      intro m c hm
      obtain rfl : m = [] := List.eq_nil_of_length_eq_zero (by omega)
      rw [encGo, if_pos rfl]
    | succ n ih =>
      intro m c hm
      by_cases hnil : m = []
      · subst hnil
        rw [encGo, if_pos rfl]
      · rw [encGo, if_neg hnil, List.length_append, trytes_length, List.length_zipWith,
          squeezeK_length, Nat.min_self, trits_length, List.length_take,
          ih (m.drop 81) (c + 1) (by rw [List.length_drop]; omega), List.length_drop]
        omega
  exact H m.length m c (le_refl _)

theorem decGo_length (K : List Int → Nat → Int) (a : List Int) (m : Trytes) (c : Nat) :
    (decGo K a c m).length = m.length := by
  have H : ∀ n (m : Trytes) (c : Nat), m.length ≤ n → (decGo K a c m).length = m.length := by
    intro n
    induction n with
    | zero =>
      intro m c hm
      obtain rfl : m = [] := List.eq_nil_of_length_eq_zero (by omega)
      rw [decGo, if_pos rfl]
    | succ n ih =>
      intro m c hm
      by_cases hnil : m = []
      · subst hnil
        rw [decGo, if_pos rfl]
      · rw [decGo, if_neg hnil, List.length_append, trytes_length, List.length_zipWith,
          squeezeK_length, Nat.min_self, trits_length, List.length_take,
          ih (m.drop 81) (c + 1) (by rw [List.length_drop]; omega), List.length_drop]
        omega
  exact H m.length m c (le_refl _)

theorem decGo_encGo (K : List Int → Nat → Int) (hK : spongeValid K) (a : List Int)
    (m : Trytes) (c : Nat) (hm : ∀ ch ∈ m, ch < 27) : decGo K a c (encGo K a c m) = m := by
  have H : ∀ n (m : Trytes) (c : Nat), m.length ≤ n → (∀ ch ∈ m, ch < 27) →
      decGo K a c (encGo K a c m) = m := by
    intro n
    induction n with
    | zero =>
      intro m c hlen _
      obtain rfl : m = [] := List.eq_nil_of_length_eq_zero (by omega)
      rw [encGo, if_pos rfl, decGo, if_pos rfl]
    | succ n ih =>
      intro m c hlen hm27
      by_cases hnil : m = []
      · subst hnil
        rw [encGo, if_pos rfl, decGo, if_pos rfl]
      · have hxpos : 0 < m.length := List.length_pos.mpr hnil
        rw [encGo, if_neg hnil]
        set mt := trits (m.take 81) with hmt
        set E := mt.zipWith trinarySum (squeezeK K a (c * HASH_LENGTH) mt.length) with hEdef
        have hmtval : validTrits mt := by
          rw [hmt]
          exact trits_valid _ (fun ch hch => hm27 ch (List.mem_of_mem_take hch))
        have hEval : validTrits E := by
          rw [hEdef]
          exact zipWith_trinarySum_valid _ _ hmtval (squeezeK_valid K hK _ _ _)
        have hElen : E.length = mt.length := by
          rw [hEdef, List.length_zipWith, squeezeK_length, Nat.min_self]
        have hmtlen : mt.length = 3 * (m.take 81).length := by rw [hmt, trits_length]
        have hTlen : (trytes E).length = (m.take 81).length := by
          rw [trytes_length, hElen, hmtlen]
          omega
        have hnil2 : ∀ c', decGo K a c' ([] : Trytes) = [] := by
          intro c'
          rw [decGo, if_pos rfl]
        have henil : ∀ c', encGo K a c' ([] : Trytes) = [] := by
          intro c'
          rw [encGo, if_pos rfl]
        rw [decGo, if_neg (by
          intro hcon
          have hc := congrArg List.length hcon
          rw [List.length_append, hTlen, List.length_take, encGo_length, List.length_drop] at hc
          simp only [List.length_nil] at hc
          omega)]
        have htake2 : (trytes E ++ encGo K a (c + 1) (m.drop 81)).take 81 = trytes E := by
          rw [List.take_append_eq_append_take,
            List.take_of_length_le (by rw [hTlen, List.length_take]; omega), hTlen]
          by_cases h81 : 81 ≤ m.length
          · rw [List.length_take, show 81 - min 81 m.length = 0 by omega, List.take_zero,
              List.append_nil]
          · rw [show m.drop 81 = [] from List.drop_eq_nil_of_le (by omega), henil,
              List.take_nil, List.append_nil]
        have hdrop2 : (trytes E ++ encGo K a (c + 1) (m.drop 81)).drop 81
            = encGo K a (c + 1) (m.drop 81) := by
          by_cases h81 : 81 ≤ m.length
          · exact drop_append_exact _ _ _ (by rw [hTlen, List.length_take]; omega)
          · rw [show m.drop 81 = [] from List.drop_eq_nil_of_le (by omega), henil,
              List.append_nil, List.drop_eq_nil_of_le (by rw [hTlen, List.length_take]; omega)]
        rw [htake2, hdrop2]
        have hmt2 : trits (trytes E) = E :=
          trits_trytes E hEval (by rw [hElen, hmtlen]; exact ⟨_, rfl⟩)
        rw [hmt2, hElen, hEdef,
          zip_dec_enc mt _ hmtval (squeezeK_valid K hK _ _ _) (by rw [squeezeK_length]),
          hmt, trytes_trits _ (fun ch hch => hm27 ch (List.mem_of_mem_take hch)),
          ih (m.drop 81) (c + 1) (by rw [List.length_drop]; omega)
            (fun ch hch => hm27 ch (List.mem_of_mem_drop hch))]
        exact List.take_append_drop 81 m
  exact H m.length m c (le_refl _) hm

theorem dec_chunk_take (K : List Int → Nat → Int) (a : List Int) (off : Nat) (y : Trytes)
    (t : Nat) :
    trytes ((trits (y.take t)).zipWith (fun tb k => trinarySum tb (-k))
      (squeezeK K a off (trits (y.take t)).length))
    = (trytes ((trits y).zipWith (fun tb k => trinarySum tb (-k))
        (squeezeK K a off (trits y).length))).take t := by
  rw [trytes_take, zipWith_take, squeezeK_take_min,
    show min (t * 3) (trits y).length = 3 * min t y.length from by rw [trits_length]; omega,
    show (trits (y.take t)).length = 3 * min t y.length from by
      rw [trits_length, List.length_take],
    trits_take]

theorem decGo_take (K : List Int → Nat → Int) (a : List Int) (x : Trytes) (t c : Nat) :
    decGo K a c (x.take t) = (decGo K a c x).take t := by
  have H : ∀ n (x : Trytes) (t c : Nat), x.length ≤ n →
      decGo K a c (x.take t) = (decGo K a c x).take t := by
    intro n
    induction n with
    | zero =>
      intro x t c hx
      obtain rfl : x = [] := List.eq_nil_of_length_eq_zero (by omega)
      rw [List.take_nil, decGo, if_pos rfl, List.take_nil]
    | succ n ih =>
      intro x t c hx
      by_cases hnil : x = []
      · subst hnil
        rw [List.take_nil, decGo, if_pos rfl, List.take_nil]
      · have hxpos : 0 < x.length := List.length_pos.mpr hnil
        by_cases hxt : x.length ≤ t
        · rw [List.take_of_length_le hxt, List.take_of_length_le (by rw [decGo_length]; exact hxt)]
        · rcases Nat.eq_zero_or_pos t with rfl | ht
          · rw [List.take_zero, decGo, if_pos rfl, List.take_zero]
          · have hnil2 : ∀ c', decGo K a c' ([] : Trytes) = [] := by
              intro c'
              rw [decGo, if_pos rfl]
            conv_lhs => rw [decGo]
            conv_rhs => rw [decGo]
            rw [if_neg hnil, if_neg (by
              intro hcon
              have hc := congrArg List.length hcon
              rw [List.length_take] at hc
              simp only [List.length_nil] at hc
              omega)]
            have hlenc : (trytes ((trits (x.take 81)).zipWith (fun tb k => trinarySum tb (-k))
                (squeezeK K a (c * HASH_LENGTH) (trits (x.take 81)).length))).length
                = min 81 x.length := by
              rw [trytes_length, List.length_zipWith, squeezeK_length, Nat.min_self, trits_length,
                List.length_take]
              omega
            by_cases ht81 : t ≤ 81
            · rw [show (x.take t).take 81 = (x.take 81).take t from by
                rw [List.take_take, List.take_take]
                congr 1
                omega]
              rw [show (x.take t).drop 81 = [] from
                List.drop_eq_nil_of_le (by rw [List.length_take]; omega)]
              rw [hnil2, List.append_nil, dec_chunk_take K a (c * HASH_LENGTH) (x.take 81) t,
                List.take_append_eq_append_take, hlenc,
                show t - min 81 x.length = 0 from by omega, List.take_zero, List.append_nil]
            · have hx81 : 81 < x.length := by omega
              rw [show (x.take t).take 81 = x.take 81 from by
                rw [List.take_take]
                congr 1
                omega]
              have hdt : (x.take t).drop 81 = (x.drop 81).take (t - 81) := by
                conv_lhs => rw [show t = 81 + (t - 81) from by omega]
                rw [List.take_add, drop_append_exact _ _ _ (by rw [List.length_take]; omega)]
              rw [hdt, ih (x.drop 81) (t - 81) (c + 1) (by rw [List.length_drop]; omega),
                List.take_append_eq_append_take]
              congr 1
              · exact (List.take_of_length_le (by rw [hlenc]; omega)).symm
              · congr 1
                rw [hlenc]
                omega
  exact H x.length x t c (le_refl _)

theorem encrypt_length (K : List Int → Nat → Int) (m key : Trytes) :
    (encrypt K m key).length = m.length := encGo_length K _ m 0

theorem decrypt_encrypt (K : List Int → Nat → Int) (hK : spongeValid K) (m key : Trytes)
    (hm : ∀ c ∈ m, c < 27) : decrypt K (encrypt K m key) key = m :=
  decGo_encGo K hK _ m 0 hm

theorem decrypt_take (K : List Int → Nat → Int) (x key : Trytes) (t : Nat) :
    decrypt K (x.take t) key = (decrypt K x key).take t := decGo_take K _ x t 0


theorem drop_take_comm {α : Type} (l : List α) (m n : Nat) :
    (l.take m).drop n = (l.drop n).take (m - n) := by
  by_cases h : n ≤ m
  · by_cases hl : n ≤ l.length
    · conv_lhs => rw [show m = n + (m - n) from by omega]
      rw [List.take_add, drop_append_exact _ _ _ (by rw [List.length_take]; omega)]
    · rw [List.take_of_length_le (by omega), List.drop_eq_nil_of_le (by omega),
        List.take_nil]
  · rw [show m - n = 0 from by omega, List.take_zero,
      List.drop_eq_nil_of_le (by rw [List.length_take]; omega)]

theorem chunks_getD (mf : Trytes) (N i : Nat) (hi : i < N) (htail : List Trytes) :
    (((List.range N).map (fun i => (mf.drop (i * 2187)).take 2187)) ++ htail).getD i []
      = (mf.drop (i * 2187)).take 2187 := by
  rw [getD_append_lt _ _ _ _ (by rw [List.length_map, List.length_range]; omega),
    getD_map_range _ _ _ _ hi]

theorem cipherExt_spec (txs : List Trytes) (mf : Trytes) (N T : Nat)
    (hmf : mf.length = N * 2187)
    (htx : ∀ i, i < N → txs.getD i [] = (mf.drop (i * 2187)).take 2187)
    (hT1 : 2187 * (N - 1) < T) (hT2 : T ≤ 2187 * N) :
    ∀ (n j : Nat), 1 ≤ j → j + n = N →
      cipherExt txs j n ((T : Int) - 2187 * j) = (mf.drop (j * 2187)).take (T - 2187 * j) := by
  intro n
  induction n with
  | zero =>
    intro j h1 hjn
    rw [cipherExt, show j = N from by omega,
      List.drop_eq_nil_of_le (by omega), List.take_nil]
  | succ n ih =>
    intro n1 h1 hjn
    rw [cipherExt, htx n1 (by omega), jsTake,
      if_pos (by
        have h2 : 2187 * n1 ≤ 2187 * (N - 1) := by omega
        omega),
      show ((T : Int) - 2187 * n1).toNat = T - 2187 * n1 from by
        have h2 : 2187 * n1 ≤ 2187 * (N - 1) := by omega
        omega,
      List.take_take]
    rcases Nat.eq_zero_or_pos n with rfl | hn
    · rw [cipherExt, List.append_nil,
        show min (T - 2187 * n1) 2187 = T - 2187 * n1 from by
          have h2 : T ≤ 2187 * (n1 + 1) := by omega
          omega]
    · have hmid : 2187 * (n1 + 1) ≤ 2187 * (N - 1) := by omega
      rw [show min (T - 2187 * n1) 2187 = 2187 from by omega,
        show ((T : Int) - 2187 * n1) - 2187 = (T : Int) - 2187 * ((n1 + 1 : Nat) : Int) from by
          push_cast; ring,
        ih (n1 + 1) (by omega) (by omega),
        show (n1 + 1) * 2187 = n1 * 2187 + 2187 from by ring,
        show T - 2187 * (n1 + 1) = T - 2187 * n1 - 2187 from by omega,
        ← List.drop_drop, ← List.take_add,
        show 2187 + (T - 2187 * n1 - 2187) = T - 2187 * n1 from by omega]

theorem padTrytesMultipleOf_length_2187 (p : Trytes) (hp : 1 ≤ p.length) :
    (padTrytesMultipleOf 2187 2187 p).length = ((p.length + 2186) / 2187) * 2187 := by
  unfold padTrytesMultipleOf padTrytesTo
  rw [List.length_append, List.length_replicate]
  by_cases hle : p.length ≤ 2187
  · rw [if_pos hle]
    omega
  · rw [if_neg hle]
    omega


theorem padMultiple_eq (p : Trytes) (N : Nat) (hp : 1 ≤ p.length)
    (hN : N = (p.length + 2186) / 2187) :
    padTrytesMultipleOf 2187 2187 p = p ++ List.replicate (N * 2187 - p.length) 0 := by
  unfold padTrytesMultipleOf padTrytesTo
  by_cases hle : p.length ≤ 2187
  · rw [if_pos hle, show 2187 - p.length = N * 2187 - p.length from by omega]
  · rw [if_neg hle,
      show (p.length + 2187 - 1) / 2187 * 2187 - p.length = N * 2187 - p.length from by omega]

theorem padSlice (p : Trytes) (k len : Nat) (hp : 1 ≤ p.length)
    (h2187 : k + len ≤ 2187) (hkp : k + len ≤ p.length) :
    (((padTrytesMultipleOf 2187 2187 p).take 2187).drop k).take len = (p.drop k).take len := by
  rw [drop_take_comm, List.take_take, show min len (2187 - k) = len from by omega,
    padMultiple_eq p _ hp rfl]
  exact slice_append_inner _ _ k len hkp

theorem padTake (p : Trytes) (n : Nat) (hp : 1 ≤ p.length) (h2187 : n ≤ 2187)
    (hnp : n ≤ p.length) :
    ((padTrytesMultipleOf 2187 2187 p).take 2187).take n = p.take n := by
  rw [List.take_take, show min n 2187 = n from by omega, padMultiple_eq p _ hp rfl,
    List.take_append_eq_append_take, show n - p.length = 0 from by omega, List.take_zero,
    List.append_nil]

theorem padTakeDrop11 (p : Trytes) (N M : Nat) (hp : 11 ≤ p.length)
    (hN : N = (p.length + 2186) / 2187) (hM1 : p.length ≤ M) (hM2 : M ≤ N * 2187) :
    ((padTrytesMultipleOf 2187 2187 p).take M).drop 11
      = p.drop 11 ++ List.replicate (M - p.length) 0 := by
  rw [padMultiple_eq p N (by omega) hN, List.take_append_eq_append_take,
    List.take_of_length_le hM1, List.take_replicate,
    show min (M - p.length) (N * 2187 - p.length) = M - p.length from by omega,
    List.drop_append_eq_append_drop, show 11 - p.length = 0 from by omega, List.drop_zero]

set_option maxRecDepth 10000 in
set_option maxHeartbeats 1000000 in
/-- The parsing half of the round trip: `processBundle` applied to the
fragment list that `createTransfers` builds from a well-formed payload
recovers every header and body field.  `payload`, `mf` and `txs` are pinned
by equations so the claim theorems can instantiate them with `rfl`. -/
theorem processBundle_roundtrip (K : List Int → Nat → Int) (hK : spongeValid K)
    (key : Trytes) (index s h nrs : Nat) (message : Trytes) (verifyingKey : List Int)
    (authPathHashes : List (List Int)) (nrT : Trytes) (sig : List Int)
    (payload mf : Trytes) (txs : List Trytes)
    (hs1 : 1 ≤ s) (hs4 : s ≤ 4) (hh1 : 1 ≤ h) (hh26 : h ≤ 26) (hnrs4 : nrs ≤ 4)
    (hidx : index < 2 ^ h)
    (hm27 : ∀ c ∈ message, c < 27) (hmlen : message.length < 27 ^ 3)
    (hvk : validTrits verifyingKey) (hvklen : verifyingKey.length = 243 * s)
    (hauthlen : authPathHashes.length = h)
    (hauth : ∀ x ∈ authPathHashes, validTrits x ∧ x.length = 243 * s)
    (hnr27 : ∀ c ∈ nrT, c < 27) (hnrlen : nrT.length = nrs * 81)
    (hsiglen : sig.length = s * 6561)
    (hside : 1 ≤ (message.length + (h + 1) * (s * 81) + nrs * 81) % 2187 ∧
      (message.length + (h + 1) * (s * 81) + nrs * 81) % 2187 ≤ 2176)
    (hpayload : payload = intToPaddedTrytes index 6 ++ [nrs * 4 + s - 1] ++
      intToPaddedTrytes h 1 ++ intToPaddedTrytes message.length 3 ++ message ++
      trytes (verifyingKey ++ authPathHashes.flatten) ++ nrT)
    (hmf : mf = encrypt K (padTrytesMultipleOf 2187 2187 payload) key)
    (htxs : txs = (List.range ((mf.length + 2186) / 2187)).map
        (fun i => (mf.drop (i * 2187)).take 2187)
      ++ (List.range (((trytes sig).length + 2186) / 2187)).map
        (fun i => ((trytes sig).drop (i * 2187)).take 2187)) :
    ∃ sigv, processBundle K txs key none none none =
      Except.ok ⟨index, s, h, message, verifyingKey, authPathHashes, trits nrT, sigv⟩ := by
  obtain ⟨N, hN⟩ : ∃ N, N = (11 + (message.length + (h + 1) * (s * 81) + nrs * 81) + 2186) / 2187 :=
    ⟨_, rfl⟩
  obtain ⟨M, hM⟩ : ∃ M, M = max 2187 (11 + (message.length + (h + 1) * (s * 81) + nrs * 81)) :=
    ⟨_, rfl⟩
  have hidx276 : index < 27 ^ 6 :=
    lt_of_lt_of_le hidx (le_trans (Nat.pow_le_pow_right (by norm_num) hh26) (by norm_num))
  have hp1 : (intToPaddedTrytes index 6).length = 6 :=
    intToPaddedTrytes_length index 6 (by norm_num) hidx276
  have hp3 : (intToPaddedTrytes h 1).length = 1 :=
    intToPaddedTrytes_length h 1 (by norm_num)
      (by have e : (27 : Nat) ^ 1 = 27 := by norm_num
          omega)
  have hp4 : (intToPaddedTrytes message.length 3).length = 3 :=
    intToPaddedTrytes_length message.length 3 (by norm_num) hmlen
  have hhl : ∀ x ∈ authPathHashes, x.length = 243 * s := fun x hx => (hauth x hx).2
  have hflatlen0 : authPathHashes.flatten.length = h * (243 * s) := by
    rw [flatten_length_uniform (243 * s) authPathHashes hhl, hauthlen]
  have hhashlen : (trytes (verifyingKey ++ authPathHashes.flatten)).length
      = (h + 1) * (s * 81) := by
    rw [trytes_length, List.length_append, hvklen, hflatlen0,
      show 243 * s + h * (243 * s) = 3 * ((h + 1) * (s * 81)) from by ring,
      Nat.mul_div_cancel_left _ (by norm_num)]
  have hT : payload.length = 11 + (message.length + (h + 1) * (s * 81) + nrs * 81) := by
    rw [hpayload]
    simp only [List.length_append, List.length_cons, List.length_nil]
    rw [hp1, hp3, hp4, hhashlen, hnrlen]
    omega
  have hN' : N = (payload.length + 2186) / 2187 := by rw [hT]; exact hN
  have hN1 : 1 ≤ N := by rw [hN]; omega
  have hM1 : payload.length ≤ M := by rw [hM]; omega
  have hM2 : M ≤ N * 2187 := by rw [hM, hN]; omega
  have hpadlen : (padTrytesMultipleOf 2187 2187 payload).length = N * 2187 := by
    rw [padTrytesMultipleOf_length_2187 payload (by omega), ← hN']
  have hmflen : mf.length = N * 2187 := by rw [hmf, encrypt_length, hpadlen]
  have hNchunks : (mf.length + 2186) / 2187 = N := by rw [hmflen]; omega
  have hsigchunks : ((trytes sig).length + 2186) / 2187 = s := by
    rw [trytes_length, hsiglen]; omega
  have htxslen : txs.length = N + s := by
    rw [htxs, List.length_append, List.length_map, List.length_range, List.length_map,
      List.length_range, hNchunks, hsigchunks]
  have htx : ∀ i, i < N → txs.getD i [] = (mf.drop (i * 2187)).take 2187 := by
    intro i hi
    rw [htxs, hNchunks]
    exact chunks_getD mf N i hi _
  have htx0 : txs.getD 0 [] = mf.take 2187 := by
    have h0 := htx 0 (by omega)
    rwa [Nat.zero_mul, List.drop_zero] at h0
  have hvkflat : validTrits (verifyingKey ++ authPathHashes.flatten) := by
    intro t ht
    rcases List.mem_append.mp ht with hta | htb
    · exact hvk t hta
    · obtain ⟨x, hx, htx2⟩ := List.mem_flatten.mp htb
      exact (hauth x hx).1 t htx2
  have hpay27 : ∀ c ∈ payload, c < 27 := by
    rw [hpayload]
    intro c hc
    simp only [List.mem_append, List.mem_singleton] at hc
    rcases hc with ((((((h1 | h2) | h3) | h4) | h5) | h6) | h7)
    · exact intToPaddedTrytes_lt27 index 6 c h1
    · rw [h2]; omega
    · exact intToPaddedTrytes_lt27 h 1 c h3
    · exact intToPaddedTrytes_lt27 message.length 3 c h4
    · exact hm27 c h5
    · exact trytes_lt27 _ hvkflat c h6
    · exact hnr27 c h7
  have hpad27 : ∀ c ∈ padTrytesMultipleOf 2187 2187 payload, c < 27 := by
    intro c hc
    rw [padMultiple_eq payload N (by omega) hN'] at hc
    rcases List.mem_append.mp hc with hcp | hcr
    · exact hpay27 c hcp
    · rw [List.eq_of_mem_replicate hcr]; norm_num
  have hdec : decrypt K mf key = padTrytesMultipleOf 2187 2187 payload := by
    rw [hmf, decrypt_encrypt K hK _ key hpad27]
  have hIndexVal : trytesToInt (((padTrytesMultipleOf 2187 2187 payload).take 2187).take 6)
      = index := by
    rw [padTake payload 6 (by omega) (by omega) (by omega), hpayload]
    simp only [List.append_assoc]
    rw [take_append_exact _ _ 6 hp1, trytesToInt_intToPaddedTrytes]
  have hSecVal : alphaIndexOf ((((padTrytesMultipleOf 2187 2187 payload).take 2187).drop 6).take 1)
      = nrs * 4 + s - 1 := by
    rw [padSlice payload 6 1 (by omega) (by omega) (by omega)]
    have hv : payload = intToPaddedTrytes index 6 ++ ([nrs * 4 + s - 1] ++
        (intToPaddedTrytes h 1 ++ (intToPaddedTrytes message.length 3 ++ (message ++
        (trytes (verifyingKey ++ authPathHashes.flatten) ++ nrT))))) := by
      rw [hpayload]; simp only [List.append_assoc]
    rw [hv, drop_append_exact _ _ 6 hp1, take_append_exact [nrs * 4 + s - 1] _ 1 rfl]
    rfl
  have hHeightVal : trytesToInt ((((padTrytesMultipleOf 2187 2187 payload).take 2187).drop 7).take 1)
      = h := by
    rw [padSlice payload 7 1 (by omega) (by omega) (by omega)]
    have hv : payload = (intToPaddedTrytes index 6 ++ [nrs * 4 + s - 1]) ++
        (intToPaddedTrytes h 1 ++ (intToPaddedTrytes message.length 3 ++ (message ++
        (trytes (verifyingKey ++ authPathHashes.flatten) ++ nrT)))) := by
      rw [hpayload]; simp only [List.append_assoc]
    rw [hv, drop_append_exact _ _ 7 (by rw [List.length_append, hp1]; rfl),
      take_append_exact _ _ 1 hp3, trytesToInt_intToPaddedTrytes]
  have hLenVal : trytesToInt ((((padTrytesMultipleOf 2187 2187 payload).take 2187).drop 8).take 3)
      = message.length := by
    rw [padSlice payload 8 3 (by omega) (by omega) (by omega)]
    have hv : payload = (intToPaddedTrytes index 6 ++ [nrs * 4 + s - 1] ++
        intToPaddedTrytes h 1) ++ (intToPaddedTrytes message.length 3 ++ (message ++
        (trytes (verifyingKey ++ authPathHashes.flatten) ++ nrT))) := by
      rw [hpayload]; simp only [List.append_assoc]
    rw [hv, drop_append_exact _ _ 8
        (by rw [List.length_append, List.length_append, hp1, hp3]; rfl),
      take_append_exact _ _ 3 hp4, trytesToInt_intToPaddedTrytes]
  have hdrop11 : payload.drop 11 = message ++ (trytes verifyingKey ++
      (trytes authPathHashes.flatten ++ nrT)) := by
    have hv : payload = (intToPaddedTrytes index 6 ++ [nrs * 4 + s - 1] ++
        intToPaddedTrytes h 1 ++ intToPaddedTrytes message.length 3) ++ (message ++
        (trytes (verifyingKey ++ authPathHashes.flatten) ++ nrT)) := by
      rw [hpayload]; simp only [List.append_assoc]
    rw [hv, drop_append_exact _ _ 11 (by
        rw [List.length_append, List.length_append, List.length_append, hp1, hp3, hp4]; rfl),
      trytes_append verifyingKey ⟨81 * s, by rw [hvklen]; ring⟩ authPathHashes.flatten]
    simp only [List.append_assoc]
  have hvt : (trytes verifyingKey).length = s * 81 := by rw [trytes_length, hvklen]; omega
  have hft : (trytes authPathHashes.flatten).length = h * (s * 81) := by
    rw [trytes_length, hflatlen0, show h * (243 * s) = 3 * (h * (s * 81)) from by ring,
      Nat.mul_div_cancel_left _ (by norm_num)]
  have hcip : mf.take 2187 ++ cipherExt txs 1 (N - 1)
      (((message.length + (h + 1) * (s * 81) + nrs * 81 : Nat) : Int) - (2187 - 11))
      = mf.take M := by
    rcases Nat.lt_or_ge (11 + (message.length + (h + 1) * (s * 81) + nrs * 81)) 2188 with hc | hc
    · rw [show N - 1 = 0 from by omega, cipherExt, List.append_nil,
        show M = 2187 from by omega]
    · rw [show (((message.length + (h + 1) * (s * 81) + nrs * 81 : Nat) : Int) - (2187 - 11))
          = ((11 + (message.length + (h + 1) * (s * 81) + nrs * 81) : Nat) : Int)
            - 2187 * ((1 : Nat) : Int) from by push_cast; ring,
        cipherExt_spec txs mf N (11 + (message.length + (h + 1) * (s * 81) + nrs * 81))
          hmflen htx (by omega) (by omega) (N - 1) 1 (by omega) (by omega),
        show (1 : Nat) * 2187 = 2187 from by norm_num,
        show 11 + (message.length + (h + 1) * (s * 81) + nrs * 81) - 2187 * 1 = M - 2187
          from by omega,
        ← List.take_add, show 2187 + (M - 2187) = M from by omega]
  have hfm : ((message ++ (trytes verifyingKey ++ (trytes authPathHashes.flatten ++ nrT))) ++
      List.replicate (M - payload.length) 0).take message.length = message := by
    rw [List.take_append_eq_append_take,
      show message.length - (message ++ (trytes verifyingKey ++
        (trytes authPathHashes.flatten ++ nrT))).length = 0 from by
          simp only [List.length_append]; omega,
      List.take_zero, List.append_nil, take_append_exact _ _ _ rfl]
  have hfvk0 : (((message ++ (trytes verifyingKey ++ (trytes authPathHashes.flatten ++ nrT))) ++
      List.replicate (M - payload.length) 0).drop message.length).take (s * 81)
      = trytes verifyingKey := by
    rw [slice_append_inner _ _ _ _ (by simp only [List.length_append]; omega),
      drop_append_exact _ _ _ rfl, take_append_exact _ _ _ hvt]
  have hfhs0 : (((message ++ (trytes verifyingKey ++ (trytes authPathHashes.flatten ++ nrT))) ++
      List.replicate (M - payload.length) 0).drop (message.length + s * 81)).take (h * (s * 81))
      = trytes authPathHashes.flatten := by
    rw [slice_append_inner _ _ _ _ (by simp only [List.length_append]; omega)]
    have hv : message ++ (trytes verifyingKey ++ (trytes authPathHashes.flatten ++ nrT))
        = (message ++ trytes verifyingKey) ++ (trytes authPathHashes.flatten ++ nrT) := by
      simp only [List.append_assoc]
    rw [hv, drop_append_exact _ _ _ (by rw [List.length_append, hvt]),
      take_append_exact _ _ _ hft]
  have hfnr0 : (((message ++ (trytes verifyingKey ++ (trytes authPathHashes.flatten ++ nrT))) ++
      List.replicate (M - payload.length) 0).drop
        (message.length + s * 81 + h * (s * 81))).take (nrs * 81) = nrT := by
    rw [slice_append_inner _ _ _ _ (by simp only [List.length_append]; omega)]
    have hv : message ++ (trytes verifyingKey ++ (trytes authPathHashes.flatten ++ nrT))
        = (message ++ (trytes verifyingKey ++ trytes authPathHashes.flatten)) ++ nrT := by
      simp only [List.append_assoc]
    rw [hv, drop_append_exact _ _ _ (by
        simp only [List.length_append]
        rw [hvt, hft]
        omega),
      List.take_of_length_le (by omega)]
  have hauthmap : (List.range h).map (fun i =>
      trits (((trytes authPathHashes.flatten).drop (i * (s * 81))).take (s * 81)))
      = authPathHashes := by
    have hflat : trytes authPathHashes.flatten = (authPathHashes.map trytes).flatten :=
      trytes_flatten_uniform authPathHashes (fun x hx => ⟨81 * s, by rw [hhl x hx]; ring⟩)
    refine List.ext_getElem (by rw [List.length_map, List.length_range, hauthlen]) ?_
    intro i h1 h2
    rw [List.getElem_map, List.getElem_range, hflat,
      flatten_getD_slice (s * 81) (authPathHashes.map trytes) i
        (fun x hx => by
          obtain ⟨y, hy, rfl⟩ := List.mem_map.mp hx
          rw [trytes_length, hhl y hy]
          omega)
        (by rw [List.length_map]; omega),
      List.getD_eq_getElem _ _ (by rw [List.length_map]; omega), List.getElem_map]
    exact trits_trytes _ (hauth _ (List.getElem_mem _)).1
      ⟨81 * s, by rw [hhl _ (List.getElem_mem _)]; ring⟩
  refine ⟨sigLoop N (txs.drop N) N ((s * 6561 : Nat) : Int) (List.replicate (s * 6561) 0), ?_⟩
  unfold processBundle
  dsimp only
  rw [if_neg (show ¬ txs.length < 2 from by omega),
    if_neg (show ¬ (false = true) from fun hx => Bool.noConfusion hx),
    if_neg (show ¬ (false = true) from fun hx => Bool.noConfusion hx),
    if_neg (show ¬ (false = true) from fun hx => Bool.noConfusion hx),
    if_neg (show ¬ (false = true) from fun hx => Bool.noConfusion hx)]
  rw [htx0, decrypt_take, hdec]
  rw [hIndexVal, hSecVal, show (nrs * 4 + s - 1) % 4 + 1 = s from by omega,
    show (nrs * 4 + s - 1) / 4 * 81 = nrs * 81 from by omega, hHeightVal, hLenVal]
  rw [show (message.length + (h + 1) * (s * 81) + nrs * 81 + 2186) / 2187 = N from by
    rw [hN]; omega]
  rw [hcip, decrypt_take, hdec, padTakeDrop11 payload N M (by omega) hN' hM1 hM2, hdrop11]
  rw [hfm, hfvk0, trits_trytes verifyingKey hvk ⟨81 * s, by rw [hvklen]; ring⟩, hfhs0, hft,
    mul_add_pred_div (s * 81) h (by omega), hauthmap, hfnr0]

set_option maxRecDepth 10000 in
/-- The assembly half of the round trip: under the four guards,
`createTransfers` returns exactly the 2187-tryte fragments of the encrypted
padded payload followed by the signature fragments. -/
theorem createTransfers_eq (K : List Int → Nat → Int) (merkleRoot : List Int) (s : Nat)
    (hrootlen : merkleRoot.length = 243 * s) (hs1 : 1 ≤ s) (hs4 : s ≤ 4)
    (message : Trytes) (hmlen : message.length < 27 ^ 3) (sig : List Int) (index : Nat)
    (verifyingKey : List Int) (authPathHashes : List (List Int))
    (hh1 : 1 ≤ authPathHashes.length) (hh26 : authPathHashes.length ≤ 26)
    (hidx : index < 2 ^ authPathHashes.length)
    (channelPassword messagePassword : Option Trytes)
    (nrT : Trytes) (nrs : Nat) (nextRoot : Option (List Int))
    (hnrs4 : nrs ≤ 4)
    (hnrsec : (match nextRoot with | some nr => (trytes nr).length / 81 | none => 0) = nrs)
    (hnrT : (match nextRoot with | some nr => trytes nr | none => ([] : Trytes)) = nrT) :
    createTransfers K merkleRoot message sig index verifyingKey authPathHashes
        channelPassword nextRoot messagePassword = Except.ok
      ((List.range (((encrypt K (padTrytesMultipleOf 2187 2187
            (intToPaddedTrytes index 6 ++ [nrs * 4 + s - 1] ++
             intToPaddedTrytes authPathHashes.length 1 ++
             intToPaddedTrytes message.length 3 ++ message ++
             trytes (verifyingKey ++ authPathHashes.flatten) ++ nrT))
          (getKey merkleRoot channelPassword (trits (intToTrytes index))
            messagePassword)).length + 2186) / 2187)).map
        (fun i => ((encrypt K (padTrytesMultipleOf 2187 2187
            (intToPaddedTrytes index 6 ++ [nrs * 4 + s - 1] ++
             intToPaddedTrytes authPathHashes.length 1 ++
             intToPaddedTrytes message.length 3 ++ message ++
             trytes (verifyingKey ++ authPathHashes.flatten) ++ nrT))
          (getKey merkleRoot channelPassword (trits (intToTrytes index))
            messagePassword)).drop (i * 2187)).take 2187)
      ++ (List.range (((trytes sig).length + 2186) / 2187)).map
        (fun i => ((trytes sig).drop (i * 2187)).take 2187)) := by
  rcases nextRoot with _ | nr
  · have hnrs0 : 0 = nrs := hnrsec
    have hnrT0 : ([] : Trytes) = nrT := hnrT
    subst hnrs0
    subst hnrT0
    unfold createTransfers
    dsimp only
    rw [trytes_length, hrootlen, if_neg (show ¬ 27 ^ 3 < message.length from by omega),
      show 243 * s / 3 / 81 = s from by omega,
      if_neg (show ¬ (s < 1 ∨ 4 < s) from by omega),
      if_pos (show 0 * 4 + s - 1 < 27 from by omega),
      if_neg (show ¬ (authPathHashes.length < 1 ∨ 26 < authPathHashes.length) from by omega),
      if_neg (Nat.not_le.mpr hidx)]
  · have hnrsec' : (trytes nr).length / 81 = nrs := hnrsec
    have hnrT' : trytes nr = nrT := hnrT
    subst hnrT'
    subst hnrsec'
    unfold createTransfers
    dsimp only
    rw [trytes_length, hrootlen, if_neg (show ¬ 27 ^ 3 < message.length from by omega),
      show 243 * s / 3 / 81 = s from by omega,
      if_neg (show ¬ (s < 1 ∨ 4 < s) from by omega),
      if_pos (show (trytes nr).length / 81 * 4 + s - 1 < 27 from by omega),
      if_neg (show ¬ (authPathHashes.length < 1 ∨ 26 < authPathHashes.length) from by omega),
      if_neg (Nat.not_le.mpr hidx)]

set_option maxRecDepth 10000 in
/-- Amended **C2**: parsing inverts assembly under a fragment-boundary side
condition.  For every trit-valued sponge, channel root of security
`s ∈ [1,4]`, auth path of height `h ∈ [1,26]`, index below `2^h`, message
shorter than `27^3` trytes, signature of `s` key fragments, optional
passwords and optional next root of security `nrs ∈ [1,4]`, if the
unheadered payload length `L = len(message) + (h+1)·81·s + 81·nrs` satisfies
`1 ≤ L % 2187 ≤ 2176`, then `processBundle` applied with the matching key to
the transfers of `createTransfers` recovers the message, index, security,
height, verifying key, auth-path hashes and next root, trit for trit.
Outside that side condition the parser's fragment count drops the trailing
fragment (the 11-tryte header is not counted), truncating the last fields:
see the counterexample. -/
theorem claim_C2_amended (K : List Int → Nat → Int) (hK : spongeValid K)
    (merkleRoot : List Int) (s : Nat) (hrootlen : merkleRoot.length = 243 * s)
    (hs1 : 1 ≤ s) (hs4 : s ≤ 4)
    (message : Trytes) (hm27 : ∀ c ∈ message, c < 27) (hmlen : message.length < 27 ^ 3)
    (sig : List Int) (hsiglen : sig.length = s * 6561)
    (index : Nat) (verifyingKey : List Int) (hvk : validTrits verifyingKey)
    (hvklen : verifyingKey.length = 243 * s)
    (authPathHashes : List (List Int)) (h : Nat) (hauthlen : authPathHashes.length = h)
    (hh1 : 1 ≤ h) (hh26 : h ≤ 26)
    (hauth : ∀ x ∈ authPathHashes, validTrits x ∧ x.length = 243 * s)
    (hidx : index < 2 ^ h)
    (channelPassword messagePassword : Option Trytes)
    (nextRoot : Option (List Int)) (nrs : Nat)
    (hnr : match nextRoot with
      | some nr => validTrits nr ∧ nr.length = 243 * nrs ∧ 1 ≤ nrs ∧ nrs ≤ 4
      | none => nrs = 0)
    (hside : 1 ≤ (message.length + (h + 1) * (s * 81) + nrs * 81) % 2187 ∧
      (message.length + (h + 1) * (s * 81) + nrs * 81) % 2187 ≤ 2176) :
    ∃ txs parsed,
      createTransfers K merkleRoot message sig index verifyingKey authPathHashes
          channelPassword nextRoot messagePassword = Except.ok txs ∧
      processBundle K txs
          (getKey merkleRoot channelPassword (trits (intToTrytes index)) messagePassword)
          none none none = Except.ok parsed ∧
      parsed.index = index ∧ parsed.security = s ∧ parsed.height = h ∧
      parsed.message = message ∧ parsed.verifyingKey = verifyingKey ∧
      parsed.authPathHashes = authPathHashes ∧
      parsed.nextRoot = (match nextRoot with | some nr => nr | none => ([] : List Int)) := by
  subst hauthlen
  rcases nextRoot with _ | nr
  · have hnrs0 : 0 = nrs := hnr.symm
    subst hnrs0
    have hCT := createTransfers_eq K merkleRoot s hrootlen hs1 hs4 message hmlen sig index
      verifyingKey authPathHashes hh1 hh26 hidx channelPassword messagePassword [] 0 none
      (by omega) rfl rfl
    obtain ⟨sigv, hPB⟩ := processBundle_roundtrip K hK
      (getKey merkleRoot channelPassword (trits (intToTrytes index)) messagePassword)
      index s authPathHashes.length 0 message verifyingKey authPathHashes [] sig
      _ _ _ hs1 hs4 hh1 hh26 (by omega) hidx hm27 hmlen hvk hvklen rfl hauth
      (by intro c hc; exact absurd hc (List.not_mem_nil c)) rfl hsiglen hside rfl rfl rfl
    exact ⟨_, _, hCT, hPB, rfl, rfl, rfl, rfl, rfl, rfl, rfl⟩
  · obtain ⟨hnrv, hnrl, hnrs1, hnrs4⟩ := hnr
    have hnrsec : (trytes nr).length / 81 = nrs := by rw [trytes_length, hnrl]; omega
    have hCT := createTransfers_eq K merkleRoot s hrootlen hs1 hs4 message hmlen sig index
      verifyingKey authPathHashes hh1 hh26 hidx channelPassword messagePassword
      (trytes nr) nrs (some nr) hnrs4 hnrsec rfl
    obtain ⟨sigv, hPB⟩ := processBundle_roundtrip K hK
      (getKey merkleRoot channelPassword (trits (intToTrytes index)) messagePassword)
      index s authPathHashes.length nrs message verifyingKey authPathHashes (trytes nr) sig
      _ _ _ hs1 hs4 hh1 hh26 hnrs4 hidx hm27 hmlen hvk hvklen rfl hauth
      (trytes_lt27 nr hnrv) (by rw [trytes_length, hnrl]; omega) hsiglen hside rfl rfl rfl
    refine ⟨_, _, hCT, hPB, rfl, rfl, rfl, rfl, rfl, rfl, ?_⟩
    exact trits_trytes nr hnrv ⟨81 * nrs, by rw [hnrl]; ring⟩

set_option maxRecDepth 100000 in
/-- Witness for the amended **C2** at the zero sponge: security 1, height 1,
index 0, empty message, no passwords and no next root. -/
theorem claim_C2_amended_witness :
    ∃ txs parsed,
      createTransfers zeroSponge (List.replicate 243 0) [] (List.replicate 6561 0) 0
          (List.replicate 243 0) [List.replicate 243 0] none none none = Except.ok txs ∧
      processBundle zeroSponge txs
          (getKey (List.replicate 243 0) none (trits (intToTrytes 0)) none)
          none none none = Except.ok parsed ∧
      parsed.index = 0 ∧ parsed.security = 1 ∧ parsed.height = 1 ∧
      parsed.message = [] ∧ parsed.verifyingKey = List.replicate 243 0 ∧
      parsed.authPathHashes = [List.replicate 243 0] ∧
      parsed.nextRoot = ([] : List Int) :=
  claim_C2_amended zeroSponge (fun _ _ => Or.inr (Or.inl rfl)) (List.replicate 243 0) 1
    (by rw [List.length_replicate]) (by decide) (by decide) []
    (by intro c hc; exact absurd hc (List.not_mem_nil c)) (by decide)
    (List.replicate 6561 0) (by rw [List.length_replicate]) 0 (List.replicate 243 0)
    (fun t ht => by rw [List.eq_of_mem_replicate ht]; exact Or.inr (Or.inl rfl))
    (by rw [List.length_replicate]) [List.replicate 243 0] 1 rfl (by decide) (by decide)
    (by
      intro x hx
      rw [List.mem_singleton] at hx
      subst hx
      exact ⟨fun t ht => by rw [List.eq_of_mem_replicate ht]; exact Or.inr (Or.inl rfl),
        by rw [List.length_replicate]⟩)
    (by decide) none none none 0 rfl (by decide)

set_option maxRecDepth 100000 in
set_option maxHeartbeats 1000000 in
/-- Parsing the bundle of a 2015-tryte security-1 height-1 message: the
unheadered payload length is 2177, so the parser counts 1 payload
transaction while the padded fragment really spans 2, and the single
auth-path hash comes back with 240 trits instead of 243. -/
theorem processBundle_cx (key : Trytes) (payload mf : Trytes) (txs : List Trytes)
    (hpayload : payload = intToPaddedTrytes 0 6 ++ [0 * 4 + 1 - 1] ++
      intToPaddedTrytes [List.replicate 243 (0 : Int)].length 1 ++
      intToPaddedTrytes (List.replicate 2015 (0 : Nat)).length 3 ++
      List.replicate 2015 0 ++
      trytes (List.replicate 243 0 ++ [List.replicate 243 (0 : Int)].flatten) ++ [])
    (hmf : mf = encrypt zeroSponge (padTrytesMultipleOf 2187 2187 payload) key)
    (htxs : txs = (List.range ((mf.length + 2186) / 2187)).map
        (fun i => (mf.drop (i * 2187)).take 2187)
      ++ (List.range (((trytes (List.replicate 6561 (0 : Int))).length + 2186) / 2187)).map
        (fun i => ((trytes (List.replicate 6561 (0 : Int))).drop (i * 2187)).take 2187)) :
    ∀ parsed, processBundle zeroSponge txs key none none none = Except.ok parsed →
      parsed.authPathHashes ≠ [List.replicate 243 0] := by
  have e1 : [List.replicate 243 (0 : Int)].length = 1 := rfl
  have e2 : (List.replicate 2015 (0 : Nat)).length = 2015 := by rw [List.length_replicate]
  have e3 : [List.replicate 243 (0 : Int)].flatten = List.replicate 243 0 := by
    rw [List.flatten_cons, List.flatten_nil, List.append_nil]
  rw [e1, e2, e3, List.append_nil] at hpayload
  have hp1 : (intToPaddedTrytes 0 6).length = 6 :=
    intToPaddedTrytes_length 0 6 (by norm_num) (by norm_num)
  have hp3 : (intToPaddedTrytes 1 1).length = 1 :=
    intToPaddedTrytes_length 1 1 (by norm_num) (by norm_num)
  have hp4 : (intToPaddedTrytes 2015 3).length = 3 :=
    intToPaddedTrytes_length 2015 3 (by norm_num) (by norm_num)
  have hhashlen : (trytes (List.replicate 243 (0 : Int) ++ List.replicate 243 0)).length
      = 162 := by
    rw [trytes_length, List.length_append, List.length_replicate]
  have hPlen : payload.length = 2188 := by
    rw [hpayload]
    simp only [List.length_append, List.length_cons, List.length_nil, List.length_replicate]
    rw [hp1, hp3, hp4, hhashlen]
  have hpadlen : (padTrytesMultipleOf 2187 2187 payload).length = 4374 := by
    rw [padTrytesMultipleOf_length_2187 payload (by omega), hPlen]
  have hmflen : mf.length = 4374 := by rw [hmf, encrypt_length, hpadlen]
  have hNchunks : (mf.length + 2186) / 2187 = 2 := by rw [hmflen]
  have hsigchunk : ((trytes (List.replicate 6561 (0 : Int))).length + 2186) / 2187 = 1 := by
    rw [trytes_length, List.length_replicate]
  have htxslen : txs.length = 3 := by
    rw [htxs, List.length_append, List.length_map, List.length_range, List.length_map,
      List.length_range, hNchunks, hsigchunk]
  have htx0 : txs.getD 0 [] = mf.take 2187 := by
    rw [htxs, hNchunks, chunks_getD mf 2 0 (by norm_num), Nat.zero_mul, List.drop_zero]
  have hvalid486 : validTrits (List.replicate 243 (0 : Int) ++ List.replicate 243 0) := by
    intro t ht
    rcases List.mem_append.mp ht with h1 | h1
    · rw [List.eq_of_mem_replicate h1]; exact Or.inr (Or.inl rfl)
    · rw [List.eq_of_mem_replicate h1]; exact Or.inr (Or.inl rfl)
  have hpay27 : ∀ c ∈ payload, c < 27 := by
    rw [hpayload]
    intro c hc
    simp only [List.mem_append, List.mem_singleton] at hc
    rcases hc with (((((h1 | h2) | h3) | h4) | h5) | h6)
    · exact intToPaddedTrytes_lt27 0 6 c h1
    · rw [h2]; norm_num
    · exact intToPaddedTrytes_lt27 1 1 c h3
    · exact intToPaddedTrytes_lt27 2015 3 c h4
    · rw [List.eq_of_mem_replicate h5]; norm_num
    · exact trytes_lt27 _ hvalid486 c h6
  have hpad27 : ∀ c ∈ padTrytesMultipleOf 2187 2187 payload, c < 27 := by
    intro c hc
    rw [padMultiple_eq payload 2 (by omega) (by rw [hPlen])] at hc
    rcases List.mem_append.mp hc with hcp | hcr
    · exact hpay27 c hcp
    · rw [List.eq_of_mem_replicate hcr]; norm_num
  have hdec : decrypt zeroSponge mf key = padTrytesMultipleOf 2187 2187 payload := by
    rw [hmf, decrypt_encrypt zeroSponge (fun _ _ => Or.inr (Or.inl rfl)) _ key hpad27]
  have hSecVal : alphaIndexOf
      ((((padTrytesMultipleOf 2187 2187 payload).take 2187).drop 6).take 1) = 0 := by
    rw [padSlice payload 6 1 (by omega) (by norm_num) (by omega)]
    have hv : payload = intToPaddedTrytes 0 6 ++ ([0 * 4 + 1 - 1] ++
        (intToPaddedTrytes 1 1 ++ (intToPaddedTrytes 2015 3 ++ (List.replicate 2015 0 ++
        trytes (List.replicate 243 0 ++ List.replicate 243 0))))) := by
      rw [hpayload]; simp only [List.append_assoc]
    rw [hv, drop_append_exact _ _ 6 hp1, take_append_exact [0 * 4 + 1 - 1] _ 1 rfl]
    rfl
  have hHeightVal : trytesToInt
      ((((padTrytesMultipleOf 2187 2187 payload).take 2187).drop 7).take 1) = 1 := by
    rw [padSlice payload 7 1 (by omega) (by norm_num) (by omega)]
    have hv : payload = (intToPaddedTrytes 0 6 ++ [0 * 4 + 1 - 1]) ++
        (intToPaddedTrytes 1 1 ++ (intToPaddedTrytes 2015 3 ++ (List.replicate 2015 0 ++
        trytes (List.replicate 243 0 ++ List.replicate 243 0)))) := by
      rw [hpayload]; simp only [List.append_assoc]
    rw [hv, drop_append_exact _ _ 7 (by rw [List.length_append, hp1]; rfl),
      take_append_exact _ _ 1 hp3, trytesToInt_intToPaddedTrytes]
  have hLenVal : trytesToInt
      ((((padTrytesMultipleOf 2187 2187 payload).take 2187).drop 8).take 3) = 2015 := by
    rw [padSlice payload 8 3 (by omega) (by norm_num) (by omega)]
    have hv : payload = (intToPaddedTrytes 0 6 ++ [0 * 4 + 1 - 1] ++
        intToPaddedTrytes 1 1) ++ (intToPaddedTrytes 2015 3 ++ (List.replicate 2015 0 ++
        trytes (List.replicate 243 0 ++ List.replicate 243 0))) := by
      rw [hpayload]; simp only [List.append_assoc]
    rw [hv, drop_append_exact _ _ 8 (by rw [List.length_append, List.length_append, hp1, hp3]; rfl),
      take_append_exact _ _ 3 hp4, trytesToInt_intToPaddedTrytes]
  intro parsed hp
  unfold processBundle at hp
  dsimp only at hp
  rw [if_neg (show ¬ txs.length < 2 from by omega),
    if_neg (show ¬ (false = true) from fun hx => Bool.noConfusion hx),
    if_neg (show ¬ (false = true) from fun hx => Bool.noConfusion hx),
    if_neg (show ¬ (false = true) from fun hx => Bool.noConfusion hx),
    if_neg (show ¬ (false = true) from fun hx => Bool.noConfusion hx)] at hp
  rw [htx0, decrypt_take, hdec] at hp
  rw [hSecVal, hHeightVal, hLenVal] at hp
  rw [show (0 : Nat) % 4 + 1 = 1 from rfl, show (0 : Nat) / 4 * 81 = 0 from rfl] at hp
  rw [show (2015 + (1 + 1) * (1 * 81) + 0 + 2186) / 2187 = 1 from by norm_num] at hp
  rw [show (1 : Nat) - 1 = 0 from rfl, cipherExt, List.append_nil] at hp
  rw [decrypt_take, hdec] at hp
  have hDeq : ((padTrytesMultipleOf 2187 2187 payload).take 2187).drop 11
      = (payload.drop 11).take 2176 := by
    rw [padMultiple_eq payload 2 (by omega) (by rw [hPlen]), List.take_append_eq_append_take,
      show 2187 - payload.length = 0 from by omega, List.take_zero, List.append_nil,
      drop_take_comm]
  rw [hDeq] at hp
  have hSlen : ((((payload.drop 11).take 2176).drop (2015 + 1 * 81)).take
      (1 * (1 * 81))).length = 80 := by
    rw [List.length_take, List.length_drop, List.length_take, List.length_drop, hPlen]
    omega
  rw [hSlen, show (80 + 1 * 81 - 1) / (1 * 81) = 1 from by norm_num] at hp
  intro hcontra
  rw [← Except.ok.inj hp] at hcontra
  dsimp only at hcontra
  rw [show List.range 1 = [0] from rfl] at hcontra
  simp only [List.map_cons, List.map_nil] at hcontra
  injection hcontra with hhead htail
  have h240 := congrArg List.length hhead
  rw [trits_length, List.length_take, List.length_drop, hSlen, List.length_replicate] at h240
  omega

set_option maxRecDepth 10000 in
/-- Counterexample for **C2**: the round trip is NOT exact for every message
shorter than 27^3 trytes.  A security-1, height-1 channel with a 2015-tryte
message gives an unheadered payload length of 2177 = 2015 + 2*81: the
assembled bundle spans 2 payload transactions (the 11-tryte header pushes it
over 2187), but `processBundle` computes `payloadTransactions = 1` from the
unheadered length, drops the second fragment, and returns an auth-path hash
of 240 trits instead of the original 243-trit hash. -/
theorem claim_C2_counterexample :
    ∃ txs,
      createTransfers zeroSponge (List.replicate 243 0) (List.replicate 2015 0)
          (List.replicate 6561 0) 0 (List.replicate 243 0) [List.replicate 243 0]
          none none none = Except.ok txs ∧
      ∀ parsed, processBundle zeroSponge txs
          (getKey (List.replicate 243 0) none (trits (intToTrytes 0)) none)
          none none none = Except.ok parsed →
        parsed.authPathHashes ≠ [List.replicate 243 0] :=
  ⟨_, createTransfers_eq zeroSponge (List.replicate 243 0) 1
      (by rw [List.length_replicate]) (by decide) (by decide) (List.replicate 2015 0)
      (by rw [List.length_replicate]; norm_num) (List.replicate 6561 0) 0
      (List.replicate 243 0) [List.replicate 243 0] (by decide) (by decide) (by decide)
      none none [] 0 none (by decide) rfl rfl,
    processBundle_cx (getKey (List.replicate 243 0) none (trits (intToTrytes 0)) none)
      _ _ _ rfl rfl rfl⟩

end Raam
